import Mathlib

/-!
Verification development for the Minesweeper no-guess solvability oracle
(src/shared/solver-wasm): a shallow embedding of types.rs, board.rs,
solver.rs and gaussian.rs, together with theorems about the embedded code.

Representation choices, documented once here:
* The flat column-major Vec storage of Grid, VisibleGrid, Flags and Mines
  (cells at index x * height + y) is modelled as a total function on the two
  coordinates; the code only ever reads and writes in-bounds cells, and every
  write in the embedding is guarded exactly where the source guards it.
* Rust HashSet and HashMap iteration order is unspecified; the embedding uses
  deterministic insertion-ordered duplicate-free lists in their place.
* The f32 arithmetic of gaussian.rs is modelled over exact rationals with the
  same tolerance constants; none of the theorems below depends on the numeric
  results of that strategy, only on which cells it may touch.
* The stateful external RNG (rng.rs wraps a library generator) is modelled as
  an abstract draw stream: a function from draw index and exclusive bound to
  the drawn value, quantified over in the theorems.
* Unbounded source loops are modelled with an explicit step budget that is
  provably never exhausted (the budget exceeds a strictly decreasing measure
  of the loop state); bounded source loops use their own source bound.
-/

set_option maxRecDepth 20000

namespace MSolver

/-- Pointwise update of a two-argument function at one cell. -/
def upd2 {α : Type} (f : ℕ → ℕ → α) (x y : ℕ) (v : α) : ℕ → ℕ → α :=
  fun a b => if a = x ∧ b = y then v else f a b

@[simp]
theorem upd2_same {α : Type} (f : ℕ → ℕ → α) (x y : ℕ) (v : α) : upd2 f x y v x y = v := by
  simp [upd2]

theorem upd2_other {α : Type} (f : ℕ → ℕ → α) (x y a b : ℕ) (v : α)
    (h : ¬(a = x ∧ b = y)) : upd2 f x y v a b = f a b := by
  simp only [upd2, if_neg h]

/-- types.rs cell_key: the packed key ((x as u32) << 16) | (y as u32). -/
def cell_key (x y : ℕ) : ℕ :=
  (((x % 4294967296) <<< 16) % 4294967296) ||| (y % 4294967296)

/-- types.rs decode_key: (key >> 16, key & 0xFFFF). -/
def decode_key (k : ℕ) : ℕ × ℕ :=
  (k >>> 16, k &&& 65535)

/-- The eight neighbor offsets in the dx-major, dy-minor scan order used by
NeighborCache.new in types.rs (the (0,0) offset is skipped by the source). -/
def offsets8 : List (Int × Int) :=
  [(-1,-1),(-1,0),(-1,1),(0,-1),(0,1),(1,-1),(1,0),(1,1)]

/-- Model of NeighborCache.get (types.rs): the in-bounds 8-neighborhood of
(x, y), cached once per board in the source and recomputed on demand here. -/
def nc_get (W H x y : ℕ) : List (ℕ × ℕ) :=
  offsets8.filterMap (fun d =>
    if 0 ≤ (x : Int) + d.1 ∧ (x : Int) + d.1 < (W : Int) ∧
       0 ≤ (y : Int) + d.2 ∧ (y : Int) + d.2 < (H : Int) then
      some (((x : Int) + d.1).toNat, ((y : Int) + d.2).toNat)
    else none)

theorem nc_get_bounds {W H x y : ℕ} {p : ℕ × ℕ} (h : p ∈ nc_get W H x y) :
    p.1 < W ∧ p.2 < H := by
  simp only [nc_get, List.mem_filterMap] at h
  obtain ⟨d, _, hd⟩ := h
  by_cases hc : 0 ≤ (x : Int) + d.1 ∧ (x : Int) + d.1 < (W : Int) ∧
      0 ≤ (y : Int) + d.2 ∧ (y : Int) + d.2 < (H : Int)
  · rw [if_pos hc] at hd
    obtain ⟨h1, h2, h3, h4⟩ := hc
    cases hd
    constructor <;> simp <;> omega
  · rw [if_neg hc] at hd
    cases hd

/-- Number of in-bounds cells satisfying a predicate; the common shape of
Mines.count in types.rs and of the revealed-cell scans in solver.rs. -/
def gridCount (W H : ℕ) (p : ℕ → ℕ → Bool) : ℕ :=
  ∑ x ∈ Finset.range W, ∑ y ∈ Finset.range H, (if p x y then 1 else 0)

theorem gridCount_le (W H : ℕ) (p : ℕ → ℕ → Bool) : gridCount W H p ≤ W * H := by
  calc gridCount W H p ≤ ∑ _x ∈ Finset.range W, ∑ _y ∈ Finset.range H, 1 := by
        apply Finset.sum_le_sum
        intro x _
        apply Finset.sum_le_sum
        intro y _
        split <;> omega
    _ = W * H := by simp [mul_comm]

theorem gridCount_congr {W H : ℕ} {p q : ℕ → ℕ → Bool}
    (h : ∀ x < W, ∀ y < H, p x y = q x y) : gridCount W H p = gridCount W H q := by
  apply Finset.sum_congr rfl
  intro x hx
  apply Finset.sum_congr rfl
  intro y hy
  rw [h x (Finset.mem_range.mp hx) y (Finset.mem_range.mp hy)]

theorem gridCount_mono {W H : ℕ} {p q : ℕ → ℕ → Bool}
    (h : ∀ x < W, ∀ y < H, p x y = true → q x y = true) :
    gridCount W H p ≤ gridCount W H q := by
  apply Finset.sum_le_sum
  intro x hx
  apply Finset.sum_le_sum
  intro y hy
  have := h x (Finset.mem_range.mp hx) y (Finset.mem_range.mp hy)
  by_cases hp : p x y = true
  · simp [hp, this hp]
  · simp only [Bool.not_eq_true] at hp
    simp [hp]

theorem gridCount_upd2 (W H : ℕ) (p : ℕ → ℕ → Bool) (x y : ℕ)
    (hx : x < W) (hy : y < H) (b : Bool) :
    gridCount W H (upd2 p x y b) + (if p x y then 1 else 0) =
      gridCount W H p + (if b then 1 else 0) := by
  unfold gridCount
  have hxm : x ∈ Finset.range W := Finset.mem_range.mpr hx
  have hym : y ∈ Finset.range H := Finset.mem_range.mpr hy
  rw [← Finset.add_sum_erase _ _ hxm, ← Finset.add_sum_erase _ _ hxm]
  have houter : ∑ a ∈ (Finset.range W).erase x,
      ∑ b' ∈ Finset.range H, (if upd2 p x y b a b' then 1 else 0) =
      ∑ a ∈ (Finset.range W).erase x,
      ∑ b' ∈ Finset.range H, (if p a b' then 1 else 0) := by
    apply Finset.sum_congr rfl
    intro a ha
    apply Finset.sum_congr rfl
    intro b' _
    rw [upd2_other]
    intro ⟨h1, _⟩
    exact (Finset.mem_erase.mp ha).1 h1
  rw [houter]
  rw [← Finset.add_sum_erase _ _ hym, ← Finset.add_sum_erase _ _ hym]
  have hinner : ∑ b' ∈ (Finset.range H).erase y, (if upd2 p x y b x b' then 1 else 0) =
      ∑ b' ∈ (Finset.range H).erase y, (if p x b' then 1 else 0) := by
    apply Finset.sum_congr rfl
    intro b' hb'
    rw [upd2_other]
    intro ⟨_, h2⟩
    exact (Finset.mem_erase.mp hb').1 h2
  rw [hinner, upd2_same]
  omega

/-- Number of in-bounds hidden cells of a visible grid (sentinel -1). -/
def hiddenCount (W H : ℕ) (v : ℕ → ℕ → Int) : ℕ :=
  gridCount W H (fun x y => v x y == -1)

/-- Number of in-bounds revealed cells of a visible grid, matching the final
scan of is_solvable in solver.rs. -/
def revealedCount (W H : ℕ) (v : ℕ → ℕ → Int) : ℕ :=
  gridCount W H (fun x y => v x y != -1)

theorem nc_get_length_le (W H x y : ℕ) : (nc_get W H x y).length ≤ 8 := by
  have h := List.length_filterMap_le (fun d =>
    if 0 ≤ (x : Int) + d.1 ∧ (x : Int) + d.1 < (W : Int) ∧
       0 ≤ (y : Int) + d.2 ∧ (y : Int) + d.2 < (H : Int) then
      some (((x : Int) + d.1).toNat, ((y : Int) + d.2).toNat)
    else none) offsets8
  simpa [nc_get, offsets8] using h

/-- Step-budget form of the simulate_reveal while loop of solver.rs.  The
stack head is the top of the Rust Vec stack; pushes therefore prepend the
reversed neighbor list.  One budget unit is spent per pop; the budget used by
simulate_reveal below is provably never exhausted. -/
def simulate_reveal_go (W H : ℕ) (grid : ℕ → ℕ → Int) (flags : ℕ → ℕ → Bool) :
    ℕ → List (ℕ × ℕ) → (ℕ → ℕ → Int) → (ℕ → ℕ → Int)
  | 0, _, v => v
  | _ + 1, [], v => v
  | fuel + 1, (cx, cy) :: rest, v =>
    if W ≤ cx ∨ H ≤ cy then
      simulate_reveal_go W H grid flags fuel rest v
    else if v cx cy ≠ -1 ∨ flags cx cy = true then
      simulate_reveal_go W H grid flags fuel rest v
    else
      let val := grid cx cy
      let v2 := upd2 v cx cy val
      if val = 0 then
        simulate_reveal_go W H grid flags fuel ((nc_get W H cx cy).reverse ++ rest) v2
      else
        simulate_reveal_go W H grid flags fuel rest v2

/-- solver.rs simulate_reveal: flood-fill reveal starting from (x, y). -/
def simulate_reveal (W H : ℕ) (grid : ℕ → ℕ → Int) (flags : ℕ → ℕ → Bool)
    (x y : ℕ) (v : ℕ → ℕ → Int) : ℕ → ℕ → Int :=
  simulate_reveal_go W H grid flags (1 + 9 * (W * H)) [(x, y)] v

/-- Characterization of the reveal loop: each cell is either untouched or was
an in-bounds hidden unflagged cell that now carries its grid value. -/
theorem simulate_reveal_go_char (W H : ℕ) (grid : ℕ → ℕ → Int) (flags : ℕ → ℕ → Bool) :
    ∀ (fuel : ℕ) (stack : List (ℕ × ℕ)) (v : ℕ → ℕ → Int) (x y : ℕ),
      simulate_reveal_go W H grid flags fuel stack v x y = v x y ∨
      (x < W ∧ y < H ∧ v x y = -1 ∧ flags x y = false ∧
        simulate_reveal_go W H grid flags fuel stack v x y = grid x y) := by
  intro fuel
  induction fuel with
  | zero => intro stack v x y; left; rfl
  | succ fuel ih =>
    intro stack v x y
    match stack with
    | [] => left; rfl
    | (cx, cy) :: rest =>
      by_cases h1 : W ≤ cx ∨ H ≤ cy
      · rw [show simulate_reveal_go W H grid flags (fuel + 1) ((cx, cy) :: rest) v =
            simulate_reveal_go W H grid flags fuel rest v by
          simp [simulate_reveal_go, h1]]
        exact ih rest v x y
      · by_cases h2 : v cx cy ≠ -1 ∨ flags cx cy = true
        · rw [show simulate_reveal_go W H grid flags (fuel + 1) ((cx, cy) :: rest) v =
              simulate_reveal_go W H grid flags fuel rest v by
            simp only [simulate_reveal_go]
            rw [if_neg h1, if_pos h2]]
          exact ih rest v x y
        · push_neg at h1 h2
          obtain ⟨hcx, hcy⟩ := h1
          obtain ⟨hv, hf⟩ := h2
          simp only [Bool.not_eq_true] at hf
          set v2 := upd2 v cx cy (grid cx cy) with hv2
          have hrw : simulate_reveal_go W H grid flags (fuel + 1) ((cx, cy) :: rest) v =
              (if grid cx cy = 0 then
                simulate_reveal_go W H grid flags fuel ((nc_get W H cx cy).reverse ++ rest) v2
              else
                simulate_reveal_go W H grid flags fuel rest v2) := by
            simp only [simulate_reveal_go]
            rw [if_neg (by omega), if_neg (by push_neg; exact ⟨by simpa using hv, by simp [hf]⟩)]
          by_cases hxy : x = cx ∧ y = cy
          · obtain ⟨hx, hy⟩ := hxy
            subst hx; subst hy
            have hv2xy : v2 x y = grid x y := upd2_same v x y (grid x y)
            rw [hrw]
            split
            · rcases ih ((nc_get W H x y).reverse ++ rest) v2 x y with hL | hR
              · right
                exact ⟨hcx, hcy, by simpa using hv, hf, by rw [hL, hv2xy]⟩
              · right
                refine ⟨hcx, hcy, by simpa using hv, hf, ?_⟩
                rw [hR.2.2.2.2]
            · rcases ih rest v2 x y with hL | hR
              · right
                exact ⟨hcx, hcy, by simpa using hv, hf, by rw [hL, hv2xy]⟩
              · right
                refine ⟨hcx, hcy, by simpa using hv, hf, ?_⟩
                rw [hR.2.2.2.2]
          · have hv2xy : v2 x y = v x y := upd2_other v cx cy x y (grid cx cy) hxy
            rw [hrw]
            split
            · rcases ih ((nc_get W H cx cy).reverse ++ rest) v2 x y with hL | hR
              · left; rw [hL, hv2xy]
              · right
                exact ⟨hR.1, hR.2.1, by rw [← hv2xy]; exact hR.2.2.1, hR.2.2.2.1, hR.2.2.2.2⟩
            · rcases ih rest v2 x y with hL | hR
              · left; rw [hL, hv2xy]
              · right
                exact ⟨hR.1, hR.2.1, by rw [← hv2xy]; exact hR.2.2.1, hR.2.2.2.1, hR.2.2.2.2⟩

theorem simulate_reveal_char (W H : ℕ) (grid : ℕ → ℕ → Int) (flags : ℕ → ℕ → Bool)
    (sx sy : ℕ) (v : ℕ → ℕ → Int) (x y : ℕ) :
    simulate_reveal W H grid flags sx sy v x y = v x y ∨
    (x < W ∧ y < H ∧ v x y = -1 ∧ flags x y = false ∧
      simulate_reveal W H grid flags sx sy v x y = grid x y) :=
  simulate_reveal_go_char W H grid flags _ _ v x y

theorem simulate_reveal_keeps (W H : ℕ) (grid : ℕ → ℕ → Int) (flags : ℕ → ℕ → Bool)
    (sx sy : ℕ) (v : ℕ → ℕ → Int) (x y : ℕ) (h : v x y ≠ -1) :
    simulate_reveal W H grid flags sx sy v x y = v x y := by
  rcases simulate_reveal_char W H grid flags sx sy v x y with hL | hR
  · exact hL
  · exact absurd hR.2.2.1 h

theorem gridCount_pos {W H : ℕ} {p : ℕ → ℕ → Bool} {x y : ℕ}
    (hx : x < W) (hy : y < H) (h : p x y = true) : 1 ≤ gridCount W H p := by
  unfold gridCount
  calc (1 : ℕ) = ∑ b ∈ {y}, (if p x b then 1 else 0) := by
        rw [Finset.sum_singleton, if_pos h]
    _ ≤ ∑ b ∈ Finset.range H, (if p x b then 1 else 0) := by
        apply Finset.sum_le_sum_of_subset
        simpa using hy
    _ ≤ ∑ a ∈ Finset.range W, ∑ b ∈ Finset.range H, (if p a b then 1 else 0) := by
        apply Finset.single_le_sum (f := fun a => ∑ b ∈ Finset.range H, (if p a b then 1 else 0))
        · intro i _
          positivity
        · simpa using hx

theorem hiddenCount_upd2_reveal {W H : ℕ} {v : ℕ → ℕ → Int} {x y : ℕ} {val : Int}
    (hx : x < W) (hy : y < H) (hv : v x y = -1) (hval : val ≠ -1) :
    hiddenCount W H (upd2 v x y val) + 1 = hiddenCount W H v := by
  have hcongr : gridCount W H (fun a b => upd2 v x y val a b == -1) =
      gridCount W H (upd2 (fun a b => v a b == -1) x y false) := by
    apply gridCount_congr
    intro a _ b _
    by_cases hab : a = x ∧ b = y
    · obtain ⟨h1, h2⟩ := hab; subst h1; subst h2; simp [upd2, hval]
    · rw [upd2_other _ _ _ _ _ _ hab, upd2_other _ _ _ _ _ _ hab]
  unfold hiddenCount
  rw [hcongr]
  have hbase := gridCount_upd2 W H (fun a b => v a b == -1) x y hx hy false
  set A := gridCount W H (upd2 (fun a b => v a b == -1) x y false) with hA
  set B := gridCount W H (fun a b => v a b == -1) with hB
  simp [hv] at hbase
  omega

theorem hiddenCount_upd2_still {W H : ℕ} {v : ℕ → ℕ → Int} {x y : ℕ}
    (hv : v x y = -1) :
    hiddenCount W H (upd2 v x y (-1)) = hiddenCount W H v := by
  apply gridCount_congr
  intro a _ b _
  by_cases hab : a = x ∧ b = y
  · obtain ⟨h1, h2⟩ := hab; subst h1; subst h2; simp [upd2, hv]
  · rw [upd2_other _ _ _ _ _ _ hab]

/-- One unfolding step of the reveal loop on a nonempty stack. -/
theorem simulate_reveal_go_cons (W H : ℕ) (grid : ℕ → ℕ → Int) (flags : ℕ → ℕ → Bool)
    (fuel cx cy : ℕ) (rest : List (ℕ × ℕ)) (v : ℕ → ℕ → Int) :
    simulate_reveal_go W H grid flags (fuel + 1) ((cx, cy) :: rest) v =
      if W ≤ cx ∨ H ≤ cy then simulate_reveal_go W H grid flags fuel rest v
      else if v cx cy ≠ -1 ∨ flags cx cy = true then
        simulate_reveal_go W H grid flags fuel rest v
      else if grid cx cy = 0 then
        simulate_reveal_go W H grid flags fuel ((nc_get W H cx cy).reverse ++ rest)
          (upd2 v cx cy (grid cx cy))
      else
        simulate_reveal_go W H grid flags fuel rest (upd2 v cx cy (grid cx cy)) := rfl

/-- One extra unit of budget changes nothing once the budget dominates the
loop measure: the reveal while loop runs to completion inside the budget. -/
theorem simulate_reveal_go_fuel_succ (W H : ℕ) (grid : ℕ → ℕ → Int)
    (flags : ℕ → ℕ → Bool) :
    ∀ (fuel : ℕ) (stack : List (ℕ × ℕ)) (v : ℕ → ℕ → Int),
      stack.length + 9 * hiddenCount W H v ≤ fuel →
      simulate_reveal_go W H grid flags (fuel + 1) stack v =
        simulate_reveal_go W H grid flags fuel stack v := by
  intro fuel
  induction fuel with
  | zero =>
    intro stack v hm
    have : stack = [] := by
      cases stack with
      | nil => rfl
      | cons a l => simp at hm
    subst this
    rfl
  | succ fuel ih =>
    intro stack v hm
    match stack with
    | [] => rfl
    | (cx, cy) :: rest =>
      have hrest : rest.length + 9 * hiddenCount W H v ≤ fuel := by
        simp only [List.length_cons] at hm; omega
      rw [simulate_reveal_go_cons, simulate_reveal_go_cons]
      by_cases h1 : W ≤ cx ∨ H ≤ cy
      · rw [if_pos h1, if_pos h1]
        exact ih rest v hrest
      · rw [if_neg h1, if_neg h1]
        by_cases h2 : v cx cy ≠ -1 ∨ flags cx cy = true
        · rw [if_pos h2, if_pos h2]
          exact ih rest v hrest
        · rw [if_neg h2, if_neg h2]
          push_neg at h1 h2
          obtain ⟨hcx, hcy⟩ := h1
          obtain ⟨hv, hf⟩ := h2
          have hv' : v cx cy = -1 := by simpa using hv
          have hpos : 1 ≤ hiddenCount W H v :=
            gridCount_pos hcx hcy (by simp [hv'])
          by_cases hz : grid cx cy = 0
          · rw [if_pos hz, if_pos hz]
            apply ih
            have hlen : ((nc_get W H cx cy).reverse ++ rest).length ≤ 8 + rest.length := by
              simp only [List.length_append, List.length_reverse]
              have := nc_get_length_le W H cx cy
              omega
            have hhc : hiddenCount W H (upd2 v cx cy (grid cx cy)) + 1 = hiddenCount W H v :=
              hiddenCount_upd2_reveal hcx hcy hv' (by rw [hz]; decide)
            simp only [List.length_cons] at hm
            omega
          · rw [if_neg hz, if_neg hz]
            apply ih
            by_cases hneg : grid cx cy = -1
            · have hhc : hiddenCount W H (upd2 v cx cy (grid cx cy)) = hiddenCount W H v := by
                rw [hneg]; exact hiddenCount_upd2_still hv'
              simp only [List.length_cons] at hm
              omega
            · have hhc : hiddenCount W H (upd2 v cx cy (grid cx cy)) + 1 = hiddenCount W H v :=
                hiddenCount_upd2_reveal hcx hcy hv' hneg
              simp only [List.length_cons] at hm
              omega

theorem simulate_reveal_go_fuel_add (W H : ℕ) (grid : ℕ → ℕ → Int)
    (flags : ℕ → ℕ → Bool) (k : ℕ) :
    ∀ (fuel : ℕ) (stack : List (ℕ × ℕ)) (v : ℕ → ℕ → Int),
      stack.length + 9 * hiddenCount W H v ≤ fuel →
      simulate_reveal_go W H grid flags (fuel + k) stack v =
        simulate_reveal_go W H grid flags fuel stack v := by
  induction k with
  | zero => intro fuel stack v _; rfl
  | succ k ih =>
    intro fuel stack v hm
    have : fuel + (k + 1) = (fuel + k) + 1 := by omega
    rw [this, simulate_reveal_go_fuel_succ W H grid flags (fuel + k) stack v (by omega)]
    exact ih fuel stack v hm

/-- The reveal cascade finishes within its budget: any budget at least
1 + 9 * W * H computes the same final visible grid. -/
theorem simulate_reveal_fuel_stable (W H : ℕ) (grid : ℕ → ℕ → Int)
    (flags : ℕ → ℕ → Bool) (x y : ℕ) (v : ℕ → ℕ → Int) (fuel : ℕ)
    (h : 1 + 9 * (W * H) ≤ fuel) :
    simulate_reveal_go W H grid flags fuel [(x, y)] v =
      simulate_reveal W H grid flags x y v := by
  have hmeas : ([(x, y)] : List (ℕ × ℕ)).length + 9 * hiddenCount W H v ≤ 1 + 9 * (W * H) := by
    have := gridCount_le W H (fun a b => v a b == -1)
    simp only [List.length_cons, List.length_nil]
    unfold hiddenCount
    omega
  have hk : fuel = (1 + 9 * (W * H)) + (fuel - (1 + 9 * (W * H))) := by omega
  rw [hk, simulate_reveal_go_fuel_add W H grid flags _ _ _ _ hmeas]
  rfl

/-- Mutable solver state of is_solvable (solver.rs): the visible grid, the
flag grid and the running flag count.  The dirty set travels separately, as
in the source where each strategy receives and returns it explicitly. -/
structure SState where
  visible : ℕ → ℕ → Int
  flags : ℕ → ℕ → Bool
  flagCount : ℕ

/-- A reveal with cascade inside a state (flags are read, never written). -/
def stReveal (W H : ℕ) (grid : ℕ → ℕ → Int) (s : SState) (x y : ℕ) : SState :=
  { s with visible := simulate_reveal W H grid s.flags x y s.visible }

/-- flags.set plus count increment behind the source's !flags.get guard. -/
def stFlagGuarded (s : SState) (x y : ℕ) : SState :=
  if s.flags x y then s
  else { s with flags := upd2 s.flags x y true, flagCount := s.flagCount + 1 }

/-- Unguarded flags.set plus count increment, used at the source sites that
flag a cell known to be unflagged (contradiction and global strategies). -/
def stFlagRaw (s : SState) (x y : ℕ) : SState :=
  { s with flags := upd2 s.flags x y true, flagCount := s.flagCount + 1 }

/-- Invariants (1)-(3) of spec section 3, for every in-bounds cell: a revealed
cell shows its grid value and is unflagged, a flagged cell is hidden, and the
running flag count agrees with the flag grid. -/
def SInv (W H : ℕ) (grid : ℕ → ℕ → Int) (s : SState) : Prop :=
  (∀ x < W, ∀ y < H, s.visible x y ≠ -1 →
      s.visible x y = grid x y ∧ s.flags x y = false) ∧
  (∀ x < W, ∀ y < H, s.flags x y = true → s.visible x y = -1) ∧
  s.flagCount = gridCount W H s.flags

/-- Pointwise monotonicity between two states: revealed cells keep their
value and flags are never removed. -/
def StepMono (s s2 : SState) : Prop :=
  (∀ x y, s.visible x y ≠ -1 → s2.visible x y = s.visible x y) ∧
  (∀ x y, s.flags x y = true → s2.flags x y = true)

theorem stepMono_refl (s : SState) : StepMono s s :=
  ⟨fun _ _ _ => rfl, fun _ _ h => h⟩

theorem stepMono_trans {s1 s2 s3 : SState} (h12 : StepMono s1 s2)
    (h23 : StepMono s2 s3) : StepMono s1 s3 := by
  constructor
  · intro x y hv
    rw [h23.1 x y (by rw [h12.1 x y hv]; exact hv), h12.1 x y hv]
  · intro x y hf
    exact h23.2 x y (h12.2 x y hf)

theorem stReveal_mono (W H : ℕ) (grid : ℕ → ℕ → Int) (s : SState) (x y : ℕ) :
    StepMono s (stReveal W H grid s x y) := by
  constructor
  · intro a b hv
    exact simulate_reveal_keeps W H grid s.flags x y s.visible a b hv
  · intro a b hf
    exact hf

theorem stFlagGuarded_mono (s : SState) (x y : ℕ) :
    StepMono s (stFlagGuarded s x y) := by
  unfold stFlagGuarded
  split
  · exact stepMono_refl s
  · constructor
    · intro a b _; rfl
    · intro a b hf
      by_cases hab : a = x ∧ b = y
      · obtain ⟨h1, h2⟩ := hab; subst h1; subst h2; simp [upd2]
      · show upd2 s.flags x y true a b = true
        rw [upd2_other _ _ _ _ _ _ hab]; exact hf

theorem stFlagRaw_mono (s : SState) (x y : ℕ) :
    StepMono s (stFlagRaw s x y) := by
  constructor
  · intro a b _; rfl
  · intro a b hf
    by_cases hab : a = x ∧ b = y
    · obtain ⟨h1, h2⟩ := hab; subst h1; subst h2; simp [stFlagRaw, upd2]
    · show upd2 s.flags x y true a b = true
      rw [upd2_other _ _ _ _ _ _ hab]; exact hf

theorem stReveal_inv {W H : ℕ} {grid : ℕ → ℕ → Int} {s : SState}
    (hinv : SInv W H grid s) (x y : ℕ) : SInv W H grid (stReveal W H grid s x y) := by
  obtain ⟨h1, h2, h3⟩ := hinv
  refine ⟨?_, ?_, h3⟩
  · intro a ha b hb hv
    rcases simulate_reveal_char W H grid s.flags x y s.visible a b with hL | hR
    · unfold stReveal at hv ⊢
      simp only at hv ⊢
      rw [hL] at hv ⊢
      exact h1 a ha b hb hv
    · unfold stReveal
      simp only
      exact ⟨hR.2.2.2.2, hR.2.2.2.1⟩
  · intro a ha b hb hf
    rcases simulate_reveal_char W H grid s.flags x y s.visible a b with hL | hR
    · unfold stReveal at hf ⊢
      simp only at hf ⊢
      rw [hL]
      exact h2 a ha b hb hf
    · exact absurd hf (by simp [stReveal, hR.2.2.2.1])

theorem stFlagGuarded_inv {W H : ℕ} {grid : ℕ → ℕ → Int} {s : SState}
    (hinv : SInv W H grid s) {x y : ℕ} (hx : x < W) (hy : y < H)
    (hhid : s.visible x y = -1) : SInv W H grid (stFlagGuarded s x y) := by
  obtain ⟨h1, h2, h3⟩ := hinv
  unfold stFlagGuarded
  split
  · exact ⟨h1, h2, h3⟩
  · rename_i hguard
    simp only [Bool.not_eq_true] at hguard
    refine ⟨?_, ?_, ?_⟩
    · intro a ha b hb hv
      simp only at hv ⊢
      refine ⟨(h1 a ha b hb hv).1, ?_⟩
      by_cases hab : a = x ∧ b = y
      · obtain ⟨e1, e2⟩ := hab; subst e1; subst e2; exact absurd hhid hv
      · rw [upd2_other _ _ _ _ _ _ hab]
        exact (h1 a ha b hb hv).2
    · intro a ha b hb hf
      simp only at hf ⊢
      by_cases hab : a = x ∧ b = y
      · obtain ⟨e1, e2⟩ := hab; subst e1; subst e2; exact hhid
      · rw [upd2_other _ _ _ _ _ _ hab] at hf
        exact h2 a ha b hb hf
    · show s.flagCount + 1 = gridCount W H (upd2 s.flags x y true)
      have := gridCount_upd2 W H s.flags x y hx hy true
      rw [hguard] at this
      simp at this
      omega

theorem stFlagRaw_inv {W H : ℕ} {grid : ℕ → ℕ → Int} {s : SState}
    (hinv : SInv W H grid s) {x y : ℕ} (hx : x < W) (hy : y < H)
    (hhid : s.visible x y = -1) (hnf : s.flags x y = false) :
    SInv W H grid (stFlagRaw s x y) := by
  have : stFlagRaw s x y = stFlagGuarded s x y := by
    unfold stFlagRaw stFlagGuarded
    rw [if_neg (by simp [hnf])]
  rw [this]
  exact stFlagGuarded_inv hinv hx hy hhid

theorem stReveal_flags (W H : ℕ) (grid : ℕ → ℕ → Int) (s : SState) (x y : ℕ) :
    (stReveal W H grid s x y).flags = s.flags := rfl

theorem stFlag_visible_guarded (s : SState) (x y : ℕ) :
    (stFlagGuarded s x y).visible = s.visible := by
  unfold stFlagGuarded
  split <;> rfl

theorem stFlag_visible_raw (s : SState) (x y : ℕ) :
    (stFlagRaw s x y).visible = s.visible := rfl

theorem foldl_preserve {α β : Type} (P : α → Prop) (f : α → β → α) (l : List β)
    (hstep : ∀ a b, b ∈ l → P a → P (f a b)) :
    ∀ a, P a → P (l.foldl f a) := by
  induction l with
  | nil => intro a ha; exact ha
  | cons x xs ih =>
    intro a ha
    exact ih (fun a' b hb => hstep a' b (List.mem_cons_of_mem x hb)) _
      (hstep a x (List.mem_cons_self x xs) ha)

/-- HashSet-style insertion into the deterministic dirty list. -/
def insertKey (l : List ℕ) (k : ℕ) : List ℕ :=
  if k ∈ l then l else l ++ [k]

def insertKeys (l : List ℕ) (ks : List ℕ) : List ℕ :=
  ks.foldl insertKey l

/-- solver.rs get_frontier: hidden unflagged cells adjacent to a revealed
number, collected in the x-major, y-minor scan order of the source. -/
def get_frontier (W H : ℕ) (s : SState) : List (ℕ × ℕ) :=
  (List.range W).flatMap (fun x =>
    (List.range H).filterMap (fun y =>
      if s.visible x y = -1 ∧ s.flags x y = false ∧
          (nc_get W H x y).any (fun p => s.visible p.1 p.2 > 0) then
        some (x, y)
      else none))

theorem get_frontier_mem {W H : ℕ} {s : SState} {c : ℕ × ℕ}
    (h : c ∈ get_frontier W H s) :
    c.1 < W ∧ c.2 < H ∧ s.visible c.1 c.2 = -1 ∧ s.flags c.1 c.2 = false := by
  simp only [get_frontier, List.mem_flatMap, List.mem_filterMap, List.mem_range] at h
  obtain ⟨x, hx, y, hy, hc⟩ := h
  by_cases hcond : s.visible x y = -1 ∧ s.flags x y = false ∧
      (nc_get W H x y).any (fun p => s.visible p.1 p.2 > 0)
  · rw [if_pos hcond] at hc
    cases hc
    exact ⟨hx, hy, hcond.1, hcond.2.1⟩
  · rw [if_neg hcond] at hc
    cases hc

/-- The hidden unflagged neighbors of a cell, in neighbor-cache order; the
hidden_cells list built by the neighbor scans in solver.rs. -/
def hidden_neighbors (W H : ℕ) (s : SState) (x y : ℕ) : List (ℕ × ℕ) :=
  (nc_get W H x y).filter (fun p => !s.flags p.1 p.2 && (s.visible p.1 p.2 == -1))

/-- The number of flagged neighbors of a cell (flagged_count in solver.rs). -/
def flagged_count (W H : ℕ) (s : SState) (x y : ℕ) : ℕ :=
  ((nc_get W H x y).filter (fun p => s.flags p.1 p.2)).length

theorem hidden_neighbors_mem {W H : ℕ} {s : SState} {x y : ℕ} {c : ℕ × ℕ}
    (h : c ∈ hidden_neighbors W H s x y) :
    c.1 < W ∧ c.2 < H ∧ s.visible c.1 c.2 = -1 ∧ s.flags c.1 c.2 = false := by
  unfold hidden_neighbors at h
  have hmem := List.mem_of_mem_filter h
  have hprop := List.of_mem_filter h
  simp only [Bool.and_eq_true, Bool.not_eq_true', beq_iff_eq] at hprop
  obtain ⟨hb1, hb2⟩ := nc_get_bounds hmem
  exact ⟨hb1, hb2, hprop.2, hprop.1⟩

-- ── Strategy 1: basic counting rules (apply_basic_rules in solver.rs) ──

/-- Flag one hidden neighbor inside the all-mines branch of the basic rule;
the dirty insertions sit behind the same guard as in the source. -/
def basicFlagCell (W H : ℕ) (sd : SState × List ℕ) (c : ℕ × ℕ) : SState × List ℕ :=
  if sd.1.flags c.1 c.2 then sd
  else (stFlagRaw sd.1 c.1 c.2,
    insertKeys sd.2 ((nc_get W H c.1 c.2).map (fun p => cell_key p.1 p.2)))

/-- Reveal one hidden neighbor inside the all-safe branch of the basic rule. -/
def basicRevealCell (W H : ℕ) (grid : ℕ → ℕ → Int) (sd : SState × List ℕ)
    (c : ℕ × ℕ) : SState × List ℕ :=
  (stReveal W H grid sd.1 c.1 c.2,
    insertKeys sd.2 ((nc_get W H c.1 c.2).map (fun p => cell_key p.1 p.2)))

/-- One dirty-key step of apply_basic_rules.  The accumulator carries
(state, new_dirty, processed, progress). -/
def basicKeyStep (W H : ℕ) (grid : ℕ → ℕ → Int)
    (acc : SState × List ℕ × List ℕ × Bool) (key : ℕ) :
    SState × List ℕ × List ℕ × Bool :=
  let s := acc.1
  let nd := acc.2.1
  let proc := acc.2.2.1
  let prog := acc.2.2.2
  let x := (decode_key key).1
  let y := (decode_key key).2
  if W ≤ x ∨ H ≤ y then acc
  else if s.visible x y ≤ 0 then acc
  else if key ∈ proc then acc
  else
    let proc2 := proc ++ [key]
    let hidden := hidden_neighbors W H s x y
    let fcnt := flagged_count W H s x y
    if hidden.length = 0 then (s, nd, proc2, prog)
    else if s.visible x y = (hidden.length : Int) + (fcnt : Int) then
      let r := hidden.foldl (basicFlagCell W H) (s, nd)
      (r.1, r.2, proc2, true)
    else if s.visible x y = (fcnt : Int) then
      let r := hidden.foldl (basicRevealCell W H grid) (s, nd)
      (r.1, r.2, proc2, true)
    else (s, nd, proc2, prog)

/-- solver.rs apply_basic_rules: returns (progress, state, dirty list), the
dirty list being the fresh one on progress and the input otherwise. -/
def apply_basic_rules (W H : ℕ) (grid : ℕ → ℕ → Int) (s : SState)
    (dirty : List ℕ) : Bool × SState × List ℕ :=
  let r := dirty.foldl (basicKeyStep W H grid) (s, [], [], false)
  (r.2.2.2, r.1, if r.2.2.2 then r.2.1 else dirty)

theorem basicFlagFold_pres {W H : ℕ} {grid : ℕ → ℕ → Int} (s0 : SState)
    (cells : List (ℕ × ℕ))
    (hcells : ∀ c ∈ cells, c.1 < W ∧ c.2 < H ∧ s0.visible c.1 c.2 = -1) :
    ∀ sd : SState × List ℕ,
      (SInv W H grid sd.1 ∧ sd.1.visible = s0.visible ∧ StepMono s0 sd.1) →
      SInv W H grid (cells.foldl (basicFlagCell W H) sd).1 ∧
        (cells.foldl (basicFlagCell W H) sd).1.visible = s0.visible ∧
        StepMono s0 (cells.foldl (basicFlagCell W H) sd).1 := by
  intro sd hsd
  refine foldl_preserve
    (fun sd : SState × List ℕ =>
      SInv W H grid sd.1 ∧ sd.1.visible = s0.visible ∧ StepMono s0 sd.1)
    (basicFlagCell W H) cells ?_ sd hsd
  intro a c hc ⟨ha1, ha2, ha3⟩
  unfold basicFlagCell
  split
  · exact ⟨ha1, ha2, ha3⟩
  · rename_i hnf
    simp only [Bool.not_eq_true] at hnf
    obtain ⟨hb1, hb2, hb3⟩ := hcells c hc
    have hhid : a.1.visible c.1 c.2 = -1 := by rw [ha2]; exact hb3
    refine ⟨stFlagRaw_inv ha1 hb1 hb2 hhid hnf, ?_, ?_⟩
    · rw [stFlag_visible_raw]; exact ha2
    · exact stepMono_trans ha3 (stFlagRaw_mono a.1 c.1 c.2)

theorem basicRevealFold_pres {W H : ℕ} {grid : ℕ → ℕ → Int} (s0 : SState)
    (cells : List (ℕ × ℕ)) :
    ∀ sd : SState × List ℕ,
      (SInv W H grid sd.1 ∧ StepMono s0 sd.1) →
      SInv W H grid (cells.foldl (basicRevealCell W H grid) sd).1 ∧
        StepMono s0 (cells.foldl (basicRevealCell W H grid) sd).1 := by
  intro sd hsd
  refine foldl_preserve
    (fun sd : SState × List ℕ => SInv W H grid sd.1 ∧ StepMono s0 sd.1)
    (basicRevealCell W H grid) cells ?_ sd hsd
  intro a c _ ⟨ha1, ha2⟩
  exact ⟨stReveal_inv ha1 c.1 c.2,
    stepMono_trans ha2 (stReveal_mono W H grid a.1 c.1 c.2)⟩

theorem apply_basic_rules_pres {W H : ℕ} {grid : ℕ → ℕ → Int} {s : SState}
    (hinv : SInv W H grid s) (dirty : List ℕ) :
    SInv W H grid (apply_basic_rules W H grid s dirty).2.1 ∧
      StepMono s (apply_basic_rules W H grid s dirty).2.1 := by
  have hfold : ∀ acc : SState × List ℕ × List ℕ × Bool,
      (SInv W H grid acc.1 ∧ StepMono s acc.1) →
      SInv W H grid (dirty.foldl (basicKeyStep W H grid) acc).1 ∧
        StepMono s (dirty.foldl (basicKeyStep W H grid) acc).1 := by
    intro acc hacc
    refine foldl_preserve
      (fun acc : SState × List ℕ × List ℕ × Bool =>
        SInv W H grid acc.1 ∧ StepMono s acc.1)
      (basicKeyStep W H grid) dirty ?_ acc hacc
    intro a key _ ⟨ha1, ha2⟩
    simp only [basicKeyStep]
    split
    · exact ⟨ha1, ha2⟩
    · split
      · exact ⟨ha1, ha2⟩
      · split
        · exact ⟨ha1, ha2⟩
        · split
          · exact ⟨ha1, ha2⟩
          · split
            · have := @basicFlagFold_pres W H grid a.1
                (hidden_neighbors W H a.1 (decode_key key).1 (decode_key key).2)
                (fun c hc => by
                  obtain ⟨h1, h2, h3, _⟩ := hidden_neighbors_mem hc
                  exact ⟨h1, h2, h3⟩)
                (a.1, a.2.1) ⟨ha1, rfl, stepMono_refl a.1⟩
              exact ⟨this.1, stepMono_trans ha2 this.2.2⟩
            · split
              · have := @basicRevealFold_pres W H grid a.1
                  (hidden_neighbors W H a.1 (decode_key key).1 (decode_key key).2)
                  (a.1, a.2.1) ⟨ha1, stepMono_refl a.1⟩
                exact ⟨this.1, stepMono_trans ha2 this.2⟩
              · exact ⟨ha1, ha2⟩
  exact hfold (s, [], [], false) ⟨hinv, stepMono_refl s⟩

-- ── Strategy 2: subset logic (apply_subset_logic in solver.rs) ──

/-- Pre-computed constraint data of apply_subset_logic; the hidden key set of
the source is recovered from the hidden list through cell_key. -/
structure CellData where
  x : ℕ
  y : ℕ
  hidden_list : List (ℕ × ℕ)
  remaining : Int

/-- The 24 offsets of the 5x5 window scan (dx-major, center skipped). -/
def offsets5x5 : List (Int × Int) :=
  [(-2,-2),(-2,-1),(-2,0),(-2,1),(-2,2),
   (-1,-2),(-1,-1),(-1,0),(-1,1),(-1,2),
   (0,-2),(0,-1),(0,1),(0,2),
   (1,-2),(1,-1),(1,0),(1,1),(1,2),
   (2,-2),(2,-1),(2,0),(2,1),(2,2)]

/-- First phase of apply_subset_logic: collect revealed-number cells at or
next to dirty cells. -/
def subsetConstraintKeys (W H : ℕ) (s : SState) (dirty : List ℕ) : List ℕ :=
  dirty.foldl (fun ks key =>
    let x := (decode_key key).1
    let y := (decode_key key).2
    if W ≤ x ∨ H ≤ y then ks
    else
      let ks2 := if s.visible x y > 0 then insertKey ks key else ks
      (nc_get W H x y).foldl (fun ks3 p =>
        if s.visible p.1 p.2 > 0 then insertKey ks3 (cell_key p.1 p.2) else ks3) ks2) []

/-- Constraint record of one candidate key (none mirrors every continue). -/
def mkCellData (W H : ℕ) (s : SState) (key : ℕ) : Option CellData :=
  if s.visible (decode_key key).1 (decode_key key).2 ≤ 0 then none
  else if (hidden_neighbors W H s (decode_key key).1 (decode_key key).2).length = 0 then none
  else if s.visible (decode_key key).1 (decode_key key).2 -
      (flagged_count W H s (decode_key key).1 (decode_key key).2 : Int) < 0 then none
  else some ⟨(decode_key key).1, (decode_key key).2,
    hidden_neighbors W H s (decode_key key).1 (decode_key key).2,
    s.visible (decode_key key).1 (decode_key key).2 -
      (flagged_count W H s (decode_key key).1 (decode_key key).2 : Int)⟩

/-- The cell_data map in key insertion order. -/
def subsetCellData (W H : ℕ) (s : SState) (keys : List ℕ) : List (ℕ × CellData) :=
  keys.foldl (fun acc key =>
    match mkCellData W H s key with
    | some d => acc ++ [(key, d)]
    | none => acc) []

def lookupCD (cd : List (ℕ × CellData)) (k : ℕ) : Option CellData :=
  (cd.find? (fun e => e.1 == k)).map (fun e => e.2)

/-- The cells of B's hidden set not in A's hidden set, by packed keys. -/
def subsetDiff (da db : CellData) : List (ℕ × ℕ) :=
  db.hidden_list.filter (fun c =>
    !(da.hidden_list.any (fun c2 => cell_key c2.1 c2.2 == cell_key c.1 c.2)))

/-- Subset test and action for one ordered pair (A at the window center, B at
offset d).  A some result means the source returned with progress. -/
def subsetTryPair (W H : ℕ) (grid : ℕ → ℕ → Int) (s : SState)
    (cd : List (ℕ × CellData)) (da : CellData) (d : Int × Int) :
    Option (SState × List ℕ) :=
  if (da.x : Int) + d.1 < 0 ∨ (W : Int) ≤ (da.x : Int) + d.1 ∨
      (da.y : Int) + d.2 < 0 ∨ (H : Int) ≤ (da.y : Int) + d.2 then none
  else
    match lookupCD cd (cell_key ((da.x : Int) + d.1).toNat ((da.y : Int) + d.2).toNat) with
    | none => none
    | some db =>
      if db.hidden_list.length = 0 then none
      else if da.hidden_list.length < db.hidden_list.length ∧
          da.hidden_list.all (fun c =>
            db.hidden_list.any (fun c2 => cell_key c2.1 c2.2 == cell_key c.1 c.2)) then
        if db.remaining - da.remaining = 0 ∧ (subsetDiff da db).length ≠ 0 then
          some ((subsetDiff da db).foldl (basicRevealCell W H grid) (s, []))
        else if db.remaining - da.remaining = ((subsetDiff da db).length : Int) ∧
            (subsetDiff da db).length ≠ 0 then
          some ((subsetDiff da db).foldl (basicFlagCell W H) (s, []))
        else none
      else none

def subsetScanOffsets (W H : ℕ) (grid : ℕ → ℕ → Int) (s : SState)
    (cd : List (ℕ × CellData)) (da : CellData) :
    List (Int × Int) → Option (SState × List ℕ)
  | [] => none
  | d :: rest =>
    match subsetTryPair W H grid s cd da d with
    | some r => some r
    | none => subsetScanOffsets W H grid s cd da rest

def subsetScan (W H : ℕ) (grid : ℕ → ℕ → Int) (s : SState)
    (cd : List (ℕ × CellData)) :
    List (ℕ × CellData) → Option (SState × List ℕ)
  | [] => none
  | (_, da) :: rest =>
    if da.hidden_list.length = 0 then subsetScan W H grid s cd rest
    else
      match subsetScanOffsets W H grid s cd da offsets5x5 with
      | some r => some r
      | none => subsetScan W H grid s cd rest

/-- solver.rs apply_subset_logic: the first progressing ordered pair acts and
returns; no state changes happen before it. -/
def apply_subset_logic (W H : ℕ) (grid : ℕ → ℕ → Int) (s : SState)
    (dirty : List ℕ) : Bool × SState × List ℕ :=
  let cd := subsetCellData W H s (subsetConstraintKeys W H s dirty)
  match subsetScan W H grid s cd cd with
  | some r => (true, r.1, r.2)
  | none => (false, s, dirty)

theorem subsetCellData_hidden {W H : ℕ} {s : SState} (keys : List ℕ) :
    ∀ e ∈ subsetCellData W H s keys, ∀ c ∈ e.2.hidden_list,
      c.1 < W ∧ c.2 < H ∧ s.visible c.1 c.2 = -1 ∧ s.flags c.1 c.2 = false := by
  unfold subsetCellData
  refine foldl_preserve
    (fun acc : List (ℕ × CellData) => ∀ e ∈ acc, ∀ c ∈ e.2.hidden_list,
      c.1 < W ∧ c.2 < H ∧ s.visible c.1 c.2 = -1 ∧ s.flags c.1 c.2 = false)
    _ keys ?_ [] (by intro e he; cases he)
  intro acc key _ hacc
  dsimp only
  match hmk : mkCellData W H s key with
  | none => exact hacc
  | some d =>
    intro e he c hc
    rcases List.mem_append.mp he with hL | hR
    · exact hacc e hL c hc
    · have he2 : e = (key, d) := by simpa using hR
      subst he2
      have hd : d.hidden_list =
          hidden_neighbors W H s (decode_key key).1 (decode_key key).2 := by
        unfold mkCellData at hmk
        split at hmk
        · cases hmk
        · split at hmk
          · cases hmk
          · split at hmk
            · cases hmk
            · cases hmk
              rfl
      rw [hd] at hc
      exact hidden_neighbors_mem hc

theorem subsetTryPair_pres {W H : ℕ} {grid : ℕ → ℕ → Int} {s : SState}
    {cd : List (ℕ × CellData)} {da : CellData} {d : Int × Int}
    {r : SState × List ℕ} (hinv : SInv W H grid s)
    (hcd : ∀ e ∈ cd, ∀ c ∈ e.2.hidden_list,
      c.1 < W ∧ c.2 < H ∧ s.visible c.1 c.2 = -1 ∧ s.flags c.1 c.2 = false)
    (h : subsetTryPair W H grid s cd da d = some r) :
    SInv W H grid r.1 ∧ StepMono s r.1 := by
  unfold subsetTryPair at h
  split at h
  · cases h
  · split at h
    · cases h
    · rename_i db hfind
      split at h
      · cases h
      · split at h
        · have hdb : ∀ c ∈ db.hidden_list,
              c.1 < W ∧ c.2 < H ∧ s.visible c.1 c.2 = -1 ∧ s.flags c.1 c.2 = false := by
            intro c hc
            unfold lookupCD at hfind
            cases hf2 : cd.find? (fun e => e.1 == cell_key
                ((da.x : Int) + d.1).toNat ((da.y : Int) + d.2).toNat) with
            | none => rw [hf2] at hfind; cases hfind
            | some e =>
              rw [hf2] at hfind
              simp at hfind
              cases hfind
              exact hcd e (List.mem_of_find?_eq_some hf2) c hc
          have hdiff : ∀ c ∈ subsetDiff da db,
              c.1 < W ∧ c.2 < H ∧ s.visible c.1 c.2 = -1 ∧ s.flags c.1 c.2 = false :=
            fun c hc => hdb c (List.mem_of_mem_filter hc)
          split at h
          · cases h
            have := @basicRevealFold_pres W H grid s (subsetDiff da db)
              (s, ([] : List ℕ)) ⟨hinv, stepMono_refl s⟩
            exact this
          · split at h
            · cases h
              have := @basicFlagFold_pres W H grid s (subsetDiff da db)
                (fun c hc => by
                  obtain ⟨h1, h2, h3, _⟩ := hdiff c hc
                  exact ⟨h1, h2, h3⟩)
                (s, ([] : List ℕ)) ⟨hinv, rfl, stepMono_refl s⟩
              exact ⟨this.1, this.2.2⟩
            · cases h
        · cases h

theorem subsetScanOffsets_pres {W H : ℕ} {grid : ℕ → ℕ → Int} {s : SState}
    {cd : List (ℕ × CellData)} {da : CellData} (hinv : SInv W H grid s)
    (hcd : ∀ e ∈ cd, ∀ c ∈ e.2.hidden_list,
      c.1 < W ∧ c.2 < H ∧ s.visible c.1 c.2 = -1 ∧ s.flags c.1 c.2 = false) :
    ∀ (ds : List (Int × Int)) (r : SState × List ℕ),
      subsetScanOffsets W H grid s cd da ds = some r →
      SInv W H grid r.1 ∧ StepMono s r.1 := by
  intro ds
  induction ds with
  | nil => intro r h; cases h
  | cons d rest ih =>
    intro r h
    unfold subsetScanOffsets at h
    match htp : subsetTryPair W H grid s cd da d with
    | some r2 =>
      rw [htp] at h; cases h
      exact subsetTryPair_pres hinv hcd htp
    | none =>
      rw [htp] at h
      exact ih r h

theorem subsetScan_pres {W H : ℕ} {grid : ℕ → ℕ → Int} {s : SState}
    {cd : List (ℕ × CellData)} (hinv : SInv W H grid s)
    (hcd : ∀ e ∈ cd, ∀ c ∈ e.2.hidden_list,
      c.1 < W ∧ c.2 < H ∧ s.visible c.1 c.2 = -1 ∧ s.flags c.1 c.2 = false) :
    ∀ (l : List (ℕ × CellData)) (r : SState × List ℕ),
      subsetScan W H grid s cd l = some r →
      SInv W H grid r.1 ∧ StepMono s r.1 := by
  intro l
  induction l with
  | nil => intro r h; cases h
  | cons e rest ih =>
    intro r h
    unfold subsetScan at h
    split at h
    · exact ih r h
    · cases hso : subsetScanOffsets W H grid s cd e.2 offsets5x5 with
      | some r2 =>
        rw [hso] at h
        cases h
        exact subsetScanOffsets_pres hinv hcd offsets5x5 _ hso
      | none =>
        rw [hso] at h
        exact ih r h

theorem apply_subset_logic_pres {W H : ℕ} {grid : ℕ → ℕ → Int} {s : SState}
    (hinv : SInv W H grid s) (dirty : List ℕ) :
    SInv W H grid (apply_subset_logic W H grid s dirty).2.1 ∧
      StepMono s (apply_subset_logic W H grid s dirty).2.1 := by
  unfold apply_subset_logic
  match hscan : subsetScan W H grid s
      (subsetCellData W H s (subsetConstraintKeys W H s dirty))
      (subsetCellData W H s (subsetConstraintKeys W H s dirty)) with
  | some r =>
    simp only [hscan]
    exact subsetScan_pres hinv (subsetCellData_hidden _) _ r hscan
  | none =>
    simp only [hscan]
    exact ⟨hinv, stepMono_refl s⟩

-- ── Strategy 3: Gaussian elimination (gaussian.rs) ──
-- The f32 arithmetic of the source is modelled over exact rationals with the
-- same tolerance constants EPS and EPS_TINY; the theorems below use only
-- which cells the strategy can output, never the numeric results.

structure GaussianResult where
  progress : Bool
  safe : List (ℕ × ℕ)
  mines : List (ℕ × ℕ)

def EPS : ℚ := 1 / 1000

def EPS_TINY : ℚ := 1 / 1000000

def MAX_COMPONENT_SIZE : ℕ := 50

/-- Pointwise update of a pair-indexed map. -/
def updP {α : Type} (f : ℕ × ℕ → α) (p : ℕ × ℕ) (v : α) : ℕ × ℕ → α :=
  fun q => if q = p then v else f q

/-- Mark step of the component BFS: through one revealed-number neighbor of
the current frontier cell, claim every still-unvisited frontier cell. -/
def gaussMark (W H : ℕ) (s : SState)
    (acc : List (ℕ × ℕ) × (ℕ × ℕ → ℕ)) (n : ℕ × ℕ) :
    List (ℕ × ℕ) × (ℕ × ℕ → ℕ) :=
  if 0 < s.visible n.1 n.2 then
    (nc_get W H n.1 n.2).foldl (fun acc2 hc =>
      if acc2.2 hc = 1 then (acc2.1 ++ [hc], updP acc2.2 hc 2) else acc2) acc
  else acc

/-- FIFO BFS of get_connected_components (gaussian.rs); the step budget is
one per processed queue entry and is sized so that it cannot run out (each
push claims a distinct frontier cell). -/
def gaussBfs (W H : ℕ) (s : SState) :
    ℕ → List (ℕ × ℕ) → (ℕ × ℕ → ℕ) → List (ℕ × ℕ) →
    List (ℕ × ℕ) × (ℕ × ℕ → ℕ)
  | 0, _, fmap, comp => (comp, fmap)
  | _ + 1, [], fmap, comp => (comp, fmap)
  | fuel + 1, c :: todo, fmap, comp =>
    let r := (nc_get W H c.1 c.2).foldl (gaussMark W H s) ([], fmap)
    gaussBfs W H s fuel (todo ++ r.1) r.2 (comp ++ r.1)

/-- gaussian.rs get_connected_components: frontier cells are 1 in the map,
visited cells become 2, and each BFS grows one component. -/
def get_connected_components (W H : ℕ) (s : SState) (frontier : List (ℕ × ℕ)) :
    List (List (ℕ × ℕ)) :=
  (frontier.foldl (fun (acc : List (List (ℕ × ℕ)) × (ℕ × ℕ → ℕ)) c =>
    if acc.2 c = 2 then acc
    else
      let r := gaussBfs W H s (frontier.length + 1) [c] (updP acc.2 c 2) [c]
      (acc.1 ++ [r.1], r.2))
    ([], frontier.foldl (fun m c => updP m c 1) (fun _ => 0))).1

/-- Variable index map of solve_component: component cell to column index,
-1 elsewhere (the flat i16 vector of the source). -/
def mkVarIndex (component : List (ℕ × ℕ)) : ℕ × ℕ → Int :=
  component.enum.foldl (fun m e => updP m e.2 (e.1 : Int)) (fun _ => -1)

structure GEquation where
  neighbors : List ℕ
  target : ℚ

/-- Scan of one clue cell: flagged neighbors count toward the target, hidden
neighbors must all be component variables or the clue is dropped (none). -/
def scanClue (W H : ℕ) (s : SState) (vmap : ℕ × ℕ → Int) (n : ℕ × ℕ) :
    Option (List ℕ × Int) :=
  (nc_get W H n.1 n.2).foldl (fun acc c =>
    match acc with
    | none => none
    | some (idxs, fc) =>
      if s.flags c.1 c.2 then some (idxs, fc + 1)
      else if s.visible c.1 c.2 = -1 then
        if vmap c = -1 then none
        else some (idxs ++ [(vmap c).toNat], fc)
      else some (idxs, fc)) (some ([], 0))

/-- Equation building of solve_component: one equation per fresh clue cell
adjacent to the component, in component traversal order. -/
def buildEquations (W H : ℕ) (s : SState) (vmap : ℕ × ℕ → Int)
    (component : List (ℕ × ℕ)) : List GEquation :=
  (component.foldl (fun (acc : List GEquation × (ℕ × ℕ → Bool)) c =>
    (nc_get W H c.1 c.2).foldl (fun acc2 n =>
      if s.visible n.1 n.2 ≤ 0 then acc2
      else if acc2.2 n then acc2
      else
        match scanClue W H s vmap n with
        | some p =>
          (acc2.1 ++ [⟨p.1, ((s.visible n.1 n.2 - p.2 : Int) : ℚ)⟩], updP acc2.2 n true)
        | none => (acc2.1, updP acc2.2 n true)) acc) ([], fun _ => false)).1

/-- One matrix row: coefficient 1 for each equation variable, target last. -/
def mkRow (n : ℕ) (eq : GEquation) : List ℚ :=
  ((List.range n).map (fun j => if j ∈ eq.neighbors then (1 : ℚ) else 0)) ++ [eq.target]

def mget (M : List (List ℚ)) (i j : ℕ) : ℚ :=
  (M.getD i []).getD j 0

def swapRows (M : List (List ℚ)) (i r : ℕ) : List (List ℚ) :=
  (M.set i (M.getD r [])).set r (M.getD i [])

/-- Pivot search of compute_rref: scan rows r.. at the lead column; if none
qualifies move to the next column, giving up at column n (the source then
returns from the whole routine). -/
def findPivot (M : List (List ℚ)) (m r n : ℕ) : ℕ → ℕ → Option (ℕ × ℕ)
  | 0, _ => none
  | fuel + 1, lead =>
    match (List.range' r (m - r)).find? (fun i => !(decide (|mget M i lead| < EPS_TINY))) with
    | some i => some (i, lead)
    | none => if n ≤ lead + 1 then none else findPivot M m r n fuel (lead + 1)

/-- Row elimination of compute_rref after normalizing the pivot row. -/
def elimRows (M : List (List ℚ)) (m r lead : ℕ) : List (List ℚ) :=
  (List.range m).foldl (fun Mk k =>
    if k = r then Mk
    else if EPS_TINY < |mget Mk k lead| then
      Mk.set k ((Mk.getD k []).zipWith (fun a b => a - mget Mk k lead * b) (Mk.getD r []))
    else Mk) M

/-- One outer iteration (row r) of compute_rref; lead set to n models the
early returns of the source, making the remaining iterations no-ops. -/
def rrefStep (m n : ℕ) (acc : List (List ℚ) × ℕ) (r : ℕ) : List (List ℚ) × ℕ :=
  if n ≤ acc.2 then acc
  else
    match findPivot acc.1 m r n n acc.2 with
    | none => (acc.1, n)
    | some il =>
      if |mget (swapRows acc.1 il.1 r) r il.2| < EPS_TINY then
        (swapRows acc.1 il.1 r, il.2 + 1)
      else
        (elimRows
          ((swapRows acc.1 il.1 r).set r
            ((swapRows acc.1 il.1 r).getD r [] |>.map
              (fun a => a * (1 / mget (swapRows acc.1 il.1 r) r il.2))))
          m r il.2, il.2 + 1)

/-- gaussian.rs compute_rref. -/
def compute_rref (M : List (List ℚ)) (m n : ℕ) : List (List ℚ) :=
  ((List.range m).foldl (rrefStep m n) (M, 0)).1

/-- Per-row scan of the inference loop: sum of negative and of positive
coefficients above the EPS threshold, plus the indices involved. -/
def rowScan (row : List ℚ) (n : ℕ) : ℚ × ℚ × List ℕ :=
  (List.range n).foldl (fun acc j =>
    if EPS < |row.getD j 0| then
      if 0 < row.getD j 0 then (acc.1, acc.2.1 + row.getD j 0, acc.2.2 ++ [j])
      else (acc.1 + row.getD j 0, acc.2.1, acc.2.2 ++ [j])
    else acc) (0, 0, [])

/-- Inference from one reduced row; the accumulator is (safe, mines). -/
def rowInfer (component : List (ℕ × ℕ)) (n : ℕ)
    (acc : List (ℕ × ℕ) × List (ℕ × ℕ)) (row : List ℚ) :
    List (ℕ × ℕ) × List (ℕ × ℕ) :=
  if (rowScan row n).2.2.length = 0 then acc
  else if |row.getD n 0 - (rowScan row n).1| < EPS then
    (rowScan row n).2.2.foldl (fun acc2 j =>
      if row.getD j 0 < 0 then (acc2.1, acc2.2 ++ [component.getD j (0, 0)])
      else (acc2.1 ++ [component.getD j (0, 0)], acc2.2)) acc
  else if |row.getD n 0 - (rowScan row n).2.1| < EPS then
    (rowScan row n).2.2.foldl (fun acc2 j =>
      if 0 < row.getD j 0 then (acc2.1, acc2.2 ++ [component.getD j (0, 0)])
      else (acc2.1 ++ [component.getD j (0, 0)], acc2.2)) acc
  else acc

/-- Key-deduplicating insertion preserving first occurrences (the Vec retain
and HashSet insert pattern of gaussian.rs). -/
def insertCells (acc : List (ℕ × ℕ) × List ℕ) (cells : List (ℕ × ℕ)) :
    List (ℕ × ℕ) × List ℕ :=
  cells.foldl (fun a c =>
    if a.2.contains (cell_key c.1 c.2) then a
    else (a.1 ++ [c], a.2 ++ [cell_key c.1 c.2])) acc

/-- gaussian.rs solve_component over exact rationals. -/
def solve_component (W H : ℕ) (s : SState) (component : List (ℕ × ℕ)) :
    GaussianResult :=
  if component.length = 0 then ⟨false, [], []⟩
  else
    match buildEquations W H s (mkVarIndex component) component with
    | [] => ⟨false, [], []⟩
    | eq0 :: eqs =>
      let res := (compute_rref ((eq0 :: eqs).map (mkRow component.length))
          (eq0 :: eqs).length component.length).foldl
        (rowInfer component component.length) ([], [])
      ⟨!(insertCells ([], []) res.1).1.isEmpty ∨ !(insertCells ([], []) res.2).1.isEmpty,
        (insertCells ([], []) res.1).1, (insertCells ([], []) res.2).1⟩

/-- Row-major comparison (by y then x) used to sort large components. -/
def rowMajorLE (a b : ℕ × ℕ) : Bool :=
  a.2 < b.2 ∨ (a.2 = b.2 ∧ a.1 ≤ b.1)

/-- Window loop of solve_large_component; i advances by half a window per
step so the budget of one per window never runs out. -/
def windowLoop (W H : ℕ) (s : SState) (sorted : List (ℕ × ℕ)) (ws step : ℕ) :
    ℕ → ℕ → (List (ℕ × ℕ) × List ℕ) × (List (ℕ × ℕ) × List ℕ) →
    (List (ℕ × ℕ) × List ℕ) × (List (ℕ × ℕ) × List ℕ)
  | 0, _, acc => acc
  | fuel + 1, i, acc =>
    if sorted.length ≤ i then acc
    else if ((sorted.drop i).take ws).length = 0 then acc
    else
      windowLoop W H s sorted ws step fuel (i + step)
        (if (solve_component W H s ((sorted.drop i).take ws)).progress then
          (insertCells acc.1 (solve_component W H s ((sorted.drop i).take ws)).safe,
           insertCells acc.2 (solve_component W H s ((sorted.drop i).take ws)).mines)
        else acc)

/-- gaussian.rs solve_large_component: overlapping windows of size 50 with
stride 25 over the row-major sorted component. -/
def solve_large_component (W H : ℕ) (s : SState) (big : List (ℕ × ℕ))
    (ws : ℕ) : GaussianResult :=
  ⟨!(windowLoop W H s (big.mergeSort rowMajorLE) ws (ws / 2)
      (big.length + 1) 0 (([], []), ([], []))).1.1.isEmpty ∨
    !(windowLoop W H s (big.mergeSort rowMajorLE) ws (ws / 2)
      (big.length + 1) 0 (([], []), ([], []))).2.1.isEmpty,
    (windowLoop W H s (big.mergeSort rowMajorLE) ws (ws / 2)
      (big.length + 1) 0 (([], []), ([], []))).1.1,
    (windowLoop W H s (big.mergeSort rowMajorLE) ws (ws / 2)
      (big.length + 1) 0 (([], []), ([], []))).2.1⟩

/-- Per-component aggregation step of gaussian.rs solve. -/
def gaussAggStep (W H : ℕ) (s : SState)
    (acc : (List (ℕ × ℕ) × List ℕ) × (List (ℕ × ℕ) × List ℕ))
    (comp : List (ℕ × ℕ)) :
    (List (ℕ × ℕ) × List ℕ) × (List (ℕ × ℕ) × List ℕ) :=
  if (if MAX_COMPONENT_SIZE < comp.length then
        solve_large_component W H s comp MAX_COMPONENT_SIZE
      else solve_component W H s comp).progress then
    (insertCells acc.1 (if MAX_COMPONENT_SIZE < comp.length then
        solve_large_component W H s comp MAX_COMPONENT_SIZE
      else solve_component W H s comp).safe,
     insertCells acc.2 (if MAX_COMPONENT_SIZE < comp.length then
        solve_large_component W H s comp MAX_COMPONENT_SIZE
      else solve_component W H s comp).mines)
  else acc

/-- gaussian.rs solve: decompose the frontier, solve each component (with
windowing above MAX_COMPONENT_SIZE) and aggregate deduplicated results. -/
def gaussianSolve (W H : ℕ) (s : SState) (frontier : List (ℕ × ℕ)) :
    GaussianResult :=
  if frontier.length = 0 then ⟨false, [], []⟩
  else
    ⟨!((get_connected_components W H s frontier).foldl (gaussAggStep W H s)
        (([], []), ([], []))).1.1.isEmpty ∨
      !((get_connected_components W H s frontier).foldl (gaussAggStep W H s)
        (([], []), ([], []))).2.1.isEmpty,
      ((get_connected_components W H s frontier).foldl (gaussAggStep W H s)
        (([], []), ([], []))).1.1,
      ((get_connected_components W H s frontier).foldl (gaussAggStep W H s)
        (([], []), ([], []))).2.1⟩

/-- Mine application fold of solve_by_gaussian_elimination (solver.rs):
guarded flag placement collecting the changed cells. -/
def gaussApplyMines (s : SState) (mines : List (ℕ × ℕ)) : SState × List (ℕ × ℕ) :=
  mines.foldl (fun acc c =>
    if acc.1.flags c.1 c.2 then acc
    else (stFlagRaw acc.1 c.1 c.2, acc.2 ++ [c])) (s, [])

/-- Safe-cell application fold of solve_by_gaussian_elimination. -/
def gaussApplySafes (W H : ℕ) (grid : ℕ → ℕ → Int)
    (start : SState × List (ℕ × ℕ)) (safes : List (ℕ × ℕ)) :
    SState × List (ℕ × ℕ) :=
  safes.foldl (fun acc c =>
    if acc.1.visible c.1 c.2 = -1 then
      (stReveal W H grid acc.1 c.1 c.2, acc.2 ++ [c])
    else acc) start

/-- solver.rs solve_by_gaussian_elimination: apply the Gaussian results to
the real grids, collecting the changed cells for the dirty set. -/
def solve_by_gaussian_elimination (W H : ℕ) (grid : ℕ → ℕ → Int) (s : SState) :
    Bool × SState × List (ℕ × ℕ) :=
  if (get_frontier W H s).length = 0 then (false, s, [])
  else if !(gaussianSolve W H s (get_frontier W H s)).progress then (false, s, [])
  else
    (true,
      (gaussApplySafes W H grid
        (gaussApplyMines s (gaussianSolve W H s (get_frontier W H s)).mines)
        (gaussianSolve W H s (get_frontier W H s)).safe).1,
      (gaussApplySafes W H grid
        (gaussApplyMines s (gaussianSolve W H s (get_frontier W H s)).mines)
        (gaussianSolve W H s (get_frontier W H s)).safe).2)

/-- Property bundle of the component BFS: collected cells and still-unvisited
marks both stay inside the frontier. -/
def MarkOk (frontier : List (ℕ × ℕ)) (acc : List (ℕ × ℕ) × (ℕ × ℕ → ℕ)) : Prop :=
  (∀ c ∈ acc.1, c ∈ frontier) ∧ (∀ p, acc.2 p = 1 → p ∈ frontier)

theorem gaussMark_fold_pres {W H : ℕ} {s : SState} {frontier : List (ℕ × ℕ)}
    (ns : List (ℕ × ℕ)) (acc : List (ℕ × ℕ) × (ℕ × ℕ → ℕ))
    (hacc : MarkOk frontier acc) :
    MarkOk frontier (ns.foldl (gaussMark W H s) acc) := by
  refine foldl_preserve (MarkOk frontier) (gaussMark W H s) ns ?_ acc hacc
  intro a n _ ha
  unfold gaussMark
  split
  · refine foldl_preserve (MarkOk frontier) _ _ ?_ a ha
    intro a2 hc _ ⟨hb1, hb2⟩
    split
    · rename_i hone
      constructor
      · intro c2 hc2m
        rcases List.mem_append.mp hc2m with hL | hRr
        · exact hb1 c2 hL
        · have he : c2 = hc := by simpa using hRr
          subst he
          exact hb2 c2 hone
      · intro p hp
        simp only [updP] at hp
        by_cases hpe : p = hc
        · subst hpe; simp at hp
        · rw [if_neg hpe] at hp
          exact hb2 p hp
    · exact ⟨hb1, hb2⟩
  · exact ha

theorem gaussBfs_sub {W H : ℕ} {s : SState} {frontier : List (ℕ × ℕ)} :
    ∀ (fuel : ℕ) (todo : List (ℕ × ℕ)) (fmap : ℕ × ℕ → ℕ) (comp : List (ℕ × ℕ)),
      (∀ c ∈ comp, c ∈ frontier) → (∀ p, fmap p = 1 → p ∈ frontier) →
      (∀ c ∈ (gaussBfs W H s fuel todo fmap comp).1, c ∈ frontier) ∧
        (∀ p, (gaussBfs W H s fuel todo fmap comp).2 p = 1 → p ∈ frontier) := by
  intro fuel
  induction fuel with
  | zero => intro todo fmap comp hcomp hmap; exact ⟨hcomp, hmap⟩
  | succ fuel ih =>
    intro todo fmap comp hcomp hmap
    match todo with
    | [] => exact ⟨hcomp, hmap⟩
    | q :: rest =>
      have hr := gaussMark_fold_pres (W := W) (H := H) (s := s)
        (nc_get W H q.1 q.2) ([], fmap) ⟨by simp, hmap⟩
      exact ih (rest ++ ((nc_get W H q.1 q.2).foldl (gaussMark W H s) ([], fmap)).1)
        ((nc_get W H q.1 q.2).foldl (gaussMark W H s) ([], fmap)).2
        (comp ++ ((nc_get W H q.1 q.2).foldl (gaussMark W H s) ([], fmap)).1)
        (by
          intro c2 hc2
          rcases List.mem_append.mp hc2 with hL | hRr
          · exact hcomp c2 hL
          · exact hr.1 c2 hRr)
        hr.2

theorem get_connected_components_sub {W H : ℕ} {s : SState}
    {frontier : List (ℕ × ℕ)} :
    ∀ comp ∈ get_connected_components W H s frontier, ∀ c ∈ comp, c ∈ frontier := by
  unfold get_connected_components
  have hinit : ∀ p, (frontier.foldl (fun m c => updP m c 1) (fun _ => 0)) p = 1 →
      p ∈ frontier := by
    refine foldl_preserve
      (fun m : ℕ × ℕ → ℕ => ∀ p, m p = 1 → p ∈ frontier) _ frontier ?_ _ ?_
    · intro m c hc hm p hp
      simp only [updP] at hp
      by_cases hpe : p = c
      · subst hpe; exact hc
      · rw [if_neg hpe] at hp
        exact hm p hp
    · intro p hp
      simp at hp
  have hmain := foldl_preserve
    (fun acc : List (List (ℕ × ℕ)) × (ℕ × ℕ → ℕ) =>
      (∀ comp ∈ acc.1, ∀ c ∈ comp, c ∈ frontier) ∧
        (∀ p, acc.2 p = 1 → p ∈ frontier))
    (fun acc c =>
      if acc.2 c = 2 then acc
      else
        ((acc.1 ++ [(gaussBfs W H s (frontier.length + 1) [c] (updP acc.2 c 2) [c]).1]),
          (gaussBfs W H s (frontier.length + 1) [c] (updP acc.2 c 2) [c]).2))
    frontier
    (by
      intro a c hcf ⟨ha1, ha2⟩
      dsimp only
      split
      · exact ⟨ha1, ha2⟩
      · have hstart : ∀ c2 ∈ ([c] : List (ℕ × ℕ)), c2 ∈ frontier := by
          intro c2 hc2
          have : c2 = c := by simpa using hc2
          subst this
          exact hcf
        have hmap2 : ∀ p, (updP a.2 c 2) p = 1 → p ∈ frontier := by
          intro p hp
          unfold updP at hp
          by_cases hpe : p = c
          · subst hpe; simp at hp
          · rw [if_neg hpe] at hp
            exact ha2 p hp
        have hb := gaussBfs_sub (W := W) (H := H) (s := s)
          (frontier.length + 1) [c] (updP a.2 c 2) [c] hstart hmap2
        constructor
        · intro comp hcm c2 hc2
          rcases List.mem_append.mp hcm with hL | hRr
          · exact ha1 comp hL c2 hc2
          · have : comp = (gaussBfs W H s (frontier.length + 1) [c]
                (updP a.2 c 2) [c]).1 := by simpa using hRr
            subst this
            exact hb.1 c2 hc2
        · exact hb.2)
    ([], frontier.foldl (fun m c => updP m c 1) (fun _ => 0))
    ⟨by simp, hinit⟩
  exact hmain.1

theorem rowScan_lt (row : List ℚ) (n : ℕ) : ∀ j ∈ (rowScan row n).2.2, j < n := by
  unfold rowScan
  refine foldl_preserve
    (fun acc : ℚ × ℚ × List ℕ => ∀ j ∈ acc.2.2, j < n) _ (List.range n) ?_ _ ?_
  · intro a j hj ha
    split
    · split
      · intro j2 hj2
        rcases List.mem_append.mp hj2 with hL | hRr
        · exact ha j2 hL
        · have : j2 = j := by simpa using hRr
          subst this
          exact List.mem_range.mp hj
      · intro j2 hj2
        rcases List.mem_append.mp hj2 with hL | hRr
        · exact ha j2 hL
        · have : j2 = j := by simpa using hRr
          subst this
          exact List.mem_range.mp hj
    · exact ha
  · intro j hj
    simp at hj

theorem rowInfer_sub {component : List (ℕ × ℕ)}
    (acc : List (ℕ × ℕ) × List (ℕ × ℕ)) (row : List ℚ)
    (hacc : (∀ c ∈ acc.1, c ∈ component) ∧ (∀ c ∈ acc.2, c ∈ component)) :
    (∀ c ∈ (rowInfer component component.length acc row).1, c ∈ component) ∧
      (∀ c ∈ (rowInfer component component.length acc row).2, c ∈ component) := by
  have hget : ∀ j, component.getD j (0, 0) ∈ component ∨ component.length ≤ j := by
    intro j
    by_cases hj : j < component.length
    · left
      rw [List.getD_eq_getElem component (0, 0) hj]
      exact List.getElem_mem hj
    · right; omega
  have hfold : ∀ (vars : List ℕ), (∀ j ∈ vars, j < component.length) →
      ∀ (f : List (ℕ × ℕ) × List (ℕ × ℕ) → ℕ → List (ℕ × ℕ) × List (ℕ × ℕ)),
      (∀ a j, j < component.length →
        ((∀ c ∈ a.1, c ∈ component) ∧ (∀ c ∈ a.2, c ∈ component)) →
        ((∀ c ∈ (f a j).1, c ∈ component) ∧ (∀ c ∈ (f a j).2, c ∈ component))) →
      ∀ a, ((∀ c ∈ a.1, c ∈ component) ∧ (∀ c ∈ a.2, c ∈ component)) →
      ((∀ c ∈ (vars.foldl f a).1, c ∈ component) ∧
        (∀ c ∈ (vars.foldl f a).2, c ∈ component)) := by
    intro vars hvars f hf
    refine foldl_preserve
      (fun a : List (ℕ × ℕ) × List (ℕ × ℕ) =>
        (∀ c ∈ a.1, c ∈ component) ∧ (∀ c ∈ a.2, c ∈ component)) f vars ?_
    intro a j hj ha
    exact hf a j (hvars j hj) ha
  unfold rowInfer
  split
  · exact hacc
  · have hstepcase : ∀ (cond : ℕ → Prop) [DecidablePred cond],
        (∀ c ∈ ((rowScan row component.length).2.2.foldl (fun acc2 j =>
            if cond j then (acc2.1, acc2.2 ++ [component.getD j (0, 0)])
            else (acc2.1 ++ [component.getD j (0, 0)], acc2.2)) acc).1, c ∈ component) ∧
        (∀ c ∈ ((rowScan row component.length).2.2.foldl (fun acc2 j =>
            if cond j then (acc2.1, acc2.2 ++ [component.getD j (0, 0)])
            else (acc2.1 ++ [component.getD j (0, 0)], acc2.2)) acc).2, c ∈ component) := by
      intro cond hdec
      refine hfold (rowScan row component.length).2.2
        (rowScan_lt row component.length) _ ?_ acc hacc
      intro a j hj ha
      have hmem : component.getD j (0, 0) ∈ component := by
        rcases hget j with hL | hRr
        · exact hL
        · omega
      split
      · constructor
        · exact ha.1
        · intro c hc
          rcases List.mem_append.mp hc with hL | hRr
          · exact ha.2 c hL
          · have : c = component.getD j (0, 0) := by simpa using hRr
            subst this
            exact hmem
      · constructor
        · intro c hc
          rcases List.mem_append.mp hc with hL | hRr
          · exact ha.1 c hL
          · have : c = component.getD j (0, 0) := by simpa using hRr
            subst this
            exact hmem
        · exact ha.2
    split
    · exact hstepcase (fun j => row.getD j 0 < 0)
    · split
      · exact hstepcase (fun j => 0 < row.getD j 0)
      · exact hacc

theorem insertCells_sub {base : List (ℕ × ℕ)} :
    ∀ (cells : List (ℕ × ℕ)) (acc : List (ℕ × ℕ) × List ℕ),
      (∀ c ∈ acc.1, c ∈ base) → (∀ c ∈ cells, c ∈ base) →
      ∀ c ∈ (insertCells acc cells).1, c ∈ base := by
  intro cells
  induction cells with
  | nil => intro acc hacc _ c hc; exact hacc c hc
  | cons x xs ih =>
    intro acc hacc hcells c hc
    unfold insertCells at hc
    simp only [List.foldl_cons] at hc
    refine ih _ ?_ (fun c2 hc2 => hcells c2 (List.mem_cons_of_mem x hc2)) c hc
    intro c2 hc2
    by_cases hcontains : acc.2.contains (cell_key x.1 x.2) = true
    · rw [if_pos hcontains] at hc2
      exact hacc c2 hc2
    · rw [if_neg hcontains] at hc2
      rcases List.mem_append.mp hc2 with hL | hRr
      · exact hacc c2 hL
      · have hcx : c2 = x := by simpa using hRr
        rw [hcx]
        exact hcells x (List.mem_cons_self x xs)

theorem solve_component_sub (W H : ℕ) (s : SState) (component : List (ℕ × ℕ)) :
    (∀ c ∈ (solve_component W H s component).safe, c ∈ component) ∧
      (∀ c ∈ (solve_component W H s component).mines, c ∈ component) := by
  unfold solve_component
  split
  · exact ⟨fun c hc => absurd hc (List.not_mem_nil c),
      fun c hc => absurd hc (List.not_mem_nil c)⟩
  · rename_i hlen
    split
    · exact ⟨fun c hc => absurd hc (List.not_mem_nil c),
        fun c hc => absurd hc (List.not_mem_nil c)⟩
    · rename_i eq0 eqs heqs
      have hres := foldl_preserve
        (fun a : List (ℕ × ℕ) × List (ℕ × ℕ) =>
          (∀ c ∈ a.1, c ∈ component) ∧ (∀ c ∈ a.2, c ∈ component))
        (rowInfer component component.length)
        (compute_rref ((eq0 :: eqs).map (mkRow component.length))
          (eq0 :: eqs).length component.length) (fun a row _ ha =>
          rowInfer_sub a row ha) ([], [])
        (by constructor <;> intro c hc <;> simp at hc)
      constructor
      · exact insertCells_sub _ ([], []) (by intro c hc; simp at hc) hres.1
      · exact insertCells_sub _ ([], []) (by intro c hc; simp at hc) hres.2

theorem windowLoop_sub {W H : ℕ} {s : SState} {big : List (ℕ × ℕ)}
    {sorted : List (ℕ × ℕ)} (hsorted : ∀ c ∈ sorted, c ∈ big) (ws step : ℕ) :
    ∀ (fuel i : ℕ) (acc : (List (ℕ × ℕ) × List ℕ) × (List (ℕ × ℕ) × List ℕ)),
      (∀ c ∈ acc.1.1, c ∈ big) → (∀ c ∈ acc.2.1, c ∈ big) →
      (∀ c ∈ (windowLoop W H s sorted ws step fuel i acc).1.1, c ∈ big) ∧
        (∀ c ∈ (windowLoop W H s sorted ws step fuel i acc).2.1, c ∈ big) := by
  intro fuel
  induction fuel with
  | zero => intro i acc h1 h2; exact ⟨h1, h2⟩
  | succ fuel ih =>
    intro i acc h1 h2
    unfold windowLoop
    split
    · exact ⟨h1, h2⟩
    · split
      · exact ⟨h1, h2⟩
      · have hchunk : ∀ c ∈ (sorted.drop i).take ws, c ∈ big := by
          intro c hc
          exact hsorted c (List.mem_of_mem_drop (List.mem_of_mem_take hc))
        have hsub := solve_component_sub W H s ((sorted.drop i).take ws)
        split
        · exact ih (i + step) _
            (insertCells_sub _ acc.1 h1 (fun c hc => hchunk c (hsub.1 c hc)))
            (insertCells_sub _ acc.2 h2 (fun c hc => hchunk c (hsub.2 c hc)))
        · exact ih (i + step) acc h1 h2

theorem solve_large_component_sub (W H : ℕ) (s : SState) (big : List (ℕ × ℕ))
    (ws : ℕ) :
    (∀ c ∈ (solve_large_component W H s big ws).safe, c ∈ big) ∧
      (∀ c ∈ (solve_large_component W H s big ws).mines, c ∈ big) := by
  have hsorted : ∀ c ∈ big.mergeSort rowMajorLE, c ∈ big := by
    intro c hc
    exact List.mem_mergeSort.mp hc
  have := windowLoop_sub (W := W) (H := H) (s := s) hsorted ws (ws / 2)
    (big.length + 1) 0 (([], []), ([], []))
    (by intro c hc; simp at hc) (by intro c hc; simp at hc)
  exact this

theorem gaussianSolve_sub (W H : ℕ) (s : SState) (frontier : List (ℕ × ℕ)) :
    (∀ c ∈ (gaussianSolve W H s frontier).safe, c ∈ frontier) ∧
      (∀ c ∈ (gaussianSolve W H s frontier).mines, c ∈ frontier) := by
  unfold gaussianSolve
  split
  · exact ⟨fun c hc => absurd hc (List.not_mem_nil c),
      fun c hc => absurd hc (List.not_mem_nil c)⟩
  · have hfold := foldl_preserve
      (fun acc : (List (ℕ × ℕ) × List ℕ) × (List (ℕ × ℕ) × List ℕ) =>
        (∀ c ∈ acc.1.1, c ∈ frontier) ∧ (∀ c ∈ acc.2.1, c ∈ frontier))
      (gaussAggStep W H s) (get_connected_components W H s frontier)
      (by
        intro a comp hcompm ⟨ha1, ha2⟩
        have hcomp : ∀ c ∈ comp, c ∈ frontier :=
          get_connected_components_sub comp hcompm
        unfold gaussAggStep
        split
        · split
          · have hout := solve_large_component_sub W H s comp MAX_COMPONENT_SIZE
            exact ⟨insertCells_sub _ a.1 ha1 (fun c hc => hcomp c (hout.1 c hc)),
              insertCells_sub _ a.2 ha2 (fun c hc => hcomp c (hout.2 c hc))⟩
          · exact ⟨ha1, ha2⟩
        · split
          · have hout := solve_component_sub W H s comp
            exact ⟨insertCells_sub _ a.1 ha1 (fun c hc => hcomp c (hout.1 c hc)),
              insertCells_sub _ a.2 ha2 (fun c hc => hcomp c (hout.2 c hc))⟩
          · exact ⟨ha1, ha2⟩)
      (([], []), ([], []))
      (by constructor <;> intro c hc <;> simp at hc)
    exact hfold

theorem gaussApplyMines_pres {W H : ℕ} {grid : ℕ → ℕ → Int} {s : SState}
    (hinv : SInv W H grid s) (mines : List (ℕ × ℕ))
    (hmines : ∀ c ∈ mines, c.1 < W ∧ c.2 < H ∧ s.visible c.1 c.2 = -1) :
    SInv W H grid (gaussApplyMines s mines).1 ∧
      (gaussApplyMines s mines).1.visible = s.visible ∧
      StepMono s (gaussApplyMines s mines).1 := by
  unfold gaussApplyMines
  refine foldl_preserve
    (fun acc : SState × List (ℕ × ℕ) =>
      SInv W H grid acc.1 ∧ acc.1.visible = s.visible ∧ StepMono s acc.1)
    _ mines ?_ (s, []) ⟨hinv, rfl, stepMono_refl s⟩
  intro a c hc ⟨ha1, ha2, ha3⟩
  split
  · exact ⟨ha1, ha2, ha3⟩
  · rename_i hnf
    simp only [Bool.not_eq_true] at hnf
    obtain ⟨hb1, hb2, hb3⟩ := hmines c hc
    refine ⟨stFlagRaw_inv ha1 hb1 hb2 (by rw [ha2]; exact hb3) hnf, ?_, ?_⟩
    · rw [stFlag_visible_raw]; exact ha2
    · exact stepMono_trans ha3 (stFlagRaw_mono a.1 c.1 c.2)

theorem gaussApplySafes_pres {W H : ℕ} {grid : ℕ → ℕ → Int} {s : SState}
    (start : SState × List (ℕ × ℕ)) (safes : List (ℕ × ℕ))
    (hstart : SInv W H grid start.1 ∧ StepMono s start.1) :
    SInv W H grid (gaussApplySafes W H grid start safes).1 ∧
      StepMono s (gaussApplySafes W H grid start safes).1 := by
  unfold gaussApplySafes
  refine foldl_preserve
    (fun acc : SState × List (ℕ × ℕ) =>
      SInv W H grid acc.1 ∧ StepMono s acc.1) _ safes ?_ start hstart
  intro a c _ ⟨ha1, ha2⟩
  split
  · exact ⟨stReveal_inv ha1 c.1 c.2,
      stepMono_trans ha2 (stReveal_mono W H grid a.1 c.1 c.2)⟩
  · exact ⟨ha1, ha2⟩

theorem solve_by_gaussian_elimination_pres {W H : ℕ} {grid : ℕ → ℕ → Int}
    {s : SState} (hinv : SInv W H grid s) :
    SInv W H grid (solve_by_gaussian_elimination W H grid s).2.1 ∧
      StepMono s (solve_by_gaussian_elimination W H grid s).2.1 := by
  unfold solve_by_gaussian_elimination
  split
  · exact ⟨hinv, stepMono_refl s⟩
  · split
    · exact ⟨hinv, stepMono_refl s⟩
    · have hsub := gaussianSolve_sub W H s (get_frontier W H s)
      have hmines : ∀ c ∈ (gaussianSolve W H s (get_frontier W H s)).mines,
          c.1 < W ∧ c.2 < H ∧ s.visible c.1 c.2 = -1 := by
        intro c hc
        obtain ⟨h1, h2, h3, _⟩ := get_frontier_mem (hsub.2 c hc)
        exact ⟨h1, h2, h3⟩
      have hm := gaussApplyMines_pres hinv
        (gaussianSolve W H s (get_frontier W H s)).mines hmines
      have hs := gaussApplySafes_pres (s := s)
        (gaussApplyMines s (gaussianSolve W H s (get_frontier W H s)).mines)
        (gaussianSolve W H s (get_frontier W H s)).safe ⟨hm.1, hm.2.2⟩
      exact hs

-- ── Strategy 4: proof by contradiction (solver.rs) ──

/-- Overlay state of check_contradiction: simulated flag keys, simulated
reveal keys, the to-check key set, and the changed marker. -/
structure SimState where
  simFlags : List ℕ
  simRevealed : List ℕ
  toCheck : List ℕ
  changed : Bool

/-- get_flag of check_contradiction: overlay first, else the real grid (the
overlay only ever stores true). -/
def simGetFlag (s : SState) (simFlags : List ℕ) (x y : ℕ) : Bool :=
  if simFlags.contains (cell_key x y) then true else s.flags x y

/-- Hidden neighbors under the overlay: really hidden and not simulated as
revealed, not flagged under the overlay. -/
def simHiddenNbrs (W H : ℕ) (s : SState) (st : SimState) (x y : ℕ) :
    List (ℕ × ℕ) :=
  (nc_get W H x y).filter (fun p =>
    !simGetFlag s st.simFlags p.1 p.2 &&
      (s.visible p.1 p.2 == -1) && !st.simRevealed.contains (cell_key p.1 p.2))

def simFlaggedCount (W H : ℕ) (s : SState) (st : SimState) (x y : ℕ) : ℕ :=
  ((nc_get W H x y).filter (fun p => simGetFlag s st.simFlags p.1 p.2)).length

/-- Propagate the simulated safe reveals of one clue (all hidden are safe). -/
def simRevealAll (W H : ℕ) (st : SimState) (cells : List (ℕ × ℕ)) : SimState :=
  cells.foldl (fun st2 c =>
    if st2.simRevealed.contains (cell_key c.1 c.2) then st2
    else
      { st2 with
        simRevealed := st2.simRevealed ++ [cell_key c.1 c.2]
        changed := true
        toCheck := insertKeys st2.toCheck
          ((nc_get W H c.1 c.2).map (fun p => cell_key p.1 p.2)) }) st

/-- Propagate the simulated flags of one clue (all hidden are mines). -/
def simFlagAll (W H : ℕ) (s : SState) (st : SimState) (cells : List (ℕ × ℕ)) :
    SimState :=
  cells.foldl (fun st2 c =>
    if simGetFlag s st2.simFlags c.1 c.2 then st2
    else
      { st2 with
        simFlags := st2.simFlags ++ [cell_key c.1 c.2]
        changed := true
        toCheck := insertKeys st2.toCheck
          ((nc_get W H c.1 c.2).map (fun p => cell_key p.1 p.2)) }) st

/-- Process the drained keys of one overlay iteration; none signals that a
contradiction was observed (the source returns true). -/
def contraProcessKeys (W H : ℕ) (s : SState) :
    List ℕ → SimState → Option SimState
  | [], st => some st
  | key :: rest, st =>
    if s.visible (decode_key key).1 (decode_key key).2 ≤ 0 then
      contraProcessKeys W H s rest st
    else
      if (s.visible (decode_key key).1 (decode_key key).2 : Int) <
          (simFlaggedCount W H s st (decode_key key).1 (decode_key key).2 : Int) then
        none
      else if (simFlaggedCount W H s st (decode_key key).1 (decode_key key).2 : Int) +
          ((simHiddenNbrs W H s st (decode_key key).1 (decode_key key).2).length : Int) <
          s.visible (decode_key key).1 (decode_key key).2 then
        none
      else if (simHiddenNbrs W H s st (decode_key key).1 (decode_key key).2).length ≠ 0 then
        if (simFlaggedCount W H s st (decode_key key).1 (decode_key key).2 : Int) =
            s.visible (decode_key key).1 (decode_key key).2 then
          contraProcessKeys W H s rest
            (simRevealAll W H st
              (simHiddenNbrs W H s st (decode_key key).1 (decode_key key).2))
        else if (simFlaggedCount W H s st (decode_key key).1 (decode_key key).2 : Int) +
            ((simHiddenNbrs W H s st (decode_key key).1 (decode_key key).2).length : Int) =
            s.visible (decode_key key).1 (decode_key key).2 then
          contraProcessKeys W H s rest
            (simFlagAll W H s st
              (simHiddenNbrs W H s st (decode_key key).1 (decode_key key).2))
        else contraProcessKeys W H s rest st
      else contraProcessKeys W H s rest st

/-- The while loop of check_contradiction, capped at 20 iterations exactly as
in the source. -/
def contraLoop (W H : ℕ) (s : SState) : ℕ → SimState → Bool
  | 0, _ => false
  | fuel + 1, st =>
    if !st.changed then false
    else
      match contraProcessKeys W H s st.toCheck
          { st with toCheck := [], changed := false } with
      | none => true
      | some st2 => contraLoop W H s fuel st2

/-- solver.rs check_contradiction: assume (ax, ay) is or is not a mine and
propagate basic rules on overlays; true means a contradiction was reached. -/
def check_contradiction (W H : ℕ) (s : SState) (ax ay : ℕ)
    (assume_mine : Bool) : Bool :=
  contraLoop W H s 20
    { simFlags := if assume_mine then [cell_key ax ay] else []
      simRevealed := if assume_mine then [] else [cell_key ax ay]
      toCheck := insertKeys [] ((nc_get W H ax ay).map (fun p => cell_key p.1 p.2))
      changed := true }

/-- Candidate scan of solve_by_contradiction: the first cell whose
assumption fails is revealed or flagged in the real state. -/
def contraScan (W H : ℕ) (grid : ℕ → ℕ → Int) (s : SState) :
    List (ℕ × ℕ) → Bool × SState × Option (ℕ × ℕ)
  | [] => (false, s, none)
  | c :: rest =>
    if check_contradiction W H s c.1 c.2 true then
      (true, stReveal W H grid s c.1 c.2, some c)
    else if check_contradiction W H s c.1 c.2 false then
      (true, stFlagRaw s c.1 c.2, some c)
    else contraScan W H grid s rest

/-- solver.rs solve_by_contradiction: try the first 50 frontier cells. -/
def solve_by_contradiction (W H : ℕ) (grid : ℕ → ℕ → Int) (s : SState) :
    Bool × SState × Option (ℕ × ℕ) :=
  contraScan W H grid s ((get_frontier W H s).take 50)

theorem contraScan_pres {W H : ℕ} {grid : ℕ → ℕ → Int} {s : SState}
    (hinv : SInv W H grid s) :
    ∀ (cands : List (ℕ × ℕ)),
      (∀ c ∈ cands, c.1 < W ∧ c.2 < H ∧ s.visible c.1 c.2 = -1 ∧
        s.flags c.1 c.2 = false) →
      SInv W H grid (contraScan W H grid s cands).2.1 ∧
        StepMono s (contraScan W H grid s cands).2.1 := by
  intro cands
  induction cands with
  | nil => intro _; exact ⟨hinv, stepMono_refl s⟩
  | cons c rest ih =>
    intro hc
    obtain ⟨h1, h2, h3, h4⟩ := hc c (List.mem_cons_self c rest)
    unfold contraScan
    split
    · exact ⟨stReveal_inv hinv c.1 c.2, stReveal_mono W H grid s c.1 c.2⟩
    · split
      · exact ⟨stFlagRaw_inv hinv h1 h2 h3 h4, stFlagRaw_mono s c.1 c.2⟩
      · exact ih (fun c2 hc2 => hc c2 (List.mem_cons_of_mem c hc2))

theorem solve_by_contradiction_pres {W H : ℕ} {grid : ℕ → ℕ → Int} {s : SState}
    (hinv : SInv W H grid s) :
    SInv W H grid (solve_by_contradiction W H grid s).2.1 ∧
      StepMono s (solve_by_contradiction W H grid s).2.1 := by
  unfold solve_by_contradiction
  refine contraScan_pres hinv _ ?_
  intro c hc
  exact get_frontier_mem (List.mem_of_mem_take hc)

-- ── Strategy 6: global mine count (solver.rs apply_global_mine_count) ──

/-- All hidden unflagged cells in x-major scan order. -/
def hiddenUnflagged (W H : ℕ) (s : SState) : List (ℕ × ℕ) :=
  (List.range W).flatMap (fun x =>
    (List.range H).filterMap (fun y =>
      if s.visible x y = -1 ∧ s.flags x y = false then some (x, y) else none))

/-- solver.rs apply_global_mine_count: flag everything when the remaining
mines fill every hidden cell; reveal everything when none remain. -/
def apply_global_mine_count (W H : ℕ) (grid : ℕ → ℕ → Int) (s : SState)
    (bomb_count : ℕ) : Bool × SState :=
  if (hiddenUnflagged W H s).length ≠ 0 ∧
      (bomb_count : Int) - (s.flagCount : Int) = ((hiddenUnflagged W H s).length : Int) then
    (true, (hiddenUnflagged W H s).foldl (fun s2 c => stFlagRaw s2 c.1 c.2) s)
  else if (hiddenUnflagged W H s).length ≠ 0 ∧
      (bomb_count : Int) - (s.flagCount : Int) = 0 then
    (true, (hiddenUnflagged W H s).foldl (fun s2 c => stReveal W H grid s2 c.1 c.2) s)
  else (false, s)

theorem hiddenUnflagged_mem {W H : ℕ} {s : SState} {c : ℕ × ℕ}
    (h : c ∈ hiddenUnflagged W H s) :
    c.1 < W ∧ c.2 < H ∧ s.visible c.1 c.2 = -1 ∧ s.flags c.1 c.2 = false := by
  simp only [hiddenUnflagged, List.mem_flatMap, List.mem_filterMap,
    List.mem_range] at h
  obtain ⟨x, hx, y, hy, hc⟩ := h
  by_cases hcond : s.visible x y = -1 ∧ s.flags x y = false
  · rw [if_pos hcond] at hc
    cases hc
    exact ⟨hx, hy, hcond.1, hcond.2⟩
  · rw [if_neg hcond] at hc
    cases hc

theorem hiddenUnflagged_nodup (W H : ℕ) (s : SState) :
    (hiddenUnflagged W H s).Nodup := by
  unfold hiddenUnflagged
  rw [List.nodup_flatMap]
  constructor
  · intro x _
    apply List.Nodup.filterMap
    · intro a a' b hb hb'
      have ha : (x, a) = b := by
        by_cases hc : s.visible x a = -1 ∧ s.flags x a = false
        · rw [if_pos hc] at hb; simpa using hb
        · rw [if_neg hc] at hb; simp at hb
      have ha' : (x, a') = b := by
        by_cases hc : s.visible x a' = -1 ∧ s.flags x a' = false
        · rw [if_pos hc] at hb'; simpa using hb'
        · rw [if_neg hc] at hb'; simp at hb'
      have := ha.trans ha'.symm
      simpa using this
    · exact List.nodup_range H
  · have hfst : ∀ x (b : ℕ × ℕ), b ∈ (List.range H).filterMap (fun y =>
        if s.visible x y = -1 ∧ s.flags x y = false then some (x, y) else none) →
        b.1 = x := by
      intro x b hb
      simp only [List.mem_filterMap] at hb
      obtain ⟨y, _, hy⟩ := hb
      by_cases hc : s.visible x y = -1 ∧ s.flags x y = false
      · rw [if_pos hc] at hy; cases hy; rfl
      · rw [if_neg hc] at hy; cases hy
    have hnd : (List.range W).Pairwise (· ≠ ·) := List.nodup_range W
    refine hnd.imp ?_
    intro a b hab c hca hcb
    exact hab ((hfst a c hca).symm.trans (hfst b c hcb))

theorem flagRawFold_pres {W H : ℕ} {grid : ℕ → ℕ → Int} (s0 : SState) :
    ∀ (cells : List (ℕ × ℕ)) (s : SState), SInv W H grid s →
      StepMono s0 s → s.visible = s0.visible →
      (∀ c ∈ cells, c.1 < W ∧ c.2 < H ∧ s.visible c.1 c.2 = -1 ∧
        s.flags c.1 c.2 = false) →
      cells.Nodup →
      SInv W H grid (cells.foldl (fun s2 c => stFlagRaw s2 c.1 c.2) s) ∧
        StepMono s0 (cells.foldl (fun s2 c => stFlagRaw s2 c.1 c.2) s) := by
  intro cells
  induction cells with
  | nil => intro s hinv hmono _ _ _; exact ⟨hinv, hmono⟩
  | cons c rest ih =>
    intro s hinv hmono hvis hcells hnd
    obtain ⟨h1, h2, h3, h4⟩ := hcells c (List.mem_cons_self c rest)
    simp only [List.foldl_cons]
    refine ih (stFlagRaw s c.1 c.2) (stFlagRaw_inv hinv h1 h2 h3 h4)
      (stepMono_trans hmono (stFlagRaw_mono s c.1 c.2))
      (by rw [stFlag_visible_raw]; exact hvis) ?_ (List.Nodup.of_cons hnd)
    intro c2 hc2
    obtain ⟨g1, g2, g3, g4⟩ := hcells c2 (List.mem_cons_of_mem c hc2)
    refine ⟨g1, g2, by rw [stFlag_visible_raw]; exact g3, ?_⟩
    have hne : c2 ≠ c := by
      intro he
      rw [he] at hc2
      exact (List.nodup_cons.mp hnd).1 hc2
    show upd2 s.flags c.1 c.2 true c2.1 c2.2 = false
    rw [upd2_other]
    · exact g4
    · intro ⟨e1, e2⟩
      exact hne (Prod.ext e1 e2)

theorem revealFold_pres {W H : ℕ} {grid : ℕ → ℕ → Int} (s0 : SState)
    (cells : List (ℕ × ℕ)) (s : SState) (hinv : SInv W H grid s)
    (hmono : StepMono s0 s) :
    SInv W H grid (cells.foldl (fun s2 c => stReveal W H grid s2 c.1 c.2) s) ∧
      StepMono s0 (cells.foldl (fun s2 c => stReveal W H grid s2 c.1 c.2) s) := by
  refine foldl_preserve
    (fun s2 : SState => SInv W H grid s2 ∧ StepMono s0 s2) _ cells ?_ s ⟨hinv, hmono⟩
  intro a c _ ⟨ha1, ha2⟩
  exact ⟨stReveal_inv ha1 c.1 c.2,
    stepMono_trans ha2 (stReveal_mono W H grid a c.1 c.2)⟩

theorem apply_global_mine_count_pres {W H : ℕ} {grid : ℕ → ℕ → Int}
    {s : SState} (hinv : SInv W H grid s) (bomb_count : ℕ) :
    SInv W H grid (apply_global_mine_count W H grid s bomb_count).2 ∧
      StepMono s (apply_global_mine_count W H grid s bomb_count).2 := by
  unfold apply_global_mine_count
  split
  · exact flagRawFold_pres s (hiddenUnflagged W H s) s hinv (stepMono_refl s) rfl
      (fun c hc => hiddenUnflagged_mem hc) (hiddenUnflagged_nodup W H s)
  · split
    · exact revealFold_pres s (hiddenUnflagged W H s) s hinv (stepMono_refl s)
    · exact ⟨hinv, stepMono_refl s⟩

-- ── Strategy 5: tank solver (solver.rs) ──

theorem cell_key_eq {x y : ℕ} (hx : x < 65536) (hy : y < 65536) :
    cell_key x y = (x <<< 16) ||| y := by
  unfold cell_key
  have h1 : x % 4294967296 = x := Nat.mod_eq_of_lt (by omega)
  have h2 : y % 4294967296 = y := Nat.mod_eq_of_lt (by omega)
  have h3 : x <<< 16 < 4294967296 := by
    rw [Nat.shiftLeft_eq]
    calc x * 2 ^ 16 < 65536 * 2 ^ 16 := by
          apply Nat.mul_lt_mul_of_lt_of_le hx (le_refl _)
          norm_num
      _ = 4294967296 := by norm_num
  rw [h1, h2, Nat.mod_eq_of_lt h3]

theorem decode_cell_key {x y : ℕ} (hx : x < 65536) (hy : y < 65536) :
    decode_key (cell_key x y) = (x, y) := by
  rw [cell_key_eq hx hy]
  unfold decode_key
  have hyp : ∀ i, 16 ≤ i → y.testBit i = false := by
    intro i hi
    apply Nat.testBit_lt_two_pow
    calc y < 65536 := hy
      _ = 2 ^ 16 := by norm_num
      _ ≤ 2 ^ i := Nat.pow_le_pow_right (by omega) hi
  refine Prod.ext ?_ ?_
  · show ((x <<< 16) ||| y) >>> 16 = x
    apply Nat.eq_of_testBit_eq
    intro i
    rw [Nat.testBit_shiftRight, Nat.testBit_or, Nat.testBit_shiftLeft,
      hyp (16 + i) (by omega)]
    simp
  · show ((x <<< 16) ||| y) &&& 65535 = y
    have h65535 : (65535 : ℕ) = 2 ^ 16 - 1 := by norm_num
    rw [h65535, Nat.and_pow_two_sub_one_eq_mod]
    apply Nat.eq_of_testBit_eq
    intro i
    rw [Nat.testBit_mod_two_pow, Nat.testBit_or, Nat.testBit_shiftLeft]
    by_cases hi : i < 16
    · have : ¬(16 ≤ i) := by omega
      simp [hi, this]
    · have h16 : 16 ≤ i := by omega
      simp [hi, hyp i h16]

theorem cell_key_inj {a b : ℕ × ℕ} (ha1 : a.1 < 65536) (ha2 : a.2 < 65536)
    (hb1 : b.1 < 65536) (hb2 : b.2 < 65536)
    (h : cell_key a.1 a.2 = cell_key b.1 b.2) : a = b := by
  have := congrArg decode_key h
  rw [decode_cell_key ha1 ha2, decode_cell_key hb1 hb2] at this
  exact Prod.ext (congrArg Prod.fst this) (congrArg Prod.snd this)

/-- Push scan of the region BFS: through each revealed-number neighbor of
the popped cell, push every frontier-keyed hidden cell not yet visited or
queued (stack top is the list head). -/
def tankScan (W H : ℕ) (s : SState) (fset visited2 : List ℕ)
    (start : List (ℕ × ℕ) × List ℕ) (ns : List (ℕ × ℕ)) :
    List (ℕ × ℕ) × List ℕ :=
  ns.foldl (fun acc n =>
    if s.visible n.1 n.2 ≤ 0 then acc
    else (nc_get W H n.1 n.2).foldl (fun acc2 hcell =>
      if !visited2.contains (cell_key hcell.1 hcell.2) &&
          !acc2.2.contains (cell_key hcell.1 hcell.2) &&
          fset.contains (cell_key hcell.1 hcell.2) then
        (hcell :: acc2.1, acc2.2 ++ [cell_key hcell.1 hcell.2])
      else acc2) acc) start

/-- LIFO BFS of group_frontier_regions (solver.rs): the Vec stack top is the
list head; visited and queue-membership are key sets; region cells are
recorded at pop time.  The step budget of one per pop cannot run out since
each push claims a fresh queue-set key. -/
def tankBfs (W H : ℕ) (s : SState) (fset : List ℕ) :
    ℕ → List (ℕ × ℕ) → List ℕ → List ℕ → List (ℕ × ℕ) →
    List (ℕ × ℕ) × List ℕ
  | 0, _, visited, _, region => (region, visited)
  | _ + 1, [], visited, _, region => (region, visited)
  | fuel + 1, c :: rest, visited, qset, region =>
    if visited.contains (cell_key c.1 c.2) then
      tankBfs W H s fset fuel rest visited qset region
    else
      tankBfs W H s fset fuel
        (tankScan W H s fset (visited ++ [cell_key c.1 c.2]) (rest, qset)
          (nc_get W H c.1 c.2)).1
        (tankScan W H s fset (visited ++ [cell_key c.1 c.2]) (rest, qset)
          (nc_get W H c.1 c.2)).2
        (visited ++ [cell_key c.1 c.2]) (region ++ [c])

/-- One fold step of group_frontier_regions over the frontier. -/
def groupStep (W H : ℕ) (s : SState) (frontier : List (ℕ × ℕ))
    (acc : List (List (ℕ × ℕ)) × List ℕ) (c : ℕ × ℕ) :
    List (List (ℕ × ℕ)) × List ℕ :=
  if acc.2.contains (cell_key c.1 c.2) then acc
  else
    (acc.1 ++ [(tankBfs W H s (frontier.map (fun p => cell_key p.1 p.2))
        (frontier.length + 1) [c] acc.2 [cell_key c.1 c.2] []).1],
      (tankBfs W H s (frontier.map (fun p => cell_key p.1 p.2))
        (frontier.length + 1) [c] acc.2 [cell_key c.1 c.2] []).2)

/-- solver.rs group_frontier_regions. -/
def group_frontier_regions (W H : ℕ) (s : SState) (frontier : List (ℕ × ℕ)) :
    List (List (ℕ × ℕ)) :=
  (frontier.foldl (groupStep W H s frontier) ([], [])).1

/-- Constraint of a region (solver.rs RegionConstraint). -/
structure RegionConstraint where
  remaining : Int
  cells_in_region_indices : List ℕ
  cells_outside_count : ℕ

/-- solver.rs get_region_constraints: every fresh clue next to the region,
with its remaining count, the indices of its hidden neighbors inside the
region (found by coordinate scan) and the count of those outside. -/
def get_region_constraints (W H : ℕ) (s : SState) (region : List (ℕ × ℕ)) :
    List RegionConstraint :=
  (region.foldl (fun (acc : List RegionConstraint × List ℕ) c =>
    (nc_get W H c.1 c.2).foldl (fun acc2 n =>
      if s.visible n.1 n.2 ≤ 0 ∨ acc2.2.contains (cell_key n.1 n.2) then acc2
      else
        (acc2.1 ++ [⟨s.visible n.1 n.2 -
            ((nc_get W H n.1 n.2).foldl (fun (sc : Int × List ℕ × ℕ) cn =>
              if s.flags cn.1 cn.2 then (sc.1 + 1, sc.2)
              else if s.visible cn.1 cn.2 = -1 then
                if (region.map (fun rc => cell_key rc.1 rc.2)).contains
                    (cell_key cn.1 cn.2) then
                  match region.findIdx? (fun rc =>
                      rc.1 == cn.1 && rc.2 == cn.2) with
                  | some i => (sc.1, sc.2.1 ++ [i], sc.2.2)
                  | none => sc
                else (sc.1, sc.2.1, sc.2.2 + 1)
              else sc) (0, [], 0)).1,
          ((nc_get W H n.1 n.2).foldl (fun (sc : Int × List ℕ × ℕ) cn =>
              if s.flags cn.1 cn.2 then (sc.1 + 1, sc.2)
              else if s.visible cn.1 cn.2 = -1 then
                if (region.map (fun rc => cell_key rc.1 rc.2)).contains
                    (cell_key cn.1 cn.2) then
                  match region.findIdx? (fun rc =>
                      rc.1 == cn.1 && rc.2 == cn.2) with
                  | some i => (sc.1, sc.2.1 ++ [i], sc.2.2)
                  | none => sc
                else (sc.1, sc.2.1, sc.2.2 + 1)
              else sc) (0, [], 0)).2.1,
          ((nc_get W H n.1 n.2).foldl (fun (sc : Int × List ℕ × ℕ) cn =>
              if s.flags cn.1 cn.2 then (sc.1 + 1, sc.2)
              else if s.visible cn.1 cn.2 = -1 then
                if (region.map (fun rc => cell_key rc.1 rc.2)).contains
                    (cell_key cn.1 cn.2) then
                  match region.findIdx? (fun rc =>
                      rc.1 == cn.1 && rc.2 == cn.2) with
                  | some i => (sc.1, sc.2.1 ++ [i], sc.2.2)
                  | none => sc
                else (sc.1, sc.2.1, sc.2.2 + 1)
              else sc) (0, [], 0)).2.2⟩],
          acc2.2 ++ [cell_key n.1 n.2])) acc) ([], [])).1

/-- 32-bit population count (u32 count_ones). -/
def countOnes (m : ℕ) : ℕ :=
  countOnesAux 32 m
where countOnesAux : ℕ → ℕ → ℕ
  | 0, _ => 0
  | f + 1, m => if m = 0 then 0 else m % 2 + countOnesAux f (m / 2)

def MAX_REGION_SIZE : ℕ := 20

def MAX_CONFIGURATIONS : ℕ := 2 ^ MAX_REGION_SIZE

/-- solver.rs enumerate_configurations: all bitmasks within the global mine
budget that can be extended to satisfy every constraint. -/
def enumerate_configurations (region : List (ℕ × ℕ))
    (constraints : List RegionConstraint) (max_mines : ℕ) : List ℕ :=
  if MAX_CONFIGURATIONS < 2 ^ region.length then []
  else
    (List.range (2 ^ region.length)).filter (fun mask =>
      decide (countOnes mask ≤ max_mines) &&
        constraints.all (fun c =>
          decide (0 ≤ c.remaining -
              ((c.cells_in_region_indices.filter
                (fun idx => (mask >>> idx) % 2 = 1)).length : Int) ∧
            c.remaining -
              ((c.cells_in_region_indices.filter
                (fun idx => (mask >>> idx) % 2 = 1)).length : Int) ≤
              (c.cells_outside_count : Int))))

/-- solver.rs analyze_configurations: cells set in every valid mask are
definite mines, cells clear in every valid mask are definite safes. -/
def analyze_configurations (region : List (ℕ × ℕ)) (valid_masks : List ℕ) :
    List (ℕ × ℕ) × List (ℕ × ℕ) :=
  (List.range region.length).foldl (fun acc i =>
    (if valid_masks.all (fun m => (m >>> i) % 2 = 1) then
       acc.1 ++ [region.getD i (0, 0)] else acc.1,
     if valid_masks.all (fun m => (m >>> i) % 2 = 0) then
       acc.2 ++ [region.getD i (0, 0)] else acc.2)) ([], [])

/-- Application of one fruitful region: flag the definite mines (guarded),
reveal the definite safes, collect the changed cells and a progress mark. -/
def tankApplyRegion (W H : ℕ) (grid : ℕ → ℕ → Int) (s : SState)
    (dm ds : List (ℕ × ℕ)) : SState × List (ℕ × ℕ) × Bool :=
  ds.foldl (fun (acc : SState × List (ℕ × ℕ) × Bool) c =>
    if acc.1.visible c.1 c.2 = -1 then
      (stReveal W H grid acc.1 c.1 c.2, acc.2.1 ++ [c], true)
    else acc)
    (dm.foldl (fun (acc : SState × List (ℕ × ℕ) × Bool) c =>
      if acc.1.flags c.1 c.2 then acc
      else (stFlagRaw acc.1 c.1 c.2, acc.2.1 ++ [c], true)) (s, [], false))

/-- Region loop of tank_solver: the first fruitful region returns; fruitless
regions change nothing, so the loop continues from the original state. -/
def tankRegionLoop (W H : ℕ) (grid : ℕ → ℕ → Int) (bomb_count : ℕ)
    (s : SState) : List (List (ℕ × ℕ)) → Bool × SState × List (ℕ × ℕ)
  | [] => (false, s, [])
  | region :: rest =>
    if MAX_REGION_SIZE < region.length then
      tankRegionLoop W H grid bomb_count s rest
    else if (get_region_constraints W H s region).length = 0 then
      tankRegionLoop W H grid bomb_count s rest
    else if (bomb_count : Int) - (s.flagCount : Int) < 0 then
      tankRegionLoop W H grid bomb_count s rest
    else if (enumerate_configurations region (get_region_constraints W H s region)
        ((bomb_count : Int) - (s.flagCount : Int)).toNat).length = 0 then
      tankRegionLoop W H grid bomb_count s rest
    else
      if (tankApplyRegion W H grid s
          (analyze_configurations region
            (enumerate_configurations region (get_region_constraints W H s region)
              ((bomb_count : Int) - (s.flagCount : Int)).toNat)).1
          (analyze_configurations region
            (enumerate_configurations region (get_region_constraints W H s region)
              ((bomb_count : Int) - (s.flagCount : Int)).toNat)).2).2.2 then
        (true,
          (tankApplyRegion W H grid s
            (analyze_configurations region
              (enumerate_configurations region (get_region_constraints W H s region)
                ((bomb_count : Int) - (s.flagCount : Int)).toNat)).1
            (analyze_configurations region
              (enumerate_configurations region (get_region_constraints W H s region)
                ((bomb_count : Int) - (s.flagCount : Int)).toNat)).2).1,
          (tankApplyRegion W H grid s
            (analyze_configurations region
              (enumerate_configurations region (get_region_constraints W H s region)
                ((bomb_count : Int) - (s.flagCount : Int)).toNat)).1
            (analyze_configurations region
              (enumerate_configurations region (get_region_constraints W H s region)
                ((bomb_count : Int) - (s.flagCount : Int)).toNat)).2).2.1)
      else tankRegionLoop W H grid bomb_count s rest

/-- solver.rs tank_solver: smallest regions first, first fruitful region
wins. -/
def tank_solver (W H : ℕ) (grid : ℕ → ℕ → Int) (s : SState) (bomb_count : ℕ) :
    Bool × SState × List (ℕ × ℕ) :=
  if (get_frontier W H s).length = 0 then (false, s, [])
  else
    tankRegionLoop W H grid bomb_count s
      ((group_frontier_regions W H s (get_frontier W H s)).mergeSort
        (fun a b => a.length ≤ b.length))

theorem mem_of_fset_key {W H : ℕ} {frontier : List (ℕ × ℕ)} {c : ℕ × ℕ}
    (hW : W ≤ 65536) (hH : H ≤ 65536)
    (hfb : ∀ p ∈ frontier, p.1 < W ∧ p.2 < H)
    (hc1 : c.1 < W) (hc2 : c.2 < H)
    (h : (frontier.map (fun p => cell_key p.1 p.2)).contains
      (cell_key c.1 c.2) = true) : c ∈ frontier := by
  have hmem : cell_key c.1 c.2 ∈ frontier.map (fun p => cell_key p.1 p.2) := by
    simpa using h
  obtain ⟨p, hp, hkey⟩ := List.mem_map.mp hmem
  obtain ⟨hp1, hp2⟩ := hfb p hp
  have : p = c := cell_key_inj (by omega) (by omega) (by omega) (by omega) hkey
  rw [← this]
  exact hp

theorem tankBfs_cons (W H : ℕ) (s : SState) (fset : List ℕ) (fuel : ℕ)
    (c : ℕ × ℕ) (rest : List (ℕ × ℕ)) (visited qset : List ℕ)
    (region : List (ℕ × ℕ)) :
    tankBfs W H s fset (fuel + 1) (c :: rest) visited qset region =
      if visited.contains (cell_key c.1 c.2) then
        tankBfs W H s fset fuel rest visited qset region
      else
        tankBfs W H s fset fuel
          (tankScan W H s fset (visited ++ [cell_key c.1 c.2]) (rest, qset)
            (nc_get W H c.1 c.2)).1
          (tankScan W H s fset (visited ++ [cell_key c.1 c.2]) (rest, qset)
            (nc_get W H c.1 c.2)).2
          (visited ++ [cell_key c.1 c.2]) (region ++ [c]) := rfl

theorem tankScan_sub {W H : ℕ} {s : SState} {frontier : List (ℕ × ℕ)}
    (hW : W ≤ 65536) (hH : H ≤ 65536)
    (hfb : ∀ p ∈ frontier, p.1 < W ∧ p.2 < H) (visited2 : List ℕ)
    (ns : List (ℕ × ℕ)) (start : List (ℕ × ℕ) × List ℕ)
    (hstart : ∀ c ∈ start.1, c ∈ frontier) :
    ∀ c ∈ (tankScan W H s (frontier.map (fun p => cell_key p.1 p.2))
      visited2 start ns).1, c ∈ frontier := by
  unfold tankScan
  refine foldl_preserve
    (fun acc : List (ℕ × ℕ) × List ℕ => ∀ c ∈ acc.1, c ∈ frontier)
    _ ns ?_ start hstart
  intro a n _ ha
  split
  · exact ha
  · refine foldl_preserve
      (fun a : List (ℕ × ℕ) × List ℕ => ∀ c ∈ a.1, c ∈ frontier)
      _ _ ?_ a ha
    intro a2 hcell hcm ha2
    split
    · rename_i hcond
      simp only [Bool.and_eq_true, Bool.not_eq_true'] at hcond
      intro c2 hc2
      rcases List.mem_cons.mp hc2 with hL | hRr
      · rw [hL]
        obtain ⟨hb1, hb2⟩ := nc_get_bounds hcm
        exact mem_of_fset_key hW hH hfb hb1 hb2 hcond.2
      · exact ha2 c2 hRr
    · exact ha2

theorem tankBfs_region_sub {W H : ℕ} {s : SState} {frontier : List (ℕ × ℕ)}
    (hW : W ≤ 65536) (hH : H ≤ 65536)
    (hfb : ∀ p ∈ frontier, p.1 < W ∧ p.2 < H) :
    ∀ (fuel : ℕ) (stack : List (ℕ × ℕ)) (visited qset : List ℕ)
      (region : List (ℕ × ℕ)),
      (∀ c ∈ stack, c ∈ frontier) → (∀ c ∈ region, c ∈ frontier) →
      ∀ c ∈ (tankBfs W H s (frontier.map (fun p => cell_key p.1 p.2))
        fuel stack visited qset region).1, c ∈ frontier := by
  intro fuel
  induction fuel with
  | zero => intro stack visited qset region _ hregion c hc; exact hregion c hc
  | succ fuel ih =>
    intro stack visited qset region hstack hregion c hc
    match stack with
    | [] => exact hregion c hc
    | q :: rest =>
      rw [tankBfs_cons] at hc
      by_cases hv : visited.contains (cell_key q.1 q.2) = true
      · rw [if_pos hv] at hc
        exact ih rest visited qset region
          (fun c2 hc2 => hstack c2 (List.mem_cons_of_mem q hc2)) hregion c hc
      · rw [if_neg hv] at hc
        refine ih _ _ _ _
          (tankScan_sub hW hH hfb (visited ++ [cell_key q.1 q.2])
            (nc_get W H q.1 q.2) (rest, qset)
            (fun c2 hc2 => hstack c2 (List.mem_cons_of_mem q hc2)))
          ?_ c hc
        intro c2 hc2
        rcases List.mem_append.mp hc2 with hL | hRr
        · exact hregion c2 hL
        · have he2 : c2 = q := by simpa using hRr
          rw [he2]
          exact hstack q (List.mem_cons_self q rest)

theorem group_frontier_regions_sub {W H : ℕ} {s : SState}
    {frontier : List (ℕ × ℕ)} (hW : W ≤ 65536) (hH : H ≤ 65536)
    (hfb : ∀ p ∈ frontier, p.1 < W ∧ p.2 < H) :
    ∀ region ∈ group_frontier_regions W H s frontier, ∀ c ∈ region,
      c ∈ frontier := by
  unfold group_frontier_regions
  have hmain := foldl_preserve
    (fun acc : List (List (ℕ × ℕ)) × List ℕ =>
      ∀ region ∈ acc.1, ∀ c ∈ region, c ∈ frontier)
    (groupStep W H s frontier) frontier
    (by
      intro a c hcf ha
      unfold groupStep
      split
      · exact ha
      · intro region hr c2 hc2
        rcases List.mem_append.mp hr with hL | hRr
        · exact ha region hL c2 hc2
        · have he : region = (tankBfs W H s
              (frontier.map (fun p => cell_key p.1 p.2))
              (frontier.length + 1) [c] a.2 [cell_key c.1 c.2] []).1 := by
            simpa using hRr
          rw [he] at hc2
          refine tankBfs_region_sub hW hH hfb (frontier.length + 1) [c] a.2
            [cell_key c.1 c.2] [] ?_ (by simp) c2 hc2
          intro c3 hc3
          have he3 : c3 = c := by simpa using hc3
          rw [he3]
          exact hcf)
    ([], []) (by simp)
  exact hmain

theorem analyze_configurations_sub (region : List (ℕ × ℕ)) (masks : List ℕ) :
    (∀ c ∈ (analyze_configurations region masks).1, c ∈ region) ∧
      (∀ c ∈ (analyze_configurations region masks).2, c ∈ region) := by
  unfold analyze_configurations
  refine foldl_preserve
    (fun acc : List (ℕ × ℕ) × List (ℕ × ℕ) =>
      (∀ c ∈ acc.1, c ∈ region) ∧ (∀ c ∈ acc.2, c ∈ region))
    _ (List.range region.length) ?_ ([], []) (by constructor <;> simp)
  intro a i hi ⟨ha1, ha2⟩
  have hmem : region.getD i (0, 0) ∈ region := by
    have hlt : i < region.length := List.mem_range.mp hi
    rw [List.getD_eq_getElem region (0, 0) hlt]
    exact List.getElem_mem hlt
  have hap : ∀ (l : List (ℕ × ℕ)), (∀ c ∈ l, c ∈ region) →
      ∀ c ∈ l ++ [region.getD i (0, 0)], c ∈ region := by
    intro l hl c hc
    rcases List.mem_append.mp hc with hL | hRr
    · exact hl c hL
    · have he : c = region.getD i (0, 0) := by simpa using hRr
      rw [he]; exact hmem
  split_ifs with h1 h2 h3
  · exact ⟨hap a.1 ha1, hap a.2 ha2⟩
  · exact ⟨hap a.1 ha1, ha2⟩
  · exact ⟨ha1, hap a.2 ha2⟩
  · exact ⟨ha1, ha2⟩

theorem tankApplyRegion_pres {W H : ℕ} {grid : ℕ → ℕ → Int} {s : SState}
    (hinv : SInv W H grid s) (dm ds : List (ℕ × ℕ))
    (hdm : ∀ c ∈ dm, c.1 < W ∧ c.2 < H ∧ s.visible c.1 c.2 = -1) :
    SInv W H grid (tankApplyRegion W H grid s dm ds).1 ∧
      StepMono s (tankApplyRegion W H grid s dm ds).1 := by
  unfold tankApplyRegion
  have hflag := foldl_preserve
    (fun acc : SState × List (ℕ × ℕ) × Bool =>
      SInv W H grid acc.1 ∧ acc.1.visible = s.visible ∧ StepMono s acc.1)
    (fun (acc : SState × List (ℕ × ℕ) × Bool) c =>
      if acc.1.flags c.1 c.2 then acc
      else (stFlagRaw acc.1 c.1 c.2, acc.2.1 ++ [c], true)) dm
    (by
      intro a c hc ⟨ha1, ha2, ha3⟩
      beta_reduce
      split
      · exact ⟨ha1, ha2, ha3⟩
      · rename_i hnf
        simp only [Bool.not_eq_true] at hnf
        obtain ⟨hb1, hb2, hb3⟩ := hdm c hc
        refine ⟨stFlagRaw_inv ha1 hb1 hb2 (by rw [ha2]; exact hb3) hnf, ?_, ?_⟩
        · rw [stFlag_visible_raw]; exact ha2
        · exact stepMono_trans ha3 (stFlagRaw_mono a.1 c.1 c.2))
    (s, [], false) ⟨hinv, rfl, stepMono_refl s⟩
  refine foldl_preserve
    (fun acc : SState × List (ℕ × ℕ) × Bool =>
      SInv W H grid acc.1 ∧ StepMono s acc.1) _ ds ?_ _ ⟨hflag.1, hflag.2.2⟩
  intro a c _ ⟨ha1, ha2⟩
  split
  · exact ⟨stReveal_inv ha1 c.1 c.2,
      stepMono_trans ha2 (stReveal_mono W H grid a.1 c.1 c.2)⟩
  · exact ⟨ha1, ha2⟩

theorem tankRegionLoop_pres {W H : ℕ} {grid : ℕ → ℕ → Int} {s : SState}
    (hinv : SInv W H grid s) (bomb_count : ℕ) :
    ∀ (regions : List (List (ℕ × ℕ))),
      (∀ region ∈ regions, ∀ c ∈ region,
        c.1 < W ∧ c.2 < H ∧ s.visible c.1 c.2 = -1) →
      SInv W H grid (tankRegionLoop W H grid bomb_count s regions).2.1 ∧
        StepMono s (tankRegionLoop W H grid bomb_count s regions).2.1 := by
  intro regions
  induction regions with
  | nil => intro _; exact ⟨hinv, stepMono_refl s⟩
  | cons region rest ih =>
    intro hr
    have hrest : ∀ r2 ∈ rest, ∀ c ∈ r2,
        c.1 < W ∧ c.2 < H ∧ s.visible c.1 c.2 = -1 :=
      fun r2 h2 => hr r2 (List.mem_cons_of_mem region h2)
    have hregion := hr region (List.mem_cons_self region rest)
    unfold tankRegionLoop
    split
    · exact ih hrest
    · split
      · exact ih hrest
      · split
        · exact ih hrest
        · split
          · exact ih hrest
          · have hsub := analyze_configurations_sub region
              (enumerate_configurations region
                (get_region_constraints W H s region)
                ((bomb_count : Int) - (s.flagCount : Int)).toNat)
            have happ := tankApplyRegion_pres hinv
              (analyze_configurations region
                (enumerate_configurations region
                  (get_region_constraints W H s region)
                  ((bomb_count : Int) - (s.flagCount : Int)).toNat)).1
              (analyze_configurations region
                (enumerate_configurations region
                  (get_region_constraints W H s region)
                  ((bomb_count : Int) - (s.flagCount : Int)).toNat)).2
              (fun c hc => hregion c (hsub.1 c hc))
            split
            · exact happ
            · exact ih hrest

theorem tank_solver_pres {W H : ℕ} {grid : ℕ → ℕ → Int} {s : SState}
    (hW : W ≤ 65536) (hH : H ≤ 65536) (hinv : SInv W H grid s)
    (bomb_count : ℕ) :
    SInv W H grid (tank_solver W H grid s bomb_count).2.1 ∧
      StepMono s (tank_solver W H grid s bomb_count).2.1 := by
  unfold tank_solver
  split
  · exact ⟨hinv, stepMono_refl s⟩
  · refine tankRegionLoop_pres hinv bomb_count _ ?_
    intro region hrm c hc
    have hrm2 : region ∈ group_frontier_regions W H s (get_frontier W H s) :=
      List.mem_mergeSort.mp hrm
    have hcf := group_frontier_regions_sub hW hH
      (fun p hp => ⟨(get_frontier_mem hp).1, (get_frontier_mem hp).2.1⟩)
      region hrm2 c hc
    obtain ⟨h1, h2, h3, _⟩ := get_frontier_mem hcf
    exact ⟨h1, h2, h3⟩

-- ── Top level: is_solvable (solver.rs) ──

/-- The nine offsets of the 3x3 start zone reveal (dx-major, center kept). -/
def offsets9 : List (Int × Int) :=
  [(-1,-1),(-1,0),(-1,1),(0,-1),(0,0),(0,1),(1,-1),(1,0),(1,1)]

/-- Fresh state with the clipped 3x3 zone around the start revealed. -/
def initialReveal (W H : ℕ) (grid : ℕ → ℕ → Int) (sx sy : ℕ) : SState :=
  offsets9.foldl (fun s d =>
    if 0 ≤ (sx : Int) + d.1 ∧ (sx : Int) + d.1 < (W : Int) ∧
        0 ≤ (sy : Int) + d.2 ∧ (sy : Int) + d.2 < (H : Int) then
      stReveal W H grid s ((sx : Int) + d.1).toNat ((sy : Int) + d.2).toNat
    else s)
    ⟨fun _ _ => -1, fun _ _ => false, 0⟩

/-- Initial dirty set: every revealed cell and its neighbors, scan order. -/
def initialDirty (W H : ℕ) (s : SState) : List ℕ :=
  (List.range W).foldl (fun acc x =>
    (List.range H).foldl (fun acc2 y =>
      if s.visible x y ≠ -1 then
        insertKeys (insertKey acc2 (cell_key x y))
          ((nc_get W H x y).map (fun p => cell_key p.1 p.2))
      else acc2) acc) []

/-- Dirty augmentation used after strategies 3-5: each changed cell and its
neighborhood joins the dirty set. -/
def dirtyAugment (W H : ℕ) (dirty : List ℕ) (cells : List (ℕ × ℕ)) : List ℕ :=
  cells.foldl (fun d c =>
    insertKeys (insertKey d (cell_key c.1 c.2))
      ((nc_get W H c.1 c.2).map (fun p => cell_key p.1 p.2))) dirty

/-- One iteration of the is_solvable strategy loop: strategies run in
priority order and the first progressing one ends the iteration. -/
def solverIteration (W H : ℕ) (grid : ℕ → ℕ → Int) (bomb_count : ℕ)
    (s : SState) (dirty : List ℕ) : Bool × SState × List ℕ :=
  if (apply_basic_rules W H grid s dirty).1 then
    (true, (apply_basic_rules W H grid s dirty).2.1,
      (apply_basic_rules W H grid s dirty).2.2)
  else if (apply_subset_logic W H grid s dirty).1 then
    (true, (apply_subset_logic W H grid s dirty).2.1,
      (apply_subset_logic W H grid s dirty).2.2)
  else if (solve_by_gaussian_elimination W H grid s).1 then
    (true, (solve_by_gaussian_elimination W H grid s).2.1,
      dirtyAugment W H dirty (solve_by_gaussian_elimination W H grid s).2.2)
  else if (solve_by_contradiction W H grid s).1 then
    (true, (solve_by_contradiction W H grid s).2.1,
      match (solve_by_contradiction W H grid s).2.2 with
      | some c => dirtyAugment W H dirty [c]
      | none => dirty)
  else if (tank_solver W H grid s bomb_count).1 then
    (true, (tank_solver W H grid s bomb_count).2.1,
      dirtyAugment W H dirty (tank_solver W H grid s bomb_count).2.2)
  else if (apply_global_mine_count W H grid s bomb_count).1 then
    (true, (apply_global_mine_count W H grid s bomb_count).2, dirty)
  else (false, s, dirty)

/-- The bounded strategy loop; returns the final state and the number of
iterations executed (at most the budget, which the driver sets to 2WH). -/
def solverLoop (W H : ℕ) (grid : ℕ → ℕ → Int) (bomb_count : ℕ) :
    ℕ → SState → List ℕ → SState × ℕ
  | 0, s, _ => (s, 0)
  | fuel + 1, s, dirty =>
    if (solverIteration W H grid bomb_count s dirty).1 then
      ((solverLoop W H grid bomb_count fuel
          (solverIteration W H grid bomb_count s dirty).2.1
          (solverIteration W H grid bomb_count s dirty).2.2).1,
        (solverLoop W H grid bomb_count fuel
          (solverIteration W H grid bomb_count s dirty).2.1
          (solverIteration W H grid bomb_count s dirty).2.2).2 + 1)
    else ((solverIteration W H grid bomb_count s dirty).2.1, 1)

/-- types.rs Mines.count. -/
def minesCount (W H : ℕ) (mines : ℕ → ℕ → Bool) : ℕ :=
  gridCount W H mines

/-- The solver state at return time of is_solvable. -/
def solverFinal (W H : ℕ) (grid : ℕ → ℕ → Int) (mines : ℕ → ℕ → Bool)
    (sx sy : ℕ) : SState :=
  (solverLoop W H grid (minesCount W H mines) (W * H * 2)
    (initialReveal W H grid sx sy)
    (initialDirty W H (initialReveal W H grid sx sy))).1

/-- solver.rs is_solvable: true iff the final revealed count equals the
number of non-mine cells. -/
def is_solvable (W H : ℕ) (grid : ℕ → ℕ → Int) (mines : ℕ → ℕ → Bool)
    (sx sy : ℕ) : Bool :=
  decide (revealedCount W H (solverFinal W H grid mines sx sy).visible =
    W * H - minesCount W H mines)

/-- The state trajectory of the strategy loop: the state and dirty set after
n iterations (iterating past the fixpoint repeats the no-progress state). -/
def iterState (W H : ℕ) (grid : ℕ → ℕ → Int) (bomb_count : ℕ)
    (start : SState × List ℕ) : ℕ → SState × List ℕ
  | 0 => start
  | n + 1 =>
    ((solverIteration W H grid bomb_count
        (iterState W H grid bomb_count start n).1
        (iterState W H grid bomb_count start n).2).2.1,
      (solverIteration W H grid bomb_count
        (iterState W H grid bomb_count start n).1
        (iterState W H grid bomb_count start n).2).2.2)

theorem apply_basic_rules_mono {W H : ℕ} {grid : ℕ → ℕ → Int} {s : SState}
    (dirty : List ℕ) : StepMono s (apply_basic_rules W H grid s dirty).2.1 := by
  have hfold : ∀ acc : SState × List ℕ × List ℕ × Bool, StepMono s acc.1 →
      StepMono s (dirty.foldl (basicKeyStep W H grid) acc).1 := by
    intro acc hacc
    refine foldl_preserve
      (fun acc : SState × List ℕ × List ℕ × Bool => StepMono s acc.1)
      (basicKeyStep W H grid) dirty ?_ acc hacc
    intro a key _ ha
    simp only [basicKeyStep]
    split
    · exact ha
    · split
      · exact ha
      · split
        · exact ha
        · split
          · exact ha
          · split
            · have := foldl_preserve
                (fun sd : SState × List ℕ => StepMono a.1 sd.1)
                (basicFlagCell W H)
                (hidden_neighbors W H a.1 (decode_key key).1 (decode_key key).2)
                (fun sd c _ hsd => by
                  unfold basicFlagCell
                  split
                  · exact hsd
                  · exact stepMono_trans hsd (stFlagRaw_mono sd.1 c.1 c.2))
                (a.1, a.2.1) (stepMono_refl a.1)
              exact stepMono_trans ha this
            · split
              · have := foldl_preserve
                  (fun sd : SState × List ℕ => StepMono a.1 sd.1)
                  (basicRevealCell W H grid)
                  (hidden_neighbors W H a.1 (decode_key key).1 (decode_key key).2)
                  (fun sd c _ hsd =>
                    stepMono_trans hsd (stReveal_mono W H grid sd.1 c.1 c.2))
                  (a.1, a.2.1) (stepMono_refl a.1)
                exact stepMono_trans ha this
              · exact ha
  exact hfold (s, [], [], false) (stepMono_refl s)

/-- Invariant and monotonicity preservation for one whole iteration. -/
theorem solverIteration_pres {W H : ℕ} {grid : ℕ → ℕ → Int} {s : SState}
    (hW : W ≤ 65536) (hH : H ≤ 65536) (hinv : SInv W H grid s)
    (bomb_count : ℕ) (dirty : List ℕ) :
    SInv W H grid (solverIteration W H grid bomb_count s dirty).2.1 ∧
      StepMono s (solverIteration W H grid bomb_count s dirty).2.1 := by
  unfold solverIteration
  split
  · exact apply_basic_rules_pres hinv dirty
  · split
    · exact apply_subset_logic_pres hinv dirty
    · split
      · exact solve_by_gaussian_elimination_pres hinv
      · split
        · exact solve_by_contradiction_pres hinv
        · split
          · exact tank_solver_pres hW hH hinv bomb_count
          · split
            · exact apply_global_mine_count_pres hinv bomb_count
            · exact ⟨hinv, stepMono_refl s⟩

theorem iterState_pres {W H : ℕ} {grid : ℕ → ℕ → Int} {bomb_count : ℕ}
    {start : SState × List ℕ} (hW : W ≤ 65536) (hH : H ≤ 65536)
    (hinv : SInv W H grid start.1) :
    ∀ n, SInv W H grid (iterState W H grid bomb_count start n).1 ∧
      StepMono (iterState W H grid bomb_count start n).1
        (iterState W H grid bomb_count start (n + 1)).1 := by
  intro n
  induction n with
  | zero =>
    refine ⟨hinv, ?_⟩
    exact (solverIteration_pres hW hH hinv bomb_count start.2).2
  | succ n ih =>
    have hnext : SInv W H grid (iterState W H grid bomb_count start (n + 1)).1 := by
      have := solverIteration_pres hW hH ih.1 bomb_count
        (iterState W H grid bomb_count start n).2
      exact this.1
    exact ⟨hnext,
      (solverIteration_pres hW hH hnext bomb_count
        (iterState W H grid bomb_count start (n + 1)).2).2⟩

theorem gridCount_false (W H : ℕ) : gridCount W H (fun _ _ => false) = 0 := by
  simp [gridCount]

theorem initialReveal_inv (W H : ℕ) (grid : ℕ → ℕ → Int) (sx sy : ℕ) :
    SInv W H grid (initialReveal W H grid sx sy) := by
  unfold initialReveal
  refine foldl_preserve (SInv W H grid) _ offsets9 ?_ _ ?_
  · intro a d _ ha
    split
    · exact stReveal_inv ha _ _
    · exact ha
  · refine ⟨?_, ?_, ?_⟩
    · intro x _ y _ hv
      exact absurd rfl hv
    · intro x _ y _ hf
      cases hf
    · show 0 = gridCount W H (fun _ _ => false)
      rw [gridCount_false]

theorem solverLoop_pres {W H : ℕ} {grid : ℕ → ℕ → Int} {bomb_count : ℕ}
    (hW : W ≤ 65536) (hH : H ≤ 65536) :
    ∀ (fuel : ℕ) (s : SState) (dirty : List ℕ), SInv W H grid s →
      SInv W H grid (solverLoop W H grid bomb_count fuel s dirty).1 ∧
        StepMono s (solverLoop W H grid bomb_count fuel s dirty).1 := by
  intro fuel
  induction fuel with
  | zero => intro s dirty hinv; exact ⟨hinv, stepMono_refl s⟩
  | succ fuel ih =>
    intro s dirty hinv
    have hit := solverIteration_pres hW hH hinv bomb_count dirty
    unfold solverLoop
    split
    · have hrec := ih (solverIteration W H grid bomb_count s dirty).2.1
        (solverIteration W H grid bomb_count s dirty).2.2 hit.1
      exact ⟨hrec.1, stepMono_trans hit.2 hrec.2⟩
    · exact hit

theorem solverLoop_iter_le (W H : ℕ) (grid : ℕ → ℕ → Int) (bomb_count : ℕ) :
    ∀ (fuel : ℕ) (s : SState) (dirty : List ℕ),
      (solverLoop W H grid bomb_count fuel s dirty).2 ≤ fuel := by
  intro fuel
  induction fuel with
  | zero => intro s dirty; exact le_refl 0
  | succ fuel ih =>
    intro s dirty
    unfold solverLoop
    split
    · have := ih (solverIteration W H grid bomb_count s dirty).2.1
        (solverIteration W H grid bomb_count s dirty).2.2
      omega
    · omega

theorem stepMono_counts {W H : ℕ} {s s2 : SState} (h : StepMono s s2) :
    revealedCount W H s.visible ≤ revealedCount W H s2.visible ∧
      gridCount W H s.flags ≤ gridCount W H s2.flags := by
  constructor
  · apply gridCount_mono
    intro x _ y _ hv
    simp only [bne_iff_ne, ne_eq] at hv ⊢
    intro h2
    exact hv (by rw [← h.1 x y hv, h2])
  · apply gridCount_mono
    intro x _ y _ hf
    exact h.2 x y hf

-- ── board.rs: mine placement, number calculation, board generation ──
-- The external RNG (rng.rs wraps a library generator) is modelled as an
-- abstract draw stream rng : draw index → exclusive bound → value; the
-- stateful generator is replaced by indexing consecutive draws, two per
-- placement try, with a fresh index block per generation attempt.

/-- Placement loop of place_mines_random (board.rs), with the source's
100000-try cap as the step budget; returns the mines, the number placed and
the number of tries used. -/
def place_mines_go (W H bomb sx sy r : ℕ) (rng : ℕ → ℕ → ℕ) :
    ℕ → ℕ → ℕ → (ℕ → ℕ → Bool) → (ℕ → ℕ → Bool) × ℕ × ℕ
  | 0, placed, _, m => (m, placed, 0)
  | fuel + 1, placed, t, m =>
    if bomb ≤ placed then (m, placed, 0)
    else
      if (if sx ≤ rng t W then rng t W - sx else sx - rng t W) ≤ r ∧
          (if sy ≤ rng (t + 1) H then rng (t + 1) H - sy else sy - rng (t + 1) H) ≤ r then
        ((place_mines_go W H bomb sx sy r rng fuel placed (t + 2) m).1,
          (place_mines_go W H bomb sx sy r rng fuel placed (t + 2) m).2.1,
          (place_mines_go W H bomb sx sy r rng fuel placed (t + 2) m).2.2 + 1)
      else if m (rng t W) (rng (t + 1) H) then
        ((place_mines_go W H bomb sx sy r rng fuel placed (t + 2) m).1,
          (place_mines_go W H bomb sx sy r rng fuel placed (t + 2) m).2.1,
          (place_mines_go W H bomb sx sy r rng fuel placed (t + 2) m).2.2 + 1)
      else
        ((place_mines_go W H bomb sx sy r rng fuel (placed + 1) (t + 2)
            (upd2 m (rng t W) (rng (t + 1) H) true)).1,
          (place_mines_go W H bomb sx sy r rng fuel (placed + 1) (t + 2)
            (upd2 m (rng t W) (rng (t + 1) H) true)).2.1,
          (place_mines_go W H bomb sx sy r rng fuel (placed + 1) (t + 2)
            (upd2 m (rng t W) (rng (t + 1) H) true)).2.2 + 1)

/-- board.rs place_mines_random; off is the index of the first draw used. -/
def place_mines_random (W H bomb sx sy r : ℕ) (rng : ℕ → ℕ → ℕ) (off : ℕ) :
    ℕ → ℕ → Bool :=
  (place_mines_go W H bomb sx sy r rng 100000 0 off (fun _ _ => false)).1

/-- The number of tries of the placement loop (for the 100000-cap claim). -/
def place_mines_tries (W H bomb sx sy r : ℕ) (rng : ℕ → ℕ → ℕ) (off : ℕ) : ℕ :=
  (place_mines_go W H bomb sx sy r rng 100000 0 off (fun _ _ => false)).2.2

/-- board.rs calculate_numbers: count of mined neighbors on non-mine cells,
zero on mine cells (and on the untouched out-of-range default). -/
def calculate_numbers (W H : ℕ) (mines : ℕ → ℕ → Bool) : ℕ → ℕ → Int :=
  fun x y =>
    if x < W ∧ y < H then
      if mines x y then 0
      else (((nc_get W H x y).filter (fun p => mines p.1 p.2)).length : Int)
    else 0

/-- board.rs BoardResult. -/
structure BoardResult where
  mines : ℕ → ℕ → Bool
  grid : ℕ → ℕ → Int
  attempts : ℕ
  success : Bool

/-- Retry loop of generate_solvable_board; a is the number of attempts
already made and the budget counts the attempts still allowed beyond the
unconditional first one. -/
def genAux (W H bomb sx sy r : ℕ) (rng : ℕ → ℕ → ℕ)
    (solv : (ℕ → ℕ → Int) → (ℕ → ℕ → Bool) → ℕ → ℕ → Bool) :
    ℕ → ℕ → BoardResult
  | fuel, a =>
    if solv (calculate_numbers W H (place_mines_random W H bomb sx sy r rng (200000 * a)))
        (place_mines_random W H bomb sx sy r rng (200000 * a)) sx sy then
      ⟨place_mines_random W H bomb sx sy r rng (200000 * a),
        calculate_numbers W H (place_mines_random W H bomb sx sy r rng (200000 * a)),
        a + 1, true⟩
    else
      match fuel with
      | 0 =>
        ⟨place_mines_random W H bomb sx sy r rng (200000 * a),
          calculate_numbers W H (place_mines_random W H bomb sx sy r rng (200000 * a)),
          a + 1, false⟩
      | fuel + 1 => genAux W H bomb sx sy r rng solv fuel (a + 1)

/-- board.rs generate_solvable_board, generic in the injected solver exactly
as in the source (lib.rs injects is_solvable). -/
def generate_solvable_board (W H bomb sx sy r : ℕ) (max_attempts : ℕ)
    (rng : ℕ → ℕ → ℕ)
    (solv : (ℕ → ℕ → Int) → (ℕ → ℕ → Bool) → ℕ → ℕ → Bool) : BoardResult :=
  genAux W H bomb sx sy r rng solv (max_attempts - 1) 0

-- ── solver.rs get_hint ──

/-- Hint record of solver.rs. -/
structure Hint where
  x : ℕ
  y : ℕ
  score : Int
deriving DecidableEq

/-- Phase 1 candidates: hidden, unflagged, non-mine cells with at least one
revealed neighbor, scored by revealed-neighbor count plus a 10 bonus for a
zero grid value, in x-major scan order. -/
def hintFrontier (W H : ℕ) (grid visible : ℕ → ℕ → Int)
    (flags mines : ℕ → ℕ → Bool) : List Hint :=
  (List.range W).flatMap (fun x =>
    (List.range H).filterMap (fun y =>
      if visible x y = -1 ∧ flags x y = false ∧ mines x y = false ∧
          0 < ((nc_get W H x y).filter (fun p => -1 < visible p.1 p.2)).length then
        some ⟨x, y,
          (((nc_get W H x y).filter (fun p => -1 < visible p.1 p.2)).length : Int) +
            (if grid x y = 0 then 10 else 0)⟩
      else none))

/-- Phase 2 candidates: any hidden, unflagged, non-mine cell, scored 10 for
a zero grid value and 0 otherwise. -/
def hintIsland (W H : ℕ) (grid visible : ℕ → ℕ → Int)
    (flags mines : ℕ → ℕ → Bool) : List Hint :=
  (List.range W).flatMap (fun x =>
    (List.range H).filterMap (fun y =>
      if visible x y = -1 ∧ flags x y = false ∧ mines x y = false then
        some ⟨x, y, if grid x y = 0 then 10 else 0⟩
      else none))

/-- Descending stable comparison used by the two sort_by calls. -/
def hintLE (a b : Hint) : Bool :=
  b.score ≤ a.score

/-- solver.rs get_hint: stable sort by descending score, then the first. -/
def get_hint (W H : ℕ) (grid visible : ℕ → ℕ → Int)
    (flags mines : ℕ → ℕ → Bool) : Option Hint :=
  if (hintFrontier W H grid visible flags mines).length ≠ 0 then
    ((hintFrontier W H grid visible flags mines).mergeSort hintLE).head?
  else if (hintIsland W H grid visible flags mines).length ≠ 0 then
    ((hintIsland W H grid visible flags mines).mergeSort hintLE).head?
  else none

-- ── Concrete boards and draw streams used in counterexamples ──

/-- 3x1 board with its single mine at (0,0). -/
def mines3x1 : ℕ → ℕ → Bool := fun x _ => x == 0

/-- 2x1 board with its single mine at (0,0). -/
def mines2x1 : ℕ → ℕ → Bool := fun x _ => x == 0

/-- The constant-zero draw stream. -/
def zeroDraws : ℕ → ℕ → ℕ := fun _ _ => 0

/-- The solvability callback lib.rs injects, at dimensions 1x1. -/
def solv1x1 : (ℕ → ℕ → Int) → (ℕ → ℕ → Bool) → ℕ → ℕ → Bool :=
  fun g m a b => is_solvable 1 1 g m a b

/-- The Chebyshev safe-zone test of place_mines_random (board.rs), in the
source's unsigned-subtraction form. -/
def inSafeZone (sx sy r x y : ℕ) : Prop :=
  (if sx ≤ x then x - sx else sx - x) ≤ r ∧
  (if sy ≤ y then y - sy else sy - y) ≤ r

instance (sx sy r x y : ℕ) : Decidable (inSafeZone sx sy r x y) := by
  unfold inSafeZone; infer_instance

/-- Invariants of the placement loop: the mine count tracks placed, no mine
sits in the safe zone or out of bounds, the count never exceeds the target,
and the tries stay within the budget. -/
theorem place_mines_go_spec (W H bomb sx sy r : ℕ) (rng : ℕ → ℕ → ℕ)
    (hW : 0 < W) (hH : 0 < H) (hrng : ∀ t n, 0 < n → rng t n < n) :
    ∀ (fuel placed t : ℕ) (m : ℕ → ℕ → Bool),
      gridCount W H m = placed → placed ≤ bomb →
      (∀ x y, inSafeZone sx sy r x y → m x y = false) →
      (∀ x y, W ≤ x ∨ H ≤ y → m x y = false) →
      gridCount W H (place_mines_go W H bomb sx sy r rng fuel placed t m).1 =
          (place_mines_go W H bomb sx sy r rng fuel placed t m).2.1 ∧
        (place_mines_go W H bomb sx sy r rng fuel placed t m).2.1 ≤ bomb ∧
        (∀ x y, inSafeZone sx sy r x y →
          (place_mines_go W H bomb sx sy r rng fuel placed t m).1 x y = false) ∧
        (∀ x y, W ≤ x ∨ H ≤ y →
          (place_mines_go W H bomb sx sy r rng fuel placed t m).1 x y = false) ∧
        (place_mines_go W H bomb sx sy r rng fuel placed t m).2.2 ≤ fuel := by
  intro fuel
  induction fuel with
  | zero =>
    intro placed t m hc hpb hsafe hoob
    exact ⟨hc, hpb, hsafe, hoob, le_refl 0⟩
  | succ fuel ih =>
    intro placed t m hc hpb hsafe hoob
    simp only [place_mines_go]
    by_cases hb : bomb ≤ placed
    · rw [if_pos hb]
      exact ⟨hc, hpb, hsafe, hoob, Nat.zero_le _⟩
    · rw [if_neg hb]
      by_cases hzone : (if sx ≤ rng t W then rng t W - sx else sx - rng t W) ≤ r ∧
          (if sy ≤ rng (t + 1) H then rng (t + 1) H - sy else sy - rng (t + 1) H) ≤ r
      · rw [if_pos hzone]
        obtain ⟨h1, h2, h3, h4, h5⟩ := ih placed (t + 2) m hc hpb hsafe hoob
        refine ⟨h1, h2, h3, h4, ?_⟩
        show (place_mines_go W H bomb sx sy r rng fuel placed (t + 2) m).2.2 + 1 ≤
          fuel + 1
        omega
      · rw [if_neg hzone]
        by_cases hnm : m (rng t W) (rng (t + 1) H) = true
        · rw [if_pos hnm]
          obtain ⟨h1, h2, h3, h4, h5⟩ := ih placed (t + 2) m hc hpb hsafe hoob
          refine ⟨h1, h2, h3, h4, ?_⟩
          show (place_mines_go W H bomb sx sy r rng fuel placed (t + 2) m).2.2 + 1 ≤
            fuel + 1
          omega
        · rw [if_neg hnm]
          have hX : rng t W < W := hrng t W hW
          have hY : rng (t + 1) H < H := hrng (t + 1) H hH
          have hnm' : m (rng t W) (rng (t + 1) H) = false := by
            simpa using hnm
          have hc' : gridCount W H
              (upd2 m (rng t W) (rng (t + 1) H) true) = placed + 1 := by
            have := gridCount_upd2 W H m (rng t W) (rng (t + 1) H) hX hY true
            rw [hnm'] at this
            simp at this
            omega
          have hsafe' : ∀ x y, inSafeZone sx sy r x y →
              upd2 m (rng t W) (rng (t + 1) H) true x y = false := by
            intro x y hz
            by_cases hxy : x = rng t W ∧ y = rng (t + 1) H
            · exfalso
              obtain ⟨hx1, hy1⟩ := hxy
              subst hx1; subst hy1
              exact hzone hz
            · rw [upd2_other _ _ _ _ _ _ hxy]
              exact hsafe x y hz
          have hoob' : ∀ x y, W ≤ x ∨ H ≤ y →
              upd2 m (rng t W) (rng (t + 1) H) true x y = false := by
            intro x y hz
            by_cases hxy : x = rng t W ∧ y = rng (t + 1) H
            · exfalso
              obtain ⟨hx1, hy1⟩ := hxy
              subst hx1; subst hy1
              omega
            · rw [upd2_other _ _ _ _ _ _ hxy]
              exact hoob x y hz
          obtain ⟨h1, h2, h3, h4, h5⟩ := ih (placed + 1) (t + 2)
            (upd2 m (rng t W) (rng (t + 1) H) true) hc' (by omega) hsafe' hoob'
          refine ⟨h1, h2, h3, h4, ?_⟩
          show (place_mines_go W H bomb sx sy r rng fuel (placed + 1) (t + 2)
            (upd2 m (rng t W) (rng (t + 1) H) true)).2.2 + 1 ≤ fuel + 1
          omega

/-- On a 1x1 board with safe radius 0 around (0,0) and the constant-zero
draw stream, every placement try is rejected by the safe zone, so the loop
exhausts its whole budget and places nothing. -/
theorem place_mines_go_stuck :
    ∀ (fuel t : ℕ) (m : ℕ → ℕ → Bool),
      place_mines_go 1 1 1 0 0 0 zeroDraws fuel 0 t m = (m, 0, fuel) := by
  intro fuel
  induction fuel with
  | zero => intro t m; rfl
  | succ fuel ih =>
    intro t m
    show place_mines_go 1 1 1 0 0 0 zeroDraws (fuel + 1) 0 t m = (m, 0, fuel + 1)
    simp only [place_mines_go]
    rw [if_neg (by omega), if_pos (by simp [zeroDraws])]
    rw [ih (t + 2)]

/-- Retry-loop specification of generate_solvable_board: the attempt count
grows from the entry count by at most the budget plus the unconditional
first try, success certifies the injected solver, and the returned board is
always the last attempted placement with its computed numbers. -/
theorem genAux_spec (W H bomb sx sy r : ℕ) (rng : ℕ → ℕ → ℕ)
    (solv : (ℕ → ℕ → Int) → (ℕ → ℕ → Bool) → ℕ → ℕ → Bool) :
    ∀ (fuel a : ℕ),
      a + 1 ≤ (genAux W H bomb sx sy r rng solv fuel a).attempts ∧
      (genAux W H bomb sx sy r rng solv fuel a).attempts ≤ a + fuel + 1 ∧
      ((genAux W H bomb sx sy r rng solv fuel a).success = true →
        solv (genAux W H bomb sx sy r rng solv fuel a).grid
          (genAux W H bomb sx sy r rng solv fuel a).mines sx sy = true) ∧
      (genAux W H bomb sx sy r rng solv fuel a).mines =
        place_mines_random W H bomb sx sy r rng
          (200000 * ((genAux W H bomb sx sy r rng solv fuel a).attempts - 1)) ∧
      (genAux W H bomb sx sy r rng solv fuel a).grid =
        calculate_numbers W H (genAux W H bomb sx sy r rng solv fuel a).mines := by
  intro fuel
  induction fuel with
  | zero =>
    intro a
    rw [genAux]
    split
    · rename_i hs
      exact ⟨le_refl _, le_refl _, fun _ => hs, rfl, rfl⟩
    · exact ⟨le_refl _, le_refl _, fun h => absurd h (by simp), rfl, rfl⟩
  | succ fuel ih =>
    intro a
    rw [genAux]
    split
    · rename_i hs
      refine ⟨le_refl _, ?_, fun _ => hs, rfl, rfl⟩
      show a + 1 ≤ a + (fuel + 1) + 1
      omega
    · show a + 1 ≤ (genAux W H bomb sx sy r rng solv fuel (a + 1)).attempts ∧
        (genAux W H bomb sx sy r rng solv fuel (a + 1)).attempts ≤
          a + (fuel + 1) + 1 ∧
        ((genAux W H bomb sx sy r rng solv fuel (a + 1)).success = true →
          solv (genAux W H bomb sx sy r rng solv fuel (a + 1)).grid
            (genAux W H bomb sx sy r rng solv fuel (a + 1)).mines sx sy = true) ∧
        (genAux W H bomb sx sy r rng solv fuel (a + 1)).mines =
          place_mines_random W H bomb sx sy r rng
            (200000 * ((genAux W H bomb sx sy r rng solv fuel (a + 1)).attempts - 1)) ∧
        (genAux W H bomb sx sy r rng solv fuel (a + 1)).grid =
          calculate_numbers W H (genAux W H bomb sx sy r rng solv fuel (a + 1)).mines
      obtain ⟨i1, i2, i3, i4, i5⟩ := ih (a + 1)
      exact ⟨by omega, by omega, i3, i4, i5⟩

-- ── Characterization of the tank configuration enumeration ──

theorem foldl_pair_append {γ : Type} (f : ℕ → γ) (p q : ℕ → Bool) :
    ∀ (l : List ℕ) (A B : List γ),
      l.foldl (fun acc i =>
        (if p i then acc.1 ++ [f i] else acc.1,
         if q i then acc.2 ++ [f i] else acc.2)) (A, B) =
      (A ++ (l.filter p).map f, B ++ (l.filter q).map f) := by
  intro l
  induction l with
  | nil => intro A B; simp
  | cons h t ih =>
    intro A B
    simp only [List.foldl_cons, List.filter_cons]
    by_cases hp : p h <;> by_cases hq : q h <;>
      simp [hp, hq, ih, List.append_assoc]

/-- analyze_configurations lists exactly the region cells whose bit is set in
every valid mask (mines) and those whose bit is clear in every valid mask
(safes), in index order. -/
theorem analyze_configurations_eq (region : List (ℕ × ℕ)) (valid_masks : List ℕ) :
    analyze_configurations region valid_masks =
      (((List.range region.length).filter
          (fun i => valid_masks.all (fun m => (m >>> i) % 2 = 1))).map
          (fun i => region.getD i (0, 0)),
       ((List.range region.length).filter
          (fun i => valid_masks.all (fun m => (m >>> i) % 2 = 0))).map
          (fun i => region.getD i (0, 0))) := by
  unfold analyze_configurations
  have h := foldl_pair_append (fun i => region.getD i (0, 0))
    (fun i => valid_masks.all (fun m => (m >>> i) % 2 = 1))
    (fun i => valid_masks.all (fun m => (m >>> i) % 2 = 0))
    (List.range region.length) [] []
  exact h

/-- Membership in enumerate_configurations, for regions within the size cap:
exactly the masks below 2^|region| whose popcount fits the budget and whose
per-constraint outside requirement is between zero and the outside count. -/
theorem enumerate_configurations_mem (region : List (ℕ × ℕ))
    (constraints : List RegionConstraint) (max_mines : ℕ)
    (hlen : region.length ≤ MAX_REGION_SIZE) (mask : ℕ) :
    mask ∈ enumerate_configurations region constraints max_mines ↔
      (mask < 2 ^ region.length ∧ countOnes mask ≤ max_mines ∧
        ∀ c ∈ constraints,
          0 ≤ c.remaining - ((c.cells_in_region_indices.filter
              (fun idx => (mask >>> idx) % 2 = 1)).length : Int) ∧
          c.remaining - ((c.cells_in_region_indices.filter
              (fun idx => (mask >>> idx) % 2 = 1)).length : Int) ≤
            (c.cells_outside_count : Int)) := by
  unfold enumerate_configurations
  have hguard : ¬ MAX_CONFIGURATIONS < 2 ^ region.length := by
    have h2 : (2 : ℕ) ^ region.length ≤ 2 ^ MAX_REGION_SIZE :=
      Nat.pow_le_pow_right (by omega) hlen
    unfold MAX_CONFIGURATIONS
    omega
  rw [if_neg hguard]
  simp only [List.mem_filter, List.mem_range, Bool.and_eq_true, decide_eq_true_eq,
    List.all_eq_true]

-- ── Characterization of get_hint ──

/-- Spec-side scan for the maximum score: keeps the earlier element on ties,
so over a list built in scan order it realizes "max score, ties broken by
scan order". -/
def pickGo (best : Hint) : List Hint → Hint
  | [] => best
  | h :: t => pickGo (if best.score < h.score then h else best) t

/-- Spec-side selection from a candidate list: its first maximum-scoring
element, none when the list is empty. -/
def hint_spec_pick : List Hint → Option Hint
  | [] => none
  | h :: t => some (pickGo h t)

theorem hintLE_trans : ∀ a b c : Hint, hintLE a b = true → hintLE b c = true →
    hintLE a c = true := by
  intro a b c hab hbc
  simp only [hintLE, decide_eq_true_eq] at hab hbc ⊢
  omega

theorem hintLE_total : ∀ a b : Hint, (hintLE a b || hintLE b a) = true := by
  intro a b
  simp only [hintLE, Bool.or_eq_true, decide_eq_true_eq]
  omega

theorem pickGo_le : ∀ (t : List Hint) (b : Hint),
    b.score ≤ (pickGo b t).score ∧ ∀ g ∈ t, g.score ≤ (pickGo b t).score := by
  intro t
  induction t with
  | nil =>
    intro b
    exact ⟨le_refl _, by intro g hg; cases hg⟩
  | cons h t ih =>
    intro b
    simp only [pickGo]
    by_cases hb : b.score < h.score
    · rw [if_pos hb]
      obtain ⟨h1, h2⟩ := ih h
      refine ⟨le_of_lt (lt_of_lt_of_le hb h1), ?_⟩
      intro g hg
      rcases List.mem_cons.mp hg with hgh | hg2
      · rw [hgh]; exact h1
      · exact h2 g hg2
    · rw [if_neg hb]
      obtain ⟨h1, h2⟩ := ih b
      refine ⟨h1, ?_⟩
      intro g hg
      rcases List.mem_cons.mp hg with hgh | hg2
      · rw [hgh]; omega
      · exact h2 g hg2

theorem pickGo_first : ∀ (t : List Hint) (b : Hint),
    ∃ pre post, b :: t = pre ++ pickGo b t :: post ∧
      ∀ g ∈ pre, g.score < (pickGo b t).score := by
  intro t
  induction t with
  | nil =>
    intro b
    refine ⟨[], [], rfl, ?_⟩
    intro g hg; cases hg
  | cons h t ih =>
    intro b
    simp only [pickGo]
    by_cases hb : b.score < h.score
    · rw [if_pos hb]
      obtain ⟨pre, post, heq, hpre⟩ := ih h
      refine ⟨b :: pre, post, ?_, ?_⟩
      · rw [List.cons_append, ← heq]
      · intro g hg
        rcases List.mem_cons.mp hg with hgb | hg2
        · rw [hgb]
          exact lt_of_lt_of_le hb (pickGo_le t h).1
        · exact hpre g hg2
    · rw [if_neg hb]
      obtain ⟨pre, post, heq, hpre⟩ := ih b
      cases pre with
      | nil =>
        simp only [List.nil_append] at heq
        injection heq with he1 he2
        refine ⟨[], h :: post, ?_, ?_⟩
        · rw [List.nil_append, ← he1, he2]
        · intro g hg; cases hg
      | cons p pre2 =>
        simp only [List.cons_append] at heq
        injection heq with he1 he2
        refine ⟨b :: h :: pre2, post, ?_, ?_⟩
        · rw [List.cons_append, List.cons_append, ← he2]
        · intro g hg
          have hbscore : b.score < (pickGo b t).score := by
            have hp := hpre p (List.mem_cons_self p pre2)
            rw [← he1] at hp
            exact hp
          rcases List.mem_cons.mp hg with hgb | hg2
          · rw [hgb]; exact hbscore
          · rcases List.mem_cons.mp hg2 with hgh | hg3
            · rw [hgh]; omega
            · exact hpre g (List.mem_cons_of_mem p hg3)

theorem hint_spec_pick_mem {l : List Hint} {m : Hint}
    (h : hint_spec_pick l = some m) : m ∈ l := by
  cases l with
  | nil => exact Option.noConfusion h
  | cons b t =>
    simp only [hint_spec_pick] at h
    have hm := Option.some.inj h
    obtain ⟨pre, post, heq, _⟩ := pickGo_first t b
    rw [← hm, heq]
    exact List.mem_append_right pre (List.mem_cons_self _ _)

theorem hint_spec_pick_max {l : List Hint} {m : Hint}
    (h : hint_spec_pick l = some m) : ∀ g ∈ l, g.score ≤ m.score := by
  cases l with
  | nil => exact Option.noConfusion h
  | cons b t =>
    simp only [hint_spec_pick] at h
    have hm := Option.some.inj h
    intro g hg
    rw [← hm]
    rcases List.mem_cons.mp hg with hgb | hg2
    · rw [hgb]; exact (pickGo_le t b).1
    · exact (pickGo_le t b).2 g hg2

/-- The head of the stable descending sort is the first maximum-scoring
element of a duplicate-free list: exactly the spec-side selection. -/
theorem mergeSort_head_pick : ∀ (l : List Hint), l.Nodup →
    (l.mergeSort hintLE).head? = hint_spec_pick l := by
  intro l hnd
  cases l with
  | nil => rw [List.mergeSort_nil]; rfl
  | cons b t =>
    obtain ⟨hd, tl, hms⟩ : ∃ hd tl, (b :: t).mergeSort hintLE = hd :: tl := by
      cases hmse : (b :: t).mergeSort hintLE with
      | nil =>
        have hlen := @List.length_mergeSort _ hintLE (b :: t)
        rw [hmse] at hlen
        simp at hlen
      | cons hd tl => exact ⟨hd, tl, rfl⟩
    have hperm := List.mergeSort_perm (b :: t) hintLE
    have hsort := @List.sorted_mergeSort _ hintLE hintLE_trans hintLE_total (b :: t)
    rw [hms] at hsort
    have hmem_hd : hd ∈ b :: t :=
      hperm.mem_iff.mp (by rw [hms]; exact List.mem_cons_self hd tl)
    have hmax_hd : ∀ g ∈ b :: t, g.score ≤ hd.score := by
      intro g hg
      have hg2 : g ∈ hd :: tl := by
        rw [← hms]
        exact hperm.mem_iff.mpr hg
      rcases List.mem_cons.mp hg2 with hge | hg3
      · rw [hge]
      · have hp := (List.pairwise_cons.mp hsort).1 g hg3
        simp only [hintLE, decide_eq_true_eq] at hp
        exact hp
    obtain ⟨pre, post, heqd, hpre⟩ := pickGo_first t b
    have hmax_m : ∀ g ∈ b :: t, g.score ≤ (pickGo b t).score := by
      intro g hg
      rcases List.mem_cons.mp hg with hgb | hg2
      · rw [hgb]; exact (pickGo_le t b).1
      · exact (pickGo_le t b).2 g hg2
    have hmem_m : pickGo b t ∈ b :: t := by
      rw [heqd]
      exact List.mem_append_right pre (List.mem_cons_self _ _)
    have hscore : hd.score = (pickGo b t).score :=
      le_antisymm (hmax_m hd hmem_hd) (hmax_hd (pickGo b t) hmem_m)
    have hhd : hd = pickGo b t := by
      by_contra hne
      have hd_in_post : hd ∈ post := by
        have hmem2 : hd ∈ pre ++ pickGo b t :: post := by
          rw [← heqd]; exact hmem_hd
        rcases List.mem_append.mp hmem2 with hp | hq
        · have := hpre hd hp
          omega
        · rcases List.mem_cons.mp hq with he | he
          · exact absurd he hne
          · exact he
      have hsub : [pickGo b t, hd].Sublist (b :: t) := by
        rw [heqd]
        exact List.Sublist.trans
          (List.cons_sublist_cons.mpr (List.singleton_sublist.mpr hd_in_post))
          (List.sublist_append_right pre _)
      have hpair : List.Pairwise (fun a b => hintLE a b = true) [pickGo b t, hd] := by
        refine List.pairwise_cons.mpr ⟨?_, List.pairwise_singleton _ _⟩
        intro g hg
        rcases List.mem_cons.mp hg with hge | hge
        · rw [hge]
          simp only [hintLE, decide_eq_true_eq]
          omega
        · cases hge
      have hsub2 : [pickGo b t, hd].Sublist (hd :: tl) := by
        rw [← hms]
        exact List.sublist_mergeSort hintLE_trans hintLE_total hpair hsub
      have hnd2 : (hd :: tl).Nodup := by
        rw [← hms]
        exact (hperm.nodup_iff).mpr hnd
      cases hsub2 with
      | cons _ h2 =>
        have : hd ∈ tl := h2.subset (by simp)
        exact (List.nodup_cons.mp hnd2).1 this
      | cons₂ _ h2 =>
        exact hne rfl
    rw [hms]
    show some hd = hint_spec_pick (b :: t)
    rw [hhd]
    rfl

/-- Scan-built hint lists contain no duplicate records: the record stores
its own coordinates, which range over distinct cells. -/
theorem scanHints_nodup (W H : ℕ) (cond : ℕ → ℕ → Prop)
    [inst : ∀ x y, Decidable (cond x y)] (score : ℕ → ℕ → Int) :
    ((List.range W).flatMap (fun x =>
      (List.range H).filterMap (fun y =>
        if cond x y then some (⟨x, y, score x y⟩ : Hint) else none))).Nodup := by
  rw [List.nodup_flatMap]
  constructor
  · intro x _
    apply List.Nodup.filterMap ?_ (List.nodup_range H)
    intro a a' b hb hb'
    have ha : b.y = a := by
      by_cases hc : cond x a
      · rw [if_pos hc, Option.mem_some_iff] at hb
        rw [← hb]
      · rw [if_neg hc] at hb
        simp at hb
    have ha' : b.y = a' := by
      by_cases hc : cond x a'
      · rw [if_pos hc, Option.mem_some_iff] at hb'
        rw [← hb']
      · rw [if_neg hc] at hb'
        simp at hb'
    rw [← ha, ← ha']
  · have hfst : ∀ x (b : Hint), b ∈ (List.range H).filterMap (fun y =>
        if cond x y then some (⟨x, y, score x y⟩ : Hint) else none) → b.x = x := by
      intro x b hb
      simp only [List.mem_filterMap] at hb
      obtain ⟨y, _, hy⟩ := hb
      by_cases hc : cond x y
      · rw [if_pos hc] at hy
        rw [← Option.some.inj hy]
      · rw [if_neg hc] at hy
        exact Option.noConfusion hy
    have hnd : (List.range W).Pairwise (· ≠ ·) := List.nodup_range W
    refine hnd.imp ?_
    intro a b hab c hca hcb
    exact hab ((hfst a c hca).symm.trans (hfst b c hcb))

theorem hintFrontier_nodup (W H : ℕ) (grid visible : ℕ → ℕ → Int)
    (flags mines : ℕ → ℕ → Bool) :
    (hintFrontier W H grid visible flags mines).Nodup :=
  scanHints_nodup W H
    (fun x y => visible x y = -1 ∧ flags x y = false ∧ mines x y = false ∧
      0 < ((nc_get W H x y).filter (fun p => -1 < visible p.1 p.2)).length)
    (fun x y => (((nc_get W H x y).filter
        (fun p => -1 < visible p.1 p.2)).length : Int) +
      (if grid x y = 0 then 10 else 0))

theorem hintIsland_nodup (W H : ℕ) (grid visible : ℕ → ℕ → Int)
    (flags mines : ℕ → ℕ → Bool) :
    (hintIsland W H grid visible flags mines).Nodup :=
  scanHints_nodup W H
    (fun x y => visible x y = -1 ∧ flags x y = false ∧ mines x y = false)
    (fun x y => if grid x y = 0 then 10 else 0)

theorem mem_hintFrontier {W H : ℕ} {grid visible : ℕ → ℕ → Int}
    {flags mines : ℕ → ℕ → Bool} {h : Hint} :
    h ∈ hintFrontier W H grid visible flags mines ↔
      (h.x < W ∧ h.y < H ∧ visible h.x h.y = -1 ∧ flags h.x h.y = false ∧
        mines h.x h.y = false ∧
        0 < ((nc_get W H h.x h.y).filter (fun p => -1 < visible p.1 p.2)).length ∧
        h.score = (((nc_get W H h.x h.y).filter
            (fun p => -1 < visible p.1 p.2)).length : Int) +
          (if grid h.x h.y = 0 then 10 else 0)) := by
  unfold hintFrontier
  simp only [List.mem_flatMap, List.mem_filterMap, List.mem_range]
  constructor
  · rintro ⟨x, hx, y, hy, hsome⟩
    by_cases hc : visible x y = -1 ∧ flags x y = false ∧ mines x y = false ∧
        0 < ((nc_get W H x y).filter (fun p => -1 < visible p.1 p.2)).length
    · rw [if_pos hc] at hsome
      injection hsome with hinj
      subst hinj
      exact ⟨hx, hy, hc.1, hc.2.1, hc.2.2.1, hc.2.2.2, rfl⟩
    · rw [if_neg hc] at hsome
      exact Option.noConfusion hsome
  · rintro ⟨h1, h2, h3, h4, h5, h6, h7⟩
    refine ⟨h.x, h1, h.y, h2, ?_⟩
    rw [if_pos ⟨h3, h4, h5, h6⟩, ← h7]

theorem mem_hintIsland {W H : ℕ} {grid visible : ℕ → ℕ → Int}
    {flags mines : ℕ → ℕ → Bool} {h : Hint} :
    h ∈ hintIsland W H grid visible flags mines ↔
      (h.x < W ∧ h.y < H ∧ visible h.x h.y = -1 ∧ flags h.x h.y = false ∧
        mines h.x h.y = false ∧
        h.score = (if grid h.x h.y = 0 then 10 else 0)) := by
  unfold hintIsland
  simp only [List.mem_flatMap, List.mem_filterMap, List.mem_range]
  constructor
  · rintro ⟨x, hx, y, hy, hsome⟩
    by_cases hc : visible x y = -1 ∧ flags x y = false ∧ mines x y = false
    · rw [if_pos hc] at hsome
      injection hsome with hinj
      subst hinj
      exact ⟨hx, hy, hc.1, hc.2.1, hc.2.2, rfl⟩
    · rw [if_neg hc] at hsome
      exact Option.noConfusion hsome
  · rintro ⟨h1, h2, h3, h4, h5, h6⟩
    refine ⟨h.x, h1, h.y, h2, ?_⟩
    rw [if_pos ⟨h3, h4, h5⟩, ← h6]

theorem hintIsland_eq_nil_iff {W H : ℕ} {grid visible : ℕ → ℕ → Int}
    {flags mines : ℕ → ℕ → Bool} :
    hintIsland W H grid visible flags mines = [] ↔
      ∀ x < W, ∀ y < H,
        ¬(visible x y = -1 ∧ flags x y = false ∧ mines x y = false) := by
  rw [List.eq_nil_iff_forall_not_mem]
  constructor
  · intro hno x hx y hy hcond
    exact hno ⟨x, y, if grid x y = 0 then 10 else 0⟩
      (mem_hintIsland.mpr ⟨hx, hy, hcond.1, hcond.2.1, hcond.2.2, rfl⟩)
  · intro hall a ha
    obtain ⟨h1, h2, h3, h4, h5, _⟩ := mem_hintIsland.mp ha
    exact hall a.x h1 a.y h2 ⟨h3, h4, h5⟩

theorem hintIsland_ne_nil_of_frontier {W H : ℕ} {grid visible : ℕ → ℕ → Int}
    {flags mines : ℕ → ℕ → Bool}
    (h : hintFrontier W H grid visible flags mines ≠ []) :
    hintIsland W H grid visible flags mines ≠ [] := by
  obtain ⟨a, ha⟩ := List.exists_mem_of_ne_nil _ h
  obtain ⟨h1, h2, h3, h4, h5, _, _⟩ := mem_hintFrontier.mp ha
  intro hnil
  rw [List.eq_nil_iff_forall_not_mem] at hnil
  exact hnil ⟨a.x, a.y, if grid a.x a.y = 0 then 10 else 0⟩
    (mem_hintIsland.mpr ⟨h1, h2, h3, h4, h5, rfl⟩)

/-- get_hint refines the spec-side first-maximum selection over its two
candidate phases. -/
theorem get_hint_eq (W H : ℕ) (grid visible : ℕ → ℕ → Int)
    (flags mines : ℕ → ℕ → Bool) :
    get_hint W H grid visible flags mines =
      (if hintFrontier W H grid visible flags mines ≠ [] then
        hint_spec_pick (hintFrontier W H grid visible flags mines)
      else if hintIsland W H grid visible flags mines ≠ [] then
        hint_spec_pick (hintIsland W H grid visible flags mines)
      else none) := by
  unfold get_hint
  by_cases h1 : (hintFrontier W H grid visible flags mines).length ≠ 0
  · have h1' : hintFrontier W H grid visible flags mines ≠ [] := by
      intro he
      rw [he] at h1
      exact h1 rfl
    rw [if_pos h1, if_pos h1',
      mergeSort_head_pick _ (hintFrontier_nodup W H grid visible flags mines)]
  · have h1' : hintFrontier W H grid visible flags mines = [] := by
      rcases List.eq_nil_or_concat (hintFrontier W H grid visible flags mines)
        with he | ⟨l2, a, he⟩
      · exact he
      · exfalso
        apply h1
        rw [he]
        simp
    have hfr : ¬ (hintFrontier W H grid visible flags mines ≠ []) := by
      rw [h1']
      exact fun hc => hc rfl
    rw [if_neg h1, if_neg hfr]
    by_cases h2 : (hintIsland W H grid visible flags mines).length ≠ 0
    · have h2' : hintIsland W H grid visible flags mines ≠ [] := by
        intro he
        rw [he] at h2
        exact h2 rfl
      rw [if_pos h2, if_pos h2',
        mergeSort_head_pick _ (hintIsland_nodup W H grid visible flags mines)]
    · have h2' : hintIsland W H grid visible flags mines = [] := by
        rcases List.eq_nil_or_concat (hintIsland W H grid visible flags mines)
          with he | ⟨l2, a, he⟩
        · exact he
        · exfalso
          apply h2
          rw [he]
          simp
      have hisl : ¬ (hintIsland W H grid visible flags mines ≠ []) := by
        rw [h2']
        exact fun hc => hc rfl
      rw [if_neg h2, if_neg hisl]

-- ── Access bounds: reads of the input grids are confined to the board ──
-- The number grid enters the solver state only through the reveal cascade,
-- whose pop is guarded by the source bounds check, so two number grids that
-- agree on the board are indistinguishable to every strategy; likewise the
-- mine grid is only read by the in-range Mines.count scan, and get_hint
-- reads its four grids at range-scan cells and cached neighbors only.

/-- The reveal loop never reads the number grid out of bounds: two grids
agreeing on the board compute the same cascade from any stack. -/
theorem simulate_reveal_go_congr {W H : ℕ} {grid grid2 : ℕ → ℕ → Int}
    (hg : ∀ x < W, ∀ y < H, grid x y = grid2 x y) (flags : ℕ → ℕ → Bool) :
    ∀ (fuel : ℕ) (stack : List (ℕ × ℕ)) (v : ℕ → ℕ → Int),
      simulate_reveal_go W H grid flags fuel stack v =
        simulate_reveal_go W H grid2 flags fuel stack v := by
  intro fuel
  induction fuel with
  | zero => intro stack v; rfl
  | succ fuel ih =>
    intro stack v
    match stack with
    | [] => rfl
    | (cx, cy) :: rest =>
      rw [simulate_reveal_go_cons, simulate_reveal_go_cons]
      by_cases h1 : W ≤ cx ∨ H ≤ cy
      · rw [if_pos h1, if_pos h1]
        exact ih rest v
      · rw [if_neg h1, if_neg h1]
        by_cases h2 : v cx cy ≠ -1 ∨ flags cx cy = true
        · rw [if_pos h2, if_pos h2]
          exact ih rest v
        · rw [if_neg h2, if_neg h2]
          push_neg at h1
          rw [hg cx h1.1 cy h1.2]
          by_cases hz : grid2 cx cy = 0
          · rw [if_pos hz, if_pos hz]
            exact ih _ _
          · rw [if_neg hz, if_neg hz]
            exact ih _ _

theorem stReveal_congr {W H : ℕ} {grid grid2 : ℕ → ℕ → Int}
    (hg : ∀ x < W, ∀ y < H, grid x y = grid2 x y) :
    stReveal W H grid = stReveal W H grid2 := by
  funext s x y
  unfold stReveal simulate_reveal
  rw [simulate_reveal_go_congr hg s.flags]

theorem basicRevealCell_congr {W H : ℕ} {grid grid2 : ℕ → ℕ → Int}
    (hg : ∀ x < W, ∀ y < H, grid x y = grid2 x y) :
    basicRevealCell W H grid = basicRevealCell W H grid2 := by
  funext sd c
  unfold basicRevealCell
  rw [stReveal_congr hg]

theorem apply_basic_rules_congr {W H : ℕ} {grid grid2 : ℕ → ℕ → Int}
    (hg : ∀ x < W, ∀ y < H, grid x y = grid2 x y) :
    apply_basic_rules W H grid = apply_basic_rules W H grid2 := by
  have hk : basicKeyStep W H grid = basicKeyStep W H grid2 := by
    funext acc key
    simp only [basicKeyStep]
    rw [basicRevealCell_congr hg]
  funext s dirty
  simp only [apply_basic_rules]
  rw [hk]

theorem subsetTryPair_congr {W H : ℕ} {grid grid2 : ℕ → ℕ → Int}
    (hg : ∀ x < W, ∀ y < H, grid x y = grid2 x y) :
    subsetTryPair W H grid = subsetTryPair W H grid2 := by
  funext s cd da d
  unfold subsetTryPair
  rw [basicRevealCell_congr hg]

theorem subsetScanOffsets_congr {W H : ℕ} {grid grid2 : ℕ → ℕ → Int}
    (hg : ∀ x < W, ∀ y < H, grid x y = grid2 x y) :
    ∀ (s : SState) (cd : List (ℕ × CellData)) (da : CellData)
      (l : List (Int × Int)),
      subsetScanOffsets W H grid s cd da l =
        subsetScanOffsets W H grid2 s cd da l := by
  intro s cd da l
  induction l with
  | nil => rfl
  | cons d rest ih =>
    simp only [subsetScanOffsets]
    rw [subsetTryPair_congr hg, ih]

theorem subsetScan_congr {W H : ℕ} {grid grid2 : ℕ → ℕ → Int}
    (hg : ∀ x < W, ∀ y < H, grid x y = grid2 x y) :
    ∀ (s : SState) (cd l : List (ℕ × CellData)),
      subsetScan W H grid s cd l = subsetScan W H grid2 s cd l := by
  intro s cd l
  induction l with
  | nil => rfl
  | cons e rest ih =>
    obtain ⟨k, da⟩ := e
    simp only [subsetScan]
    rw [subsetScanOffsets_congr hg, ih]

theorem apply_subset_logic_congr {W H : ℕ} {grid grid2 : ℕ → ℕ → Int}
    (hg : ∀ x < W, ∀ y < H, grid x y = grid2 x y) :
    apply_subset_logic W H grid = apply_subset_logic W H grid2 := by
  funext s dirty
  simp only [apply_subset_logic]
  rw [subsetScan_congr hg]

theorem gaussApplySafes_congr {W H : ℕ} {grid grid2 : ℕ → ℕ → Int}
    (hg : ∀ x < W, ∀ y < H, grid x y = grid2 x y) :
    gaussApplySafes W H grid = gaussApplySafes W H grid2 := by
  funext start safes
  unfold gaussApplySafes
  rw [stReveal_congr hg]

theorem solve_by_gaussian_elimination_congr {W H : ℕ} {grid grid2 : ℕ → ℕ → Int}
    (hg : ∀ x < W, ∀ y < H, grid x y = grid2 x y) :
    solve_by_gaussian_elimination W H grid =
      solve_by_gaussian_elimination W H grid2 := by
  funext s
  unfold solve_by_gaussian_elimination
  rw [gaussApplySafes_congr hg]

theorem contraScan_congr {W H : ℕ} {grid grid2 : ℕ → ℕ → Int}
    (hg : ∀ x < W, ∀ y < H, grid x y = grid2 x y) :
    ∀ (s : SState) (l : List (ℕ × ℕ)),
      contraScan W H grid s l = contraScan W H grid2 s l := by
  intro s l
  induction l with
  | nil => rfl
  | cons c rest ih =>
    simp only [contraScan]
    rw [stReveal_congr hg, ih]

theorem solve_by_contradiction_congr {W H : ℕ} {grid grid2 : ℕ → ℕ → Int}
    (hg : ∀ x < W, ∀ y < H, grid x y = grid2 x y) :
    solve_by_contradiction W H grid = solve_by_contradiction W H grid2 := by
  funext s
  unfold solve_by_contradiction
  rw [contraScan_congr hg]

theorem tankApplyRegion_congr {W H : ℕ} {grid grid2 : ℕ → ℕ → Int}
    (hg : ∀ x < W, ∀ y < H, grid x y = grid2 x y) :
    tankApplyRegion W H grid = tankApplyRegion W H grid2 := by
  funext s dm ds
  unfold tankApplyRegion
  rw [stReveal_congr hg]

theorem tankRegionLoop_congr {W H : ℕ} {grid grid2 : ℕ → ℕ → Int}
    (hg : ∀ x < W, ∀ y < H, grid x y = grid2 x y) :
    ∀ (bomb_count : ℕ) (s : SState) (l : List (List (ℕ × ℕ))),
      tankRegionLoop W H grid bomb_count s l =
        tankRegionLoop W H grid2 bomb_count s l := by
  intro bomb_count s l
  induction l with
  | nil => rfl
  | cons region rest ih =>
    simp only [tankRegionLoop]
    rw [tankApplyRegion_congr hg, ih]

theorem tank_solver_congr {W H : ℕ} {grid grid2 : ℕ → ℕ → Int}
    (hg : ∀ x < W, ∀ y < H, grid x y = grid2 x y) :
    tank_solver W H grid = tank_solver W H grid2 := by
  funext s bomb_count
  unfold tank_solver
  rw [tankRegionLoop_congr hg]

theorem apply_global_mine_count_congr {W H : ℕ} {grid grid2 : ℕ → ℕ → Int}
    (hg : ∀ x < W, ∀ y < H, grid x y = grid2 x y) :
    apply_global_mine_count W H grid = apply_global_mine_count W H grid2 := by
  funext s bomb_count
  unfold apply_global_mine_count
  rw [stReveal_congr hg]

theorem solverIteration_congr {W H : ℕ} {grid grid2 : ℕ → ℕ → Int}
    (hg : ∀ x < W, ∀ y < H, grid x y = grid2 x y) :
    solverIteration W H grid = solverIteration W H grid2 := by
  funext bomb_count s dirty
  unfold solverIteration
  rw [apply_basic_rules_congr hg, apply_subset_logic_congr hg,
    solve_by_gaussian_elimination_congr hg, solve_by_contradiction_congr hg,
    tank_solver_congr hg, apply_global_mine_count_congr hg]

theorem solverLoop_congr {W H : ℕ} {grid grid2 : ℕ → ℕ → Int}
    (hg : ∀ x < W, ∀ y < H, grid x y = grid2 x y) :
    ∀ (bomb_count fuel : ℕ) (s : SState) (dirty : List ℕ),
      solverLoop W H grid bomb_count fuel s dirty =
        solverLoop W H grid2 bomb_count fuel s dirty := by
  intro bomb_count fuel
  induction fuel with
  | zero => intro s dirty; rfl
  | succ fuel ih =>
    intro s dirty
    simp only [solverLoop]
    rw [solverIteration_congr hg, ih]

theorem initialReveal_congr {W H : ℕ} {grid grid2 : ℕ → ℕ → Int}
    (hg : ∀ x < W, ∀ y < H, grid x y = grid2 x y) :
    initialReveal W H grid = initialReveal W H grid2 := by
  funext sx sy
  unfold initialReveal
  rw [stReveal_congr hg]

/-- is_solvable reads the number grid and the mine grid only at in-bounds
cells: its output is unchanged by altering either outside the board. -/
theorem is_solvable_congr {W H : ℕ} {grid grid2 : ℕ → ℕ → Int}
    {mines mines2 : ℕ → ℕ → Bool} (sx sy : ℕ)
    (hg : ∀ x < W, ∀ y < H, grid x y = grid2 x y)
    (hm : ∀ x < W, ∀ y < H, mines x y = mines2 x y) :
    is_solvable W H grid mines sx sy = is_solvable W H grid2 mines2 sx sy := by
  have hmc : minesCount W H mines = minesCount W H mines2 := gridCount_congr hm
  unfold is_solvable solverFinal
  rw [hmc, initialReveal_congr hg, solverLoop_congr hg]

theorem filterMap_congr_mem {α β : Type} {l : List α} {f g : α → Option β}
    (h : ∀ a ∈ l, f a = g a) : l.filterMap f = l.filterMap g := by
  induction l with
  | nil => rfl
  | cons a t ih =>
    simp only [List.filterMap_cons]
    rw [h a (List.mem_cons_self a t), ih (fun b hb => h b (List.mem_cons_of_mem a hb))]

theorem flatMap_congr_mem {α β : Type} {l : List α} {f g : α → List β}
    (h : ∀ a ∈ l, f a = g a) : l.flatMap f = l.flatMap g := by
  induction l with
  | nil => rfl
  | cons a t ih =>
    simp only [List.flatMap_cons]
    rw [h a (List.mem_cons_self a t), ih (fun b hb => h b (List.mem_cons_of_mem a hb))]

theorem hintFrontier_congr {W H : ℕ} {grid grid2 visible visible2 : ℕ → ℕ → Int}
    {flags flags2 mines mines2 : ℕ → ℕ → Bool}
    (hg : ∀ x < W, ∀ y < H, grid x y = grid2 x y)
    (hv : ∀ x < W, ∀ y < H, visible x y = visible2 x y)
    (hf : ∀ x < W, ∀ y < H, flags x y = flags2 x y)
    (hm : ∀ x < W, ∀ y < H, mines x y = mines2 x y) :
    hintFrontier W H grid visible flags mines =
      hintFrontier W H grid2 visible2 flags2 mines2 := by
  unfold hintFrontier
  refine flatMap_congr_mem ?_
  intro x hx
  rw [List.mem_range] at hx
  refine filterMap_congr_mem ?_
  intro y hy
  rw [List.mem_range] at hy
  have hfil : (nc_get W H x y).filter (fun p => -1 < visible p.1 p.2) =
      (nc_get W H x y).filter (fun p => -1 < visible2 p.1 p.2) := by
    refine List.filter_congr ?_
    intro p hp
    obtain ⟨h1, h2⟩ := nc_get_bounds hp
    rw [hv p.1 h1 p.2 h2]
  rw [hv x hx y hy, hf x hx y hy, hm x hx y hy, hg x hx y hy, hfil]

theorem hintIsland_congr {W H : ℕ} {grid grid2 visible visible2 : ℕ → ℕ → Int}
    {flags flags2 mines mines2 : ℕ → ℕ → Bool}
    (hg : ∀ x < W, ∀ y < H, grid x y = grid2 x y)
    (hv : ∀ x < W, ∀ y < H, visible x y = visible2 x y)
    (hf : ∀ x < W, ∀ y < H, flags x y = flags2 x y)
    (hm : ∀ x < W, ∀ y < H, mines x y = mines2 x y) :
    hintIsland W H grid visible flags mines =
      hintIsland W H grid2 visible2 flags2 mines2 := by
  unfold hintIsland
  refine flatMap_congr_mem ?_
  intro x hx
  rw [List.mem_range] at hx
  refine filterMap_congr_mem ?_
  intro y hy
  rw [List.mem_range] at hy
  rw [hv x hx y hy, hf x hx y hy, hm x hx y hy, hg x hx y hy]

/-- get_hint reads its four input grids only at in-bounds cells. -/
theorem get_hint_congr {W H : ℕ} {grid grid2 visible visible2 : ℕ → ℕ → Int}
    {flags flags2 mines mines2 : ℕ → ℕ → Bool}
    (hg : ∀ x < W, ∀ y < H, grid x y = grid2 x y)
    (hv : ∀ x < W, ∀ y < H, visible x y = visible2 x y)
    (hf : ∀ x < W, ∀ y < H, flags x y = flags2 x y)
    (hm : ∀ x < W, ∀ y < H, mines x y = mines2 x y) :
    get_hint W H grid visible flags mines =
      get_hint W H grid2 visible2 flags2 mines2 := by
  unfold get_hint
  rw [hintFrontier_congr hg hv hf hm, hintIsland_congr hg hv hf hm]

-- ── Access bounds: writes of the solver state are confined to the board ──
-- Every flag site of every strategy is an in-bounds cell (neighbor-cache
-- cells, frontier cells, region cells or range-scan cells), and every
-- reveal goes through the cascade's bounds-checked pop, so the visible and
-- flag grids keep their fresh-array defaults outside the board.

/-- Out-of-bounds frame: every cell outside the board still holds the
fresh-array defaults (hidden, unflagged). -/
def OOBFrame (W H : ℕ) (s : SState) : Prop :=
  ∀ x y, W ≤ x ∨ H ≤ y → s.visible x y = -1 ∧ s.flags x y = false

theorem stReveal_oob {W H : ℕ} {grid : ℕ → ℕ → Int} {s : SState}
    (h : OOBFrame W H s) (x y : ℕ) : OOBFrame W H (stReveal W H grid s x y) := by
  intro a b hab
  refine ⟨?_, (h a b hab).2⟩
  rcases simulate_reveal_go_char W H grid s.flags (1 + 9 * (W * H)) [(x, y)]
      s.visible a b with h1 | h2
  · exact h1.trans (h a b hab).1
  · obtain ⟨ha2, hb2, _⟩ := h2
    exact absurd hab (by omega)

theorem stFlagRaw_oob {W H : ℕ} {s : SState} {x y : ℕ} (hx : x < W) (hy : y < H)
    (h : OOBFrame W H s) : OOBFrame W H (stFlagRaw s x y) := by
  intro a b hab
  refine ⟨(h a b hab).1, ?_⟩
  have hne : ¬(a = x ∧ b = y) := by
    intro hc
    obtain ⟨h1, h2⟩ := hc
    subst h1; subst h2
    rcases hab with h3 | h3 <;> omega
  show upd2 s.flags x y true a b = false
  rw [upd2_other _ _ _ _ _ _ hne]
  exact (h a b hab).2

theorem basicFlagCell_oob {W H : ℕ} {sd : SState × List ℕ} {c : ℕ × ℕ}
    (hc1 : c.1 < W) (hc2 : c.2 < H) (h : OOBFrame W H sd.1) :
    OOBFrame W H (basicFlagCell W H sd c).1 := by
  unfold basicFlagCell
  split
  · exact h
  · exact stFlagRaw_oob hc1 hc2 h

theorem apply_basic_rules_oob {W H : ℕ} {grid : ℕ → ℕ → Int} (s : SState)
    (dirty : List ℕ) (hs : OOBFrame W H s) :
    OOBFrame W H (apply_basic_rules W H grid s dirty).2.1 := by
  have hfold : ∀ acc : SState × List ℕ × List ℕ × Bool, OOBFrame W H acc.1 →
      OOBFrame W H (dirty.foldl (basicKeyStep W H grid) acc).1 := by
    intro acc hacc
    refine foldl_preserve (fun acc : SState × List ℕ × List ℕ × Bool =>
      OOBFrame W H acc.1) (basicKeyStep W H grid) dirty ?_ acc hacc
    intro a key _ ha
    simp only [basicKeyStep]
    split
    · exact ha
    · split
      · exact ha
      · split
        · exact ha
        · split
          · exact ha
          · split
            · exact foldl_preserve
                (fun sd : SState × List ℕ => OOBFrame W H sd.1)
                (basicFlagCell W H)
                (hidden_neighbors W H a.1 (decode_key key).1 (decode_key key).2)
                (fun sd c hc hsd =>
                  basicFlagCell_oob (hidden_neighbors_mem hc).1
                    (hidden_neighbors_mem hc).2.1 hsd)
                (a.1, a.2.1) ha
            · split
              · exact foldl_preserve
                  (fun sd : SState × List ℕ => OOBFrame W H sd.1)
                  (basicRevealCell W H grid)
                  (hidden_neighbors W H a.1 (decode_key key).1 (decode_key key).2)
                  (fun sd c _ hsd => stReveal_oob hsd c.1 c.2)
                  (a.1, a.2.1) ha
              · exact ha
  exact hfold (s, [], [], false) hs

theorem subsetTryPair_oob {W H : ℕ} {grid : ℕ → ℕ → Int} {s : SState}
    {cd : List (ℕ × CellData)} {da : CellData} {d : Int × Int}
    {r : SState × List ℕ}
    (hcd : ∀ e ∈ cd, ∀ c ∈ e.2.hidden_list, c.1 < W ∧ c.2 < H)
    (hs : OOBFrame W H s)
    (h : subsetTryPair W H grid s cd da d = some r) :
    OOBFrame W H r.1 := by
  unfold subsetTryPair at h
  split at h
  · cases h
  · split at h
    · cases h
    · rename_i db hfind
      split at h
      · cases h
      · split at h
        · have hdb : ∀ c ∈ db.hidden_list, c.1 < W ∧ c.2 < H := by
            intro c hc
            unfold lookupCD at hfind
            cases hf2 : cd.find? (fun e => e.1 == cell_key
                ((da.x : Int) + d.1).toNat ((da.y : Int) + d.2).toNat) with
            | none => rw [hf2] at hfind; cases hfind
            | some e =>
              rw [hf2] at hfind
              simp at hfind
              cases hfind
              exact hcd e (List.mem_of_find?_eq_some hf2) c hc
          have hdiff : ∀ c ∈ subsetDiff da db, c.1 < W ∧ c.2 < H :=
            fun c hc => hdb c (List.mem_of_mem_filter hc)
          split at h
          · cases h
            exact foldl_preserve (fun sd : SState × List ℕ => OOBFrame W H sd.1)
              (basicRevealCell W H grid) (subsetDiff da db)
              (fun sd c _ hsd => stReveal_oob hsd c.1 c.2) (s, []) hs
          · split at h
            · cases h
              exact foldl_preserve (fun sd : SState × List ℕ => OOBFrame W H sd.1)
                (basicFlagCell W H) (subsetDiff da db)
                (fun sd c hc hsd =>
                  basicFlagCell_oob (hdiff c hc).1 (hdiff c hc).2 hsd) (s, []) hs
            · cases h
        · cases h

theorem subsetScanOffsets_oob {W H : ℕ} {grid : ℕ → ℕ → Int} {s : SState}
    {cd : List (ℕ × CellData)} {da : CellData}
    (hcd : ∀ e ∈ cd, ∀ c ∈ e.2.hidden_list, c.1 < W ∧ c.2 < H)
    (hs : OOBFrame W H s) :
    ∀ (ds : List (Int × Int)) (r : SState × List ℕ),
      subsetScanOffsets W H grid s cd da ds = some r →
      OOBFrame W H r.1 := by
  intro ds
  induction ds with
  | nil => intro r h; cases h
  | cons d rest ih =>
    intro r h
    unfold subsetScanOffsets at h
    match htp : subsetTryPair W H grid s cd da d with
    | some r2 =>
      rw [htp] at h; cases h
      exact subsetTryPair_oob hcd hs htp
    | none =>
      rw [htp] at h
      exact ih r h

theorem subsetScan_oob {W H : ℕ} {grid : ℕ → ℕ → Int} {s : SState}
    {cd : List (ℕ × CellData)}
    (hcd : ∀ e ∈ cd, ∀ c ∈ e.2.hidden_list, c.1 < W ∧ c.2 < H)
    (hs : OOBFrame W H s) :
    ∀ (l : List (ℕ × CellData)) (r : SState × List ℕ),
      subsetScan W H grid s cd l = some r → OOBFrame W H r.1 := by
  intro l
  induction l with
  | nil => intro r h; cases h
  | cons e rest ih =>
    intro r h
    unfold subsetScan at h
    split at h
    · exact ih r h
    · cases hso : subsetScanOffsets W H grid s cd e.2 offsets5x5 with
      | some r2 =>
        rw [hso] at h
        cases h
        exact subsetScanOffsets_oob hcd hs offsets5x5 _ hso
      | none =>
        rw [hso] at h
        exact ih r h

theorem apply_subset_logic_oob {W H : ℕ} {grid : ℕ → ℕ → Int} (s : SState)
    (dirty : List ℕ) (hs : OOBFrame W H s) :
    OOBFrame W H (apply_subset_logic W H grid s dirty).2.1 := by
  unfold apply_subset_logic
  match hscan : subsetScan W H grid s
      (subsetCellData W H s (subsetConstraintKeys W H s dirty))
      (subsetCellData W H s (subsetConstraintKeys W H s dirty)) with
  | some r =>
    simp only [hscan]
    exact subsetScan_oob
      (fun e he c hc => ⟨(subsetCellData_hidden _ e he c hc).1,
        (subsetCellData_hidden _ e he c hc).2.1⟩) hs _ r hscan
  | none =>
    simp only [hscan]
    exact hs

theorem gaussApplyMines_oob {W H : ℕ} {s : SState} {mines : List (ℕ × ℕ)}
    (hmines : ∀ c ∈ mines, c.1 < W ∧ c.2 < H) (hs : OOBFrame W H s) :
    OOBFrame W H (gaussApplyMines s mines).1 := by
  unfold gaussApplyMines
  refine foldl_preserve
    (fun acc : SState × List (ℕ × ℕ) => OOBFrame W H acc.1) _ mines ?_
    (s, []) hs
  intro a c hc ha
  split
  · exact ha
  · exact stFlagRaw_oob (hmines c hc).1 (hmines c hc).2 ha

theorem gaussApplySafes_oob {W H : ℕ} {grid : ℕ → ℕ → Int}
    (start : SState × List (ℕ × ℕ)) (safes : List (ℕ × ℕ))
    (hstart : OOBFrame W H start.1) :
    OOBFrame W H (gaussApplySafes W H grid start safes).1 := by
  unfold gaussApplySafes
  refine foldl_preserve
    (fun acc : SState × List (ℕ × ℕ) => OOBFrame W H acc.1) _ safes ?_
    start hstart
  intro a c _ ha
  split
  · exact stReveal_oob ha c.1 c.2
  · exact ha

theorem solve_by_gaussian_elimination_oob {W H : ℕ} {grid : ℕ → ℕ → Int}
    (s : SState) (hs : OOBFrame W H s) :
    OOBFrame W H (solve_by_gaussian_elimination W H grid s).2.1 := by
  unfold solve_by_gaussian_elimination
  split
  · exact hs
  · split
    · exact hs
    · have hsub := gaussianSolve_sub W H s (get_frontier W H s)
      exact gaussApplySafes_oob _ _
        (gaussApplyMines_oob
          (fun c hc => ⟨(get_frontier_mem (hsub.2 c hc)).1,
            (get_frontier_mem (hsub.2 c hc)).2.1⟩) hs)

theorem contraScan_oob {W H : ℕ} {grid : ℕ → ℕ → Int} {s : SState}
    (hs : OOBFrame W H s) :
    ∀ (cands : List (ℕ × ℕ)),
      (∀ c ∈ cands, c.1 < W ∧ c.2 < H) →
      OOBFrame W H (contraScan W H grid s cands).2.1 := by
  intro cands
  induction cands with
  | nil => intro _; exact hs
  | cons c rest ih =>
    intro hc
    obtain ⟨h1, h2⟩ := hc c (List.mem_cons_self c rest)
    unfold contraScan
    split
    · exact stReveal_oob hs c.1 c.2
    · split
      · exact stFlagRaw_oob h1 h2 hs
      · exact ih (fun c2 hc2 => hc c2 (List.mem_cons_of_mem c hc2))

theorem solve_by_contradiction_oob {W H : ℕ} {grid : ℕ → ℕ → Int} (s : SState)
    (hs : OOBFrame W H s) :
    OOBFrame W H (solve_by_contradiction W H grid s).2.1 := by
  unfold solve_by_contradiction
  refine contraScan_oob hs _ ?_
  intro c hc
  have := get_frontier_mem (List.mem_of_mem_take hc)
  exact ⟨this.1, this.2.1⟩

theorem tankApplyRegion_oob {W H : ℕ} {grid : ℕ → ℕ → Int} {s : SState}
    (dm ds : List (ℕ × ℕ)) (hdm : ∀ c ∈ dm, c.1 < W ∧ c.2 < H)
    (hs : OOBFrame W H s) :
    OOBFrame W H (tankApplyRegion W H grid s dm ds).1 := by
  unfold tankApplyRegion
  have hflag := foldl_preserve
    (fun acc : SState × List (ℕ × ℕ) × Bool => OOBFrame W H acc.1)
    (fun (acc : SState × List (ℕ × ℕ) × Bool) c =>
      if acc.1.flags c.1 c.2 then acc
      else (stFlagRaw acc.1 c.1 c.2, acc.2.1 ++ [c], true)) dm
    (by
      intro a c hc ha
      beta_reduce
      split
      · exact ha
      · exact stFlagRaw_oob (hdm c hc).1 (hdm c hc).2 ha)
    (s, [], false) hs
  refine foldl_preserve
    (fun acc : SState × List (ℕ × ℕ) × Bool => OOBFrame W H acc.1) _ ds ?_
    _ hflag
  intro a c _ ha
  split
  · exact stReveal_oob ha c.1 c.2
  · exact ha

theorem tankRegionLoop_oob {W H : ℕ} {grid : ℕ → ℕ → Int} {s : SState}
    (hs : OOBFrame W H s) (bomb_count : ℕ) :
    ∀ (regions : List (List (ℕ × ℕ))),
      (∀ region ∈ regions, ∀ c ∈ region, c.1 < W ∧ c.2 < H) →
      OOBFrame W H (tankRegionLoop W H grid bomb_count s regions).2.1 := by
  intro regions
  induction regions with
  | nil => intro _; exact hs
  | cons region rest ih =>
    intro hr
    have hrest : ∀ r2 ∈ rest, ∀ c ∈ r2, c.1 < W ∧ c.2 < H :=
      fun r2 h2 => hr r2 (List.mem_cons_of_mem region h2)
    have hregion := hr region (List.mem_cons_self region rest)
    unfold tankRegionLoop
    split
    · exact ih hrest
    · split
      · exact ih hrest
      · split
        · exact ih hrest
        · split
          · exact ih hrest
          · have hsub := analyze_configurations_sub region
              (enumerate_configurations region
                (get_region_constraints W H s region)
                ((bomb_count : Int) - (s.flagCount : Int)).toNat)
            have happ := @tankApplyRegion_oob W H grid s
              (analyze_configurations region
                (enumerate_configurations region
                  (get_region_constraints W H s region)
                  ((bomb_count : Int) - (s.flagCount : Int)).toNat)).1
              (analyze_configurations region
                (enumerate_configurations region
                  (get_region_constraints W H s region)
                  ((bomb_count : Int) - (s.flagCount : Int)).toNat)).2
              (fun c hc => hregion c (hsub.1 c hc)) hs
            split
            · exact happ
            · exact ih hrest

theorem tank_solver_oob {W H : ℕ} {grid : ℕ → ℕ → Int} {s : SState}
    (hW : W ≤ 65536) (hH : H ≤ 65536) (hs : OOBFrame W H s) (bomb_count : ℕ) :
    OOBFrame W H (tank_solver W H grid s bomb_count).2.1 := by
  unfold tank_solver
  split
  · exact hs
  · refine tankRegionLoop_oob hs bomb_count _ ?_
    intro region hrm c hc
    have hrm2 : region ∈ group_frontier_regions W H s (get_frontier W H s) :=
      List.mem_mergeSort.mp hrm
    have hcf := group_frontier_regions_sub hW hH
      (fun p hp => ⟨(get_frontier_mem hp).1, (get_frontier_mem hp).2.1⟩)
      region hrm2 c hc
    exact ⟨(get_frontier_mem hcf).1, (get_frontier_mem hcf).2.1⟩

theorem apply_global_mine_count_oob {W H : ℕ} {grid : ℕ → ℕ → Int} (s : SState)
    (bomb_count : ℕ) (hs : OOBFrame W H s) :
    OOBFrame W H (apply_global_mine_count W H grid s bomb_count).2 := by
  unfold apply_global_mine_count
  split
  · refine foldl_preserve (OOBFrame W H) _ (hiddenUnflagged W H s) ?_ s hs
    intro a c hc ha
    exact stFlagRaw_oob (hiddenUnflagged_mem hc).1 (hiddenUnflagged_mem hc).2.1 ha
  · split
    · refine foldl_preserve (OOBFrame W H) _ (hiddenUnflagged W H s) ?_ s hs
      intro a c _ ha
      exact stReveal_oob ha c.1 c.2
    · exact hs

theorem solverIteration_oob {W H : ℕ} {grid : ℕ → ℕ → Int} {s : SState}
    (hW : W ≤ 65536) (hH : H ≤ 65536) (hs : OOBFrame W H s)
    (bomb_count : ℕ) (dirty : List ℕ) :
    OOBFrame W H (solverIteration W H grid bomb_count s dirty).2.1 := by
  unfold solverIteration
  split
  · exact apply_basic_rules_oob s dirty hs
  · split
    · exact apply_subset_logic_oob s dirty hs
    · split
      · exact solve_by_gaussian_elimination_oob s hs
      · split
        · exact solve_by_contradiction_oob s hs
        · split
          · exact tank_solver_oob hW hH hs bomb_count
          · split
            · exact apply_global_mine_count_oob s bomb_count hs
            · exact hs

theorem solverLoop_oob {W H : ℕ} {grid : ℕ → ℕ → Int} {bomb_count : ℕ}
    (hW : W ≤ 65536) (hH : H ≤ 65536) :
    ∀ (fuel : ℕ) (s : SState) (dirty : List ℕ), OOBFrame W H s →
      OOBFrame W H (solverLoop W H grid bomb_count fuel s dirty).1 := by
  intro fuel
  induction fuel with
  | zero => intro s dirty hs; exact hs
  | succ fuel ih =>
    intro s dirty hs
    have hit := @solverIteration_oob W H grid s hW hH hs bomb_count dirty
    unfold solverLoop
    split
    · exact ih (solverIteration W H grid bomb_count s dirty).2.1
        (solverIteration W H grid bomb_count s dirty).2.2 hit
    · exact hit

theorem initialReveal_oob {W H : ℕ} {grid : ℕ → ℕ → Int} (sx sy : ℕ) :
    OOBFrame W H (initialReveal W H grid sx sy) := by
  unfold initialReveal
  refine foldl_preserve (OOBFrame W H) _ offsets9 ?_ _ ?_
  · intro a d _ ha
    split
    · exact stReveal_oob ha _ _
    · exact ha
  · intro x y _
    exact ⟨rfl, rfl⟩

/-- is_solvable never writes its visible or flag state out of bounds: the
final state keeps the fresh-array defaults outside the board. -/
theorem solverFinal_oob {W H : ℕ} {grid : ℕ → ℕ → Int} {mines : ℕ → ℕ → Bool}
    (hW : W ≤ 65536) (hH : H ≤ 65536) (sx sy x y : ℕ)
    (hxy : W ≤ x ∨ H ≤ y) :
    (solverFinal W H grid mines sx sy).visible x y = -1 ∧
      (solverFinal W H grid mines sx sy).flags x y = false := by
  have := @solverLoop_oob W H grid (minesCount W H mines)
    hW hH (W * H * 2) (initialReveal W H grid sx sy)
    (initialDirty W H (initialReveal W H grid sx sy)) (initialReveal_oob sx sy)
  exact this x y hxy

/-- Definitional unwrapping of place_mines_random, kept as a rewrite rule so
concrete instances never ask the kernel to evaluate the placement loop. -/
theorem place_mines_random_eq (W H bomb sx sy r : ℕ) (rng : ℕ → ℕ → ℕ)
    (off : ℕ) :
    place_mines_random W H bomb sx sy r rng off =
      (place_mines_go W H bomb sx sy r rng 100000 0 off (fun _ _ => false)).1 :=
  rfl

/-- Definitional unwrapping of place_mines_tries, kept as a rewrite rule for
the same reason. -/
theorem place_mines_tries_eq (W H bomb sx sy r : ℕ) (rng : ℕ → ℕ → ℕ)
    (off : ℕ) :
    place_mines_tries W H bomb sx sy r rng off =
      (place_mines_go W H bomb sx sy r rng 100000 0 off (fun _ _ => false)).2.2 :=
  rfl

/-- Definitional unwrapping of minesCount. -/
theorem minesCount_eq (W H : ℕ) (mines : ℕ → ℕ → Bool) :
    minesCount W H mines = gridCount W H mines :=
  rfl

-- ── Claim analyses ──

/-- Claim C1, counter-instance: on the 3x1 board with its mine at (0,0) and
start (0,0), is_solvable returns true although the non-mine cell (2,0) is
never revealed; on the 2x1 board with its mine at (0,0) and start (0,0),
every non-mine cell ends revealed although is_solvable returns false.  So
the returned boolean is not equivalent to "all non-mine cells revealed". -/
theorem C1_counterexample :
    is_solvable 3 1 (calculate_numbers 3 1 mines3x1) mines3x1 0 0 = true ∧
    mines3x1 2 0 = false ∧
    (solverFinal 3 1 (calculate_numbers 3 1 mines3x1) mines3x1 0 0).visible 2 0 = -1 ∧
    is_solvable 2 1 (calculate_numbers 2 1 mines2x1) mines2x1 0 0 = false ∧
    (∀ x < 2, ∀ y < 1, mines2x1 x y = false →
      (solverFinal 2 1 (calculate_numbers 2 1 mines2x1) mines2x1 0 0).visible x y ≠ -1) := by
  decide

/-- Claim C1 (amended): is_solvable returns true exactly when the final
revealed-cell count equals W*H minus the mine count, and whenever it returns
true the revealed count plus the mine count is exactly W*H.  Since revealed
cells may include mines (the start zone is revealed unconditionally), this
count equation is weaker than "every non-mine cell is revealed". -/
theorem C1_solvable (W H : ℕ) (grid : ℕ → ℕ → Int) (mines : ℕ → ℕ → Bool)
    (sx sy : ℕ) :
    (is_solvable W H grid mines sx sy = true ↔
      revealedCount W H (solverFinal W H grid mines sx sy).visible =
        W * H - minesCount W H mines) ∧
    (is_solvable W H grid mines sx sy = true →
      revealedCount W H (solverFinal W H grid mines sx sy).visible +
        minesCount W H mines = W * H) := by
  have hiff : is_solvable W H grid mines sx sy = true ↔
      revealedCount W H (solverFinal W H grid mines sx sy).visible =
        W * H - minesCount W H mines := by
    unfold is_solvable
    exact ⟨of_decide_eq_true, decide_eq_true⟩
  refine ⟨hiff, fun h => ?_⟩
  have h2 := hiff.mp h
  have h3 : minesCount W H mines ≤ W * H := gridCount_le W H mines
  set n := W * H with hn
  omega

/-- Claim C3: after the initial reveal, and after any strategy iteration
from any state satisfying them, the three state invariants hold (revealed
cells show their grid value and are unflagged, flagged cells are hidden, and
the running flag count equals the number of flagged cells); hence they hold
at every point of the driver trajectory. -/
theorem C3_invariants (W H : ℕ) (grid : ℕ → ℕ → Int) (bomb_count sx sy : ℕ)
    (hW : W ≤ 65536) (hH : H ≤ 65536) :
    SInv W H grid (initialReveal W H grid sx sy) ∧
    (∀ (s : SState) (dirty : List ℕ), SInv W H grid s →
      SInv W H grid (solverIteration W H grid bomb_count s dirty).2.1) ∧
    ∀ n, SInv W H grid (iterState W H grid bomb_count
      (initialReveal W H grid sx sy,
        initialDirty W H (initialReveal W H grid sx sy)) n).1 := by
  refine ⟨initialReveal_inv W H grid sx sy, ?_, ?_⟩
  · intro s dirty hinv
    exact (solverIteration_pres hW hH hinv bomb_count dirty).1
  · intro n
    exact (@iterState_pres W H grid bomb_count
      (initialReveal W H grid sx sy,
        initialDirty W H (initialReveal W H grid sx sy)) hW hH
      (initialReveal_inv W H grid sx sy) n).1

/-- Claim C3, witness instance: the invariants after the initial reveal on a
1x1 board. -/
theorem C3_witness :
    SInv 1 1 (fun _ _ => 0) (initialReveal 1 1 (fun _ _ => 0) 0 0) :=
  (C3_invariants 1 1 (fun _ _ => 0) 0 0 0 (by decide) (by decide)).1

/-- Claim C4, counter-instance: with max_attempts = 0 the generator still
makes one attempt, so the returned attempts = 1 exceeds max_attempts. -/
theorem C4_counterexample :
    (generate_solvable_board 1 1 0 0 0 0 0 zeroDraws solv1x1).attempts = 1 ∧
    (generate_solvable_board 1 1 0 0 0 0 0 zeroDraws solv1x1).success = true ∧
    ¬((generate_solvable_board 1 1 0 0 0 0 0 zeroDraws solv1x1).attempts ≤ 0) := by
  decide

/-- Claim C4 (amended): the attempt count lies between 1 and
max(max_attempts, 1); success certifies the injected solvability callback on
the returned grid and mines at the safe start; and, success or failure, the
returned board is the last attempted placement with its computed numbers. -/
theorem C4_generation (W H bomb sx sy r max_attempts : ℕ) (rng : ℕ → ℕ → ℕ)
    (solv : (ℕ → ℕ → Int) → (ℕ → ℕ → Bool) → ℕ → ℕ → Bool) :
    1 ≤ (generate_solvable_board W H bomb sx sy r max_attempts rng solv).attempts ∧
    (generate_solvable_board W H bomb sx sy r max_attempts rng solv).attempts ≤
      max max_attempts 1 ∧
    ((generate_solvable_board W H bomb sx sy r max_attempts rng solv).success = true →
      solv (generate_solvable_board W H bomb sx sy r max_attempts rng solv).grid
        (generate_solvable_board W H bomb sx sy r max_attempts rng solv).mines
        sx sy = true) ∧
    (generate_solvable_board W H bomb sx sy r max_attempts rng solv).mines =
      place_mines_random W H bomb sx sy r rng
        (200000 *
          ((generate_solvable_board W H bomb sx sy r max_attempts rng solv).attempts - 1)) ∧
    (generate_solvable_board W H bomb sx sy r max_attempts rng solv).grid =
      calculate_numbers W H
        (generate_solvable_board W H bomb sx sy r max_attempts rng solv).mines := by
  unfold generate_solvable_board
  obtain ⟨h1, h2, h3, h4, h5⟩ := genAux_spec W H bomb sx sy r rng solv
    (max_attempts - 1) 0
  exact ⟨h1, by omega, h3, h4, h5⟩

/-- Claim C5, counter-instance: with width = height = 1, one requested mine,
safe cell (0,0) and radius 0, every try is rejected by the safe zone, so the
returned board has zero mines instead of bomb_count = 1, and the loop uses
its whole 100000-try budget. -/
theorem C5_counterexample :
    minesCount 1 1 (place_mines_random 1 1 1 0 0 0 zeroDraws 0) = 0 ∧
    minesCount 1 1 (place_mines_random 1 1 1 0 0 0 zeroDraws 0) ≠ 1 ∧
    place_mines_tries 1 1 1 0 0 0 zeroDraws 0 = 100000 := by
  have h := place_mines_go_stuck 100000 0 (fun _ _ => false)
  have hm : minesCount 1 1 (place_mines_random 1 1 1 0 0 0 zeroDraws 0) = 0 := by
    rw [minesCount_eq, place_mines_random_eq, h]
    exact gridCount_false 1 1
  refine ⟨hm, ?_, ?_⟩
  · rw [hm]; decide
  · rw [place_mines_tries_eq, h]

/-- Claim C5 (amended): for every draw stream honoring the generator's range
contract and every parameter tuple on a nonempty board, place_mines_random
returns at most bomb_count mines (exactly bomb_count is not guaranteed —
the safe zone can starve the loop), none within Chebyshev distance
safe_radius of the safe cell, and the loop performs at most 100000 tries. -/
theorem C5_placement (W H bomb sx sy r : ℕ) (rng : ℕ → ℕ → ℕ) (off : ℕ)
    (hW : 0 < W) (hH : 0 < H) (hrng : ∀ t n, 0 < n → rng t n < n) :
    minesCount W H (place_mines_random W H bomb sx sy r rng off) ≤ bomb ∧
    (∀ x y, inSafeZone sx sy r x y →
      place_mines_random W H bomb sx sy r rng off x y = false) ∧
    place_mines_tries W H bomb sx sy r rng off ≤ 100000 := by
  unfold minesCount place_mines_random place_mines_tries
  obtain ⟨h1, h2, h3, h4, h5⟩ := place_mines_go_spec W H bomb sx sy r rng hW hH hrng
    100000 0 off (fun _ _ => false) (gridCount_false W H) (Nat.zero_le bomb)
    (fun _ _ _ => rfl) (fun _ _ _ => rfl)
  exact ⟨by omega, h3, h5⟩

/-- Claim C5, witness instance of the amended placement theorem at a
concrete parameter tuple. -/
theorem C5_witness :
    minesCount 1 1 (place_mines_random 1 1 0 0 0 0 zeroDraws 0) ≤ 0 ∧
    (∀ x y, inSafeZone 0 0 0 x y →
      place_mines_random 1 1 0 0 0 0 zeroDraws 0 x y = false) ∧
    place_mines_tries 1 1 0 0 0 0 zeroDraws 0 ≤ 100000 :=
  C5_placement 1 1 0 0 0 0 zeroDraws 0 Nat.one_pos Nat.one_pos
    (fun _ n hn => hn)

/-- Claim C6: along the driver trajectory of is_solvable, the revealed-cell
count and the flag count never decrease from one iteration to the next, and
both are bounded by W*H. -/
theorem C6_monotone (W H : ℕ) (grid : ℕ → ℕ → Int) (bomb_count sx sy n : ℕ)
    (hW : W ≤ 65536) (hH : H ≤ 65536) :
    revealedCount W H (iterState W H grid bomb_count
        (initialReveal W H grid sx sy,
          initialDirty W H (initialReveal W H grid sx sy)) n).1.visible ≤
      revealedCount W H (iterState W H grid bomb_count
        (initialReveal W H grid sx sy,
          initialDirty W H (initialReveal W H grid sx sy)) (n + 1)).1.visible ∧
    gridCount W H (iterState W H grid bomb_count
        (initialReveal W H grid sx sy,
          initialDirty W H (initialReveal W H grid sx sy)) n).1.flags ≤
      gridCount W H (iterState W H grid bomb_count
        (initialReveal W H grid sx sy,
          initialDirty W H (initialReveal W H grid sx sy)) (n + 1)).1.flags ∧
    revealedCount W H (iterState W H grid bomb_count
        (initialReveal W H grid sx sy,
          initialDirty W H (initialReveal W H grid sx sy)) n).1.visible ≤ W * H ∧
    gridCount W H (iterState W H grid bomb_count
        (initialReveal W H grid sx sy,
          initialDirty W H (initialReveal W H grid sx sy)) n).1.flags ≤ W * H := by
  have h := @iterState_pres W H grid bomb_count
    (initialReveal W H grid sx sy,
      initialDirty W H (initialReveal W H grid sx sy)) hW hH
    (initialReveal_inv W H grid sx sy) n
  have hc := stepMono_counts (W := W) (H := H) h.2
  exact ⟨hc.1, hc.2, gridCount_le W H _, gridCount_le W H _⟩

/-- Claim C6, witness instance at a 1x1 board, first iteration. -/
theorem C6_witness :
    revealedCount 1 1 (iterState 1 1 (fun _ _ => 0) 0
        (initialReveal 1 1 (fun _ _ => 0) 0 0,
          initialDirty 1 1 (initialReveal 1 1 (fun _ _ => 0) 0 0)) 0).1.visible ≤
      revealedCount 1 1 (iterState 1 1 (fun _ _ => 0) 0
        (initialReveal 1 1 (fun _ _ => 0) 0 0,
          initialDirty 1 1 (initialReveal 1 1 (fun _ _ => 0) 0 0)) 1).1.visible ∧
    gridCount 1 1 (iterState 1 1 (fun _ _ => 0) 0
        (initialReveal 1 1 (fun _ _ => 0) 0 0,
          initialDirty 1 1 (initialReveal 1 1 (fun _ _ => 0) 0 0)) 0).1.flags ≤
      gridCount 1 1 (iterState 1 1 (fun _ _ => 0) 0
        (initialReveal 1 1 (fun _ _ => 0) 0 0,
          initialDirty 1 1 (initialReveal 1 1 (fun _ _ => 0) 0 0)) 1).1.flags ∧
    revealedCount 1 1 (iterState 1 1 (fun _ _ => 0) 0
        (initialReveal 1 1 (fun _ _ => 0) 0 0,
          initialDirty 1 1 (initialReveal 1 1 (fun _ _ => 0) 0 0)) 0).1.visible ≤
      1 * 1 ∧
    gridCount 1 1 (iterState 1 1 (fun _ _ => 0) 0
        (initialReveal 1 1 (fun _ _ => 0) 0 0,
          initialDirty 1 1 (initialReveal 1 1 (fun _ _ => 0) 0 0)) 0).1.flags ≤
      1 * 1 :=
  C6_monotone 1 1 (fun _ _ => 0) 0 0 0 0 (by decide) (by decide)

/-- Claim C7: for regions within the size cap, enumerate_configurations
returns exactly the masks below 2^|region| whose popcount fits the remaining
budget and whose per-constraint outside requirement lies between zero and
the constraint's outside count; analyze_configurations marks exactly the
region cells whose bit is set in every valid mask as definite mines and
those whose bit is clear in every valid mask as definite safes; and the
two-cell, one-constraint, remaining-one example yields exactly the masks
1 and 2 and no deduction. -/
theorem C7_tank_enumeration (region : List (ℕ × ℕ))
    (constraints : List RegionConstraint) (max_mines : ℕ)
    (valid_masks : List ℕ) :
    (region.length ≤ MAX_REGION_SIZE →
      ∀ mask, mask ∈ enumerate_configurations region constraints max_mines ↔
        (mask < 2 ^ region.length ∧ countOnes mask ≤ max_mines ∧
          ∀ c ∈ constraints,
            0 ≤ c.remaining - ((c.cells_in_region_indices.filter
                (fun idx => (mask >>> idx) % 2 = 1)).length : Int) ∧
            c.remaining - ((c.cells_in_region_indices.filter
                (fun idx => (mask >>> idx) % 2 = 1)).length : Int) ≤
              (c.cells_outside_count : Int))) ∧
    analyze_configurations region valid_masks =
      (((List.range region.length).filter
          (fun i => valid_masks.all (fun m => (m >>> i) % 2 = 1))).map
          (fun i => region.getD i (0, 0)),
       ((List.range region.length).filter
          (fun i => valid_masks.all (fun m => (m >>> i) % 2 = 0))).map
          (fun i => region.getD i (0, 0))) ∧
    enumerate_configurations [(0, 0), (1, 0)] [⟨1, [0, 1], 0⟩] 1 = [1, 2] ∧
    analyze_configurations [(0, 0), (1, 0)] [1, 2] = ([], []) :=
  ⟨fun hlen mask => enumerate_configurations_mem region constraints
      max_mines hlen mask,
    analyze_configurations_eq region valid_masks, by decide, by decide⟩

/-- Claim C8: the reveal cascade computes its final grid within the
1 + 9*W*H step budget (any larger budget yields the same visible grid, the
budget itself being justified by the at most W*H hidden cells), and the
driver's strategy loop executes at most 2*W*H iterations. -/
theorem C8_termination (W H : ℕ) (grid : ℕ → ℕ → Int) (flags : ℕ → ℕ → Bool)
    (x y : ℕ) (v : ℕ → ℕ → Int) (fuel bomb_count : ℕ) (s : SState)
    (dirty : List ℕ) (hfuel : 1 + 9 * (W * H) ≤ fuel) :
    simulate_reveal_go W H grid flags fuel [(x, y)] v =
      simulate_reveal W H grid flags x y v ∧
    hiddenCount W H v ≤ W * H ∧
    (solverLoop W H grid bomb_count (W * H * 2) s dirty).2 ≤ W * H * 2 := by
  refine ⟨simulate_reveal_fuel_stable W H grid flags x y v fuel hfuel, ?_, ?_⟩
  · exact gridCount_le W H _
  · exact solverLoop_iter_le W H grid bomb_count (W * H * 2) s dirty

/-- Claim C8, witness instance at a 1x1 board with budget 10. -/
theorem C8_witness :
    simulate_reveal_go 1 1 (fun _ _ => 0) (fun _ _ => false) 10 [(0, 0)]
        (fun _ _ => -1) =
      simulate_reveal 1 1 (fun _ _ => 0) (fun _ _ => false) 0 0 (fun _ _ => -1) ∧
    hiddenCount 1 1 (fun _ _ => -1) ≤ 1 * 1 ∧
    (solverLoop 1 1 (fun _ _ => 0) 0 (1 * 1 * 2)
        ⟨fun _ _ => -1, fun _ _ => false, 0⟩ []).2 ≤ 1 * 1 * 2 :=
  C8_termination 1 1 (fun _ _ => 0) (fun _ _ => false) 0 0 (fun _ _ => -1) 10 0
    ⟨fun _ _ => -1, fun _ _ => false, 0⟩ [] (by decide)

/-- Claim C9: get_hint equals the spec-side first-maximum selection over the
frontier candidates when any exist and otherwise over the island candidates,
realizing "max score, ties broken by x-major scan order"; it returns none
exactly when no hidden, unflagged, non-mine cell exists; every returned hint
is a hidden, unflagged, in-bounds non-mine cell (never a mine); and when
frontier candidates exist the returned hint is one of maximum score among
them. -/
theorem C9_hint (W H : ℕ) (grid visible : ℕ → ℕ → Int)
    (flags mines : ℕ → ℕ → Bool) :
    (hintFrontier W H grid visible flags mines ≠ [] →
      get_hint W H grid visible flags mines =
        hint_spec_pick (hintFrontier W H grid visible flags mines)) ∧
    (hintFrontier W H grid visible flags mines = [] →
      get_hint W H grid visible flags mines =
        hint_spec_pick (hintIsland W H grid visible flags mines)) ∧
    (get_hint W H grid visible flags mines = none ↔
      ∀ x < W, ∀ y < H,
        ¬(visible x y = -1 ∧ flags x y = false ∧ mines x y = false)) ∧
    (∀ h, get_hint W H grid visible flags mines = some h →
      h.x < W ∧ h.y < H ∧ visible h.x h.y = -1 ∧ flags h.x h.y = false ∧
        mines h.x h.y = false) ∧
    (∀ h, get_hint W H grid visible flags mines = some h →
      hintFrontier W H grid visible flags mines ≠ [] →
      h ∈ hintFrontier W H grid visible flags mines ∧
        ∀ g ∈ hintFrontier W H grid visible flags mines, g.score ≤ h.score) := by
  have heq := get_hint_eq W H grid visible flags mines
  refine ⟨?_, ?_, ?_, ?_, ?_⟩
  · intro hne
    rw [heq, if_pos hne]
  · intro hnil
    rw [heq, if_neg (fun hc => hc hnil)]
    by_cases h2 : hintIsland W H grid visible flags mines ≠ []
    · rw [if_pos h2]
    · rw [if_neg h2]
      have h2' : hintIsland W H grid visible flags mines = [] := by
        by_contra hc
        exact h2 hc
      rw [h2']
      rfl
  · constructor
    · intro hnone
      rw [heq] at hnone
      by_cases h1 : hintFrontier W H grid visible flags mines ≠ []
      · rw [if_pos h1] at hnone
        obtain ⟨b, t, hbt⟩ := List.exists_cons_of_ne_nil h1
        rw [hbt] at hnone
        exact Option.noConfusion hnone
      · rw [if_neg h1] at hnone
        by_cases h2 : hintIsland W H grid visible flags mines ≠ []
        · rw [if_pos h2] at hnone
          obtain ⟨b, t, hbt⟩ := List.exists_cons_of_ne_nil h2
          rw [hbt] at hnone
          exact Option.noConfusion hnone
        · have h2' : hintIsland W H grid visible flags mines = [] := by
            by_contra hc
            exact h2 hc
          exact hintIsland_eq_nil_iff.mp h2'
    · intro hall
      have h2' : hintIsland W H grid visible flags mines = [] :=
        hintIsland_eq_nil_iff.mpr hall
      have h1' : hintFrontier W H grid visible flags mines = [] := by
        by_contra hc
        exact (hintIsland_ne_nil_of_frontier hc) h2'
      rw [heq, if_neg (fun hc => hc h1'), if_neg (fun hc => hc h2')]
  · intro h hsome
    rw [heq] at hsome
    by_cases h1 : hintFrontier W H grid visible flags mines ≠ []
    · rw [if_pos h1] at hsome
      obtain ⟨m1, m2, m3, m4, m5, _, _⟩ :=
        mem_hintFrontier.mp (hint_spec_pick_mem hsome)
      exact ⟨m1, m2, m3, m4, m5⟩
    · rw [if_neg h1] at hsome
      by_cases h2 : hintIsland W H grid visible flags mines ≠ []
      · rw [if_pos h2] at hsome
        obtain ⟨m1, m2, m3, m4, m5, _⟩ :=
          mem_hintIsland.mp (hint_spec_pick_mem hsome)
        exact ⟨m1, m2, m3, m4, m5⟩
      · rw [if_neg h2] at hsome
        exact Option.noConfusion hsome
  · intro h hsome hne
    rw [heq, if_pos hne] at hsome
    exact ⟨hint_spec_pick_mem hsome, hint_spec_pick_max hsome⟩

/-- Claim C10: under the claimed preconditions (1 ≤ W < 65536, 1 ≤ H < 65536,
in-range start cell), every array access of is_solvable and get_hint stays in
bounds. In the embedding, where each access is guarded or routed through the
neighbor cache, this is captured by: (1) every neighbor-cache entry is an
in-bounds cell; (2) the reveal cascade never touches a cell outside the board;
(3) a decoded dirty-set key pointing outside the board is rejected by the
bounds check before any access; (4) is_solvable reads the grid and mine arrays
only at in-bounds cells — its result is unchanged by arbitrary changes outside
the board; (5) is_solvable writes the visible and flag state only at in-bounds
cells — outside the board the final state keeps the fresh-array defaults; and
(6) get_hint reads all four arrays only at in-bounds cells. -/
theorem C10_access_bounds (W H : ℕ) (hW1 : 1 ≤ W) (hW2 : W < 65536)
    (hH1 : 1 ≤ H) (hH2 : H < 65536) :
    (∀ x y : ℕ, ∀ p ∈ nc_get W H x y, p.1 < W ∧ p.2 < H) ∧
    (∀ (grid : ℕ → ℕ → Int) (flags : ℕ → ℕ → Bool) (x y : ℕ)
        (v : ℕ → ℕ → Int) (a b : ℕ), W ≤ a ∨ H ≤ b →
      simulate_reveal W H grid flags x y v a b = v a b) ∧
    (∀ (grid : ℕ → ℕ → Int) (acc : SState × List ℕ × List ℕ × Bool) (key : ℕ),
      W ≤ (decode_key key).1 ∨ H ≤ (decode_key key).2 →
      basicKeyStep W H grid acc key = acc) ∧
    (∀ (grid grid2 : ℕ → ℕ → Int) (mines mines2 : ℕ → ℕ → Bool) (sx sy : ℕ),
      sx < W → sy < H →
      (∀ x < W, ∀ y < H, grid x y = grid2 x y) →
      (∀ x < W, ∀ y < H, mines x y = mines2 x y) →
      is_solvable W H grid mines sx sy = is_solvable W H grid2 mines2 sx sy) ∧
    (∀ (grid : ℕ → ℕ → Int) (mines : ℕ → ℕ → Bool) (sx sy x y : ℕ),
      sx < W → sy < H → W ≤ x ∨ H ≤ y →
      (solverFinal W H grid mines sx sy).visible x y = -1 ∧
        (solverFinal W H grid mines sx sy).flags x y = false) ∧
    (∀ (g1 g2 v1 v2 : ℕ → ℕ → Int) (f1 f2 m1 m2 : ℕ → ℕ → Bool),
      (∀ x < W, ∀ y < H, g1 x y = g2 x y) →
      (∀ x < W, ∀ y < H, v1 x y = v2 x y) →
      (∀ x < W, ∀ y < H, f1 x y = f2 x y) →
      (∀ x < W, ∀ y < H, m1 x y = m2 x y) →
      get_hint W H g1 v1 f1 m1 = get_hint W H g2 v2 f2 m2) := by
  refine ⟨?_, ?_, ?_, ?_, ?_, ?_⟩
  · intro x y p hp
    exact nc_get_bounds hp
  · intro grid flags x y v a b hab
    unfold simulate_reveal
    rcases simulate_reveal_go_char W H grid flags (1 + 9 * (W * H)) [(x, y)]
        v a b with h1 | h2
    · exact h1
    · obtain ⟨ha, hb, _⟩ := h2
      exact absurd hab (by omega)
  · intro grid acc key h
    simp only [basicKeyStep]
    rw [if_pos h]
  · intro grid grid2 mines mines2 sx sy _ _ hg hm
    exact is_solvable_congr sx sy hg hm
  · intro grid mines sx sy x y _ _ hxy
    exact solverFinal_oob (Nat.le_of_lt hW2) (Nat.le_of_lt hH2) sx sy x y hxy
  · intro g1 g2 v1 v2 f1 f2 m1 m2 hg hv hf hm
    exact get_hint_congr hg hv hf hm

/-- Witness for C10: the access-bounds conjunction holds on the concrete
1×1 board. -/
theorem C10_witness :
    (∀ x y : ℕ, ∀ p ∈ nc_get 1 1 x y, p.1 < 1 ∧ p.2 < 1) ∧
    (∀ (grid : ℕ → ℕ → Int) (flags : ℕ → ℕ → Bool) (x y : ℕ)
        (v : ℕ → ℕ → Int) (a b : ℕ), 1 ≤ a ∨ 1 ≤ b →
      simulate_reveal 1 1 grid flags x y v a b = v a b) ∧
    (∀ (grid : ℕ → ℕ → Int) (acc : SState × List ℕ × List ℕ × Bool) (key : ℕ),
      1 ≤ (decode_key key).1 ∨ 1 ≤ (decode_key key).2 →
      basicKeyStep 1 1 grid acc key = acc) ∧
    (∀ (grid grid2 : ℕ → ℕ → Int) (mines mines2 : ℕ → ℕ → Bool) (sx sy : ℕ),
      sx < 1 → sy < 1 →
      (∀ x < 1, ∀ y < 1, grid x y = grid2 x y) →
      (∀ x < 1, ∀ y < 1, mines x y = mines2 x y) →
      is_solvable 1 1 grid mines sx sy = is_solvable 1 1 grid2 mines2 sx sy) ∧
    (∀ (grid : ℕ → ℕ → Int) (mines : ℕ → ℕ → Bool) (sx sy x y : ℕ),
      sx < 1 → sy < 1 → 1 ≤ x ∨ 1 ≤ y →
      (solverFinal 1 1 grid mines sx sy).visible x y = -1 ∧
        (solverFinal 1 1 grid mines sx sy).flags x y = false) ∧
    (∀ (g1 g2 v1 v2 : ℕ → ℕ → Int) (f1 f2 m1 m2 : ℕ → ℕ → Bool),
      (∀ x < 1, ∀ y < 1, g1 x y = g2 x y) →
      (∀ x < 1, ∀ y < 1, v1 x y = v2 x y) →
      (∀ x < 1, ∀ y < 1, f1 x y = f2 x y) →
      (∀ x < 1, ∀ y < 1, m1 x y = m2 x y) →
      get_hint 1 1 g1 v1 f1 m1 = get_hint 1 1 g2 v2 f2 m2) :=
  C10_access_bounds 1 1 (by decide) (by decide) (by decide) (by decide)

end MSolver
